import Mathlib

/-!
# HelloDataStructure: a verification development

Shallow embedding of the containers and of the adjacency-matrix graph of the
repository, followed by theorems about them.

Conventions of the embedding:

* C and C++ `int` values are `Int`. In the containers every place where the source
  could leave the range of `int` is guarded in the source by a check that the
  embedding keeps (`check_full` before an increment, `check_empty` before a
  decrement).
* A function that changes an object returns the outcome together with the object
  afterwards, `Except Error _ × State`, so that the state a failing call leaves
  behind is part of the model.
* Heap-allocated nodes live in an explicit `Heap`: a list of cells indexed by
  address, `none` marking a cell that is not (or no longer) allocated.
* Arrays are lists; an access outside an array is the error `fault`.
-/

namespace HelloDS

/-! ## Definitions -/

/-- The ways an operation of the library can stop. `fault` stands for an access
outside allocated memory, which the source never checks for; `fuel` for a loop of the
model that used up its iteration bound (the theorems show that this does not happen);
`alloc` for `std::bad_alloc`, thrown by a `new` that cannot be served. -/
inductive Error where
  | empty
  | full
  | bounds
  | fault
  | fuel
  | alloc
deriving DecidableEq, Repr

deriving instance DecidableEq for Except

/-- The value of `INT_MAX` from `<limits.h>` for a 32-bit `int`. -/
def INT_MAX : Int := 2147483647

/-- Modelled from the spec: `check_empty` of `common/check_empty.h` (C) and
`common/utility.hpp` (C++) is not among the sources; it stops with
"Error: The container is empty." exactly when the size is zero. -/
def check_empty (size : Int) : Except Error Unit :=
  if size = 0 then .error .empty else .ok ()

/-- Modelled from the spec: `check_full` of `common/check_full.h` (C) and
`common/utility.hpp` (C++) is not among the sources; it stops with the
full-container error exactly when the size has reached the capacity. -/
def check_full (size capacity : Int) : Except Error Unit :=
  if size ≥ capacity then .error .full else .ok ()

/-- Modelled from the spec: `check_bounds` of `common/utility.hpp` is not among
the sources; it stops with the bounds error exactly when `pos` is outside the
half-open range from `first` to `last`. -/
def check_bounds (pos first last : Int) : Except Error Unit :=
  if pos < first ∨ pos ≥ last then .error .bounds else .ok ()

/-! ### LinkedQueue.c -/

/-- The item type of the queue, `LinkedQueueItem` of `LinkedQueue.h`; integers here. -/
abbrev LinkedQueueItem := Int

/-- Model of `struct LinkedQueueNode`: the data and the successor, `none` for `NULL`. -/
structure LinkedQueueNode where
  data : LinkedQueueItem
  next : Option Nat
deriving DecidableEq, Repr

/-- Memory holding queue nodes, indexed by address. -/
abbrev Heap := List (Option LinkedQueueNode)

/-- Model of `malloc`: a fresh cell at the end of the heap; its address is the old length. -/
def Heap.malloc (h : Heap) : Nat × Heap :=
  (h.length, h ++ [some ⟨0, none⟩])

/-- Read through a pointer; reading an unallocated cell is a fault. -/
def Heap.load (h : Heap) (a : Nat) : Except Error LinkedQueueNode :=
  match h[a]? with
  | some (some nd) => .ok nd
  | _ => .error .fault

/-- Write through a pointer (the callers have loaded the cell before). -/
def Heap.store (h : Heap) (a : Nat) (nd : LinkedQueueNode) : Heap :=
  h.set a (some nd)

/-- Model of `free`. -/
def Heap.free (h : Heap) (a : Nat) : Heap :=
  h.set a none

/-- Model of `struct LinkedQueue` together with the memory its pointers refer to. -/
structure LinkedQueue where
  heap : Heap
  size : Int
  front : Nat
  rear : Nat
deriving DecidableEq, Repr

/-- Model of `LinkedQueue_Create`, run on an empty heap: the header node is allocated,
`rear` aliases `front`, and the header has no successor. -/
def LinkedQueue_Create : LinkedQueue :=
  let (front, h) := Heap.malloc []
  { heap := h.store front ⟨0, none⟩, size := 0, front := front, rear := front }

/-- Model of `LinkedQueue_Size`. -/
def LinkedQueue_Size (self : LinkedQueue) : Int := self.size

/-- Model of `LinkedQueue_IsEmpty`. -/
def LinkedQueue_IsEmpty (self : LinkedQueue) : Bool := self.size == 0

/-- Model of `LinkedQueue_Enqueue`: the outcome and the queue afterwards. -/
def LinkedQueue_Enqueue (self : LinkedQueue) (data : LinkedQueueItem) :
    Except Error Unit × LinkedQueue :=
  match check_full self.size INT_MAX with
  | .error e => (.error e, self)
  | .ok _ =>
    -- add = malloc(..); add->data = data; add->next = NULL;
    let (add, h) := self.heap.malloc
    let self := { self with heap := h.store add ⟨data, none⟩ }
    -- self->rear->next = add;
    match self.heap.load self.rear with
    | .error e => (.error e, self)
    | .ok r =>
      let self := { self with heap := self.heap.store self.rear { r with next := some add } }
      -- self->rear = add; ++self->size;
      let self := { self with rear := add }
      (.ok (), { self with size := self.size + 1 })

/-- Model of `LinkedQueue_Dequeue`: the outcome (the removed item) and the queue
afterwards. -/
def LinkedQueue_Dequeue (self : LinkedQueue) : Except Error LinkedQueueItem × LinkedQueue :=
  match check_empty self.size with
  | .error e => (.error e, self)
  | .ok _ =>
    match self.heap.load self.front with
    | .error e => (.error e, self)
    | .ok f =>
      -- if (self->rear == self->front->next) self->rear = self->front;
      let self := if some self.rear = f.next then { self with rear := self.front } else self
      -- del = self->front->next; data = del->data;
      match f.next with
      | none => (.error .fault, self)
      | some del =>
        match self.heap.load del with
        | .error e => (.error e, self)
        | .ok d =>
          -- self->front->next = del->next; free(del); --self->size;
          let self := { self with heap := self.heap.store self.front { f with next := d.next } }
          let self := { self with heap := self.heap.free del }
          (.ok d.data, { self with size := self.size - 1 })

/-- Model of `LinkedQueue_Front`: the outcome (the front item) and the queue afterwards. -/
def LinkedQueue_Front (self : LinkedQueue) : Except Error LinkedQueueItem × LinkedQueue :=
  match check_empty self.size with
  | .error e => (.error e, self)
  | .ok _ =>
    -- return self->front->next->data;
    match self.heap.load self.front with
    | .error e => (.error e, self)
    | .ok f =>
      match f.next with
      | none => (.error .fault, self)
      | some a =>
        match self.heap.load a with
        | .error e => (.error e, self)
        | .ok d => (.ok d.data, self)

/-- The cells `cells` (address and item, oldest first) are linked in `h` starting at
the pointer `p` and ending with `NULL`. -/
def IsChain (h : Heap) : Option Nat → List (Nat × LinkedQueueItem) → Prop
  | p, [] => p = none
  | p, (a, x) :: rest =>
      p = some a ∧ ∃ nxt, h[a]? = some (some ⟨x, nxt⟩) ∧ IsChain h nxt rest

/-- Representation of a queue by data nodes `cells` behind the header: the header is
allocated and starts the chain, the node addresses are distinct and differ from the
header, `rear` is the last data node (the header when there is none), and `size`
counts the data nodes. -/
def LinkedQueue.RepCells (q : LinkedQueue) (cells : List (Nat × LinkedQueueItem)) : Prop :=
  (∃ d nxt, q.heap[q.front]? = some (some ⟨d, nxt⟩) ∧ IsChain q.heap nxt cells) ∧
  (q.front :: cells.map Prod.fst).Nodup ∧
  q.rear = (cells.map Prod.fst).getLastD q.front ∧
  q.size = cells.length

/-- The queue `q` is well formed and stores the items `xs`, oldest first. -/
def LinkedQueue.Rep (q : LinkedQueue) (xs : List LinkedQueueItem) : Prop :=
  ∃ cells, cells.map Prod.snd = xs ∧ q.RepCells cells

/-- Enqueue the items of a list one after the other, stopping at the first failure. -/
def LinkedQueue_EnqueueAll (self : LinkedQueue) :
    List LinkedQueueItem → Except Error Unit × LinkedQueue
  | [] => (.ok (), self)
  | x :: xs =>
    match LinkedQueue_Enqueue self x with
    | (.error e, q) => (.error e, q)
    | (.ok _, q) => LinkedQueue_EnqueueAll q xs

/-- Dequeue `n` times, stopping at the first failure; the returned items are collected
in the order they were returned. -/
def LinkedQueue_DequeueN (self : LinkedQueue) :
    Nat → Except Error (List LinkedQueueItem) × LinkedQueue
  | 0 => (.ok [], self)
  | n + 1 =>
    match LinkedQueue_Dequeue self with
    | (.error e, q) => (.error e, q)
    | (.ok x, q) =>
      match LinkedQueue_DequeueN q n with
      | (.error e, q) => (.error e, q)
      | (.ok xs, q) => (.ok (x :: xs), q)

/-! ### ArrayStack.c -/

/-- The item type of the stack, `ArrayStackItem` of `ArrayStack.h`; integers here. -/
abbrev ArrayStackItem := Int

/-- The fixed capacity of the stack: `#define MAX_CAPACITY 256`. -/
def ArrayStack.MAX_CAPACITY : Int := 256

/-- Model of `struct ArrayStack`: the array `data` (a list of `MAX_CAPACITY` cells) and
the index `top` of the top element, `-1` for an empty stack. -/
structure ArrayStack where
  data : List ArrayStackItem
  top : Int
deriving DecidableEq, Repr

/-- Model of `ArrayStack_Create`; the cells of the fresh array hold arbitrary values,
here zeros. -/
def ArrayStack_Create : ArrayStack :=
  { data := List.replicate 256 0, top := -1 }

/-- Model of `ArrayStack_Size`. -/
def ArrayStack_Size (self : ArrayStack) : Int := self.top + 1

/-- Model of `ArrayStack_IsEmpty`. -/
def ArrayStack_IsEmpty (self : ArrayStack) : Bool := self.top + 1 == 0

/-- Model of `ArrayStack_Push`: the outcome and the stack afterwards. An index outside
the array is a fault. -/
def ArrayStack_Push (self : ArrayStack) (data : ArrayStackItem) :
    Except Error Unit × ArrayStack :=
  match check_full (ArrayStack_Size self) ArrayStack.MAX_CAPACITY with
  | .error e => (.error e, self)
  | .ok _ =>
    -- self->data[++(self->top)] = data;
    let self := { self with top := self.top + 1 }
    if 0 ≤ self.top ∧ self.top < self.data.length then
      (.ok (), { self with data := self.data.set self.top.toNat data })
    else
      (.error .fault, self)

/-- Model of `ArrayStack_Pop`: the outcome (the removed item) and the stack afterwards. -/
def ArrayStack_Pop (self : ArrayStack) : Except Error ArrayStackItem × ArrayStack :=
  match check_empty (ArrayStack_Size self) with
  | .error e => (.error e, self)
  | .ok _ =>
    -- return self->data[(self->top)--];
    match (if 0 ≤ self.top then self.data[self.top.toNat]? else none) with
    | none => (.error .fault, self)
    | some x => (.ok x, { self with top := self.top - 1 })

/-- Model of `ArrayStack_Top`: the outcome (the top item) and the stack afterwards. -/
def ArrayStack_Top (self : ArrayStack) : Except Error ArrayStackItem × ArrayStack :=
  match check_empty (ArrayStack_Size self) with
  | .error e => (.error e, self)
  | .ok _ =>
    match (if 0 ≤ self.top then self.data[self.top.toNat]? else none) with
    | none => (.error .fault, self)
    | some x => (.ok x, self)

/-- Model of `ArrayStack_Clear`. -/
def ArrayStack_Clear (self : ArrayStack) : ArrayStack := { self with top := -1 }

/-- A well-formed stack: the array has `MAX_CAPACITY` cells and `top` is `-1` or an
index into it. -/
def ArrayStack.WF (s : ArrayStack) : Prop :=
  (s.data.length : Int) = ArrayStack.MAX_CAPACITY ∧ -1 ≤ s.top ∧ s.top < ArrayStack.MAX_CAPACITY

instance (s : ArrayStack) : Decidable s.WF := by
  unfold ArrayStack.WF; infer_instance

/-- The items of the stack, bottom first: the cells `0 .. top`. -/
def ArrayStack.items (s : ArrayStack) : List ArrayStackItem :=
  s.data.take (s.top + 1).toNat

/-- Push the items of a list one after the other, stopping at the first failure. -/
def ArrayStack_PushAll (self : ArrayStack) : List ArrayStackItem → Except Error Unit × ArrayStack
  | [] => (.ok (), self)
  | x :: xs =>
    match ArrayStack_Push self x with
    | (.error e, s) => (.error e, s)
    | (.ok _, s) => ArrayStack_PushAll s xs

/-- Pop `n` times, stopping at the first failure; the returned items are collected in
the order they were returned. -/
def ArrayStack_PopN (self : ArrayStack) : Nat → Except Error (List ArrayStackItem) × ArrayStack
  | 0 => (.ok [], self)
  | n + 1 =>
    match ArrayStack_Pop self with
    | (.error e, s) => (.error e, s)
    | (.ok x, s) =>
      match ArrayStack_PopN s n with
      | (.error e, s) => (.error e, s)
      | (.ok xs, s) => (.ok (x :: xs), s)

/-! ### ArrayList.hpp

`INIT_CAPACITY` and `MAX_CAPACITY` belong to `common::Container`, which is not among
the sources: the functions take `MAX_CAPACITY` as a parameter. -/

/-- Model of the data members of `ArrayList<T>`: `size_` (from `common::Container`),
`capacity_` and the array `data_` of `capacity_` cells. -/
structure ArrayList (T : Type) where
  size_ : Int
  capacity_ : Int
  data_ : List T
deriving DecidableEq, Repr

/-- Read `data[i]`; an index outside the array is a fault. -/
def arr_get {T : Type} (data : List T) (i : Int) : Except Error T :=
  if 0 ≤ i then
    match data[i.toNat]? with
    | some x => .ok x
    | none => .error .fault
  else .error .fault

/-- Write `data[i] = x`; an index outside the array is a fault. -/
def arr_set {T : Type} (data : List T) (i : Int) (x : T) : Except Error (List T) :=
  if 0 ≤ i ∧ i < data.length then .ok (data.set i.toNat x) else .error .fault

/-- Model of `new T[n]`: `n` cells holding arbitrary values, here `default`. -/
def new_array {T : Type} [Inhabited T] (n : Int) : Except Error (List T) :=
  if 0 ≤ n then .ok (List.replicate n.toNat default) else .error .fault

/-- Model of `std::copy(src, src + n, dst)`: the first `n` cells of `dst` receive the
first `n` cells of `src`; both ranges have to lie inside their arrays. -/
def std_copy {T : Type} (src : List T) (n : Int) (dst : List T) : Except Error (List T) :=
  if 0 ≤ n ∧ n ≤ src.length ∧ n ≤ dst.length then
    .ok (src.take n.toNat ++ dst.drop n.toNat)
  else .error .fault

/-- Model of `ArrayList::expand_capacity`. `MAX_CAPACITY / 2` is C++ integer division,
which truncates. `alloc` tells whether the allocator can serve the request of
`new T[capacity_]`; when it cannot, `new` throws `std::bad_alloc` and the function is
left with `capacity_` already rewritten and the array untouched. -/
def ArrayList.expand_capacity {T : Type} [Inhabited T] (MAX_CAPACITY : Int) (alloc : Bool)
    (self : ArrayList T) : Except Error Unit × ArrayList T :=
  -- capacity_ = (capacity_ < MAX_CAPACITY / 2) ? capacity_ * 2 : MAX_CAPACITY;
  let self := { self with
    capacity_ := if self.capacity_ < Int.tdiv MAX_CAPACITY 2 then self.capacity_ * 2
                 else MAX_CAPACITY }
  -- T* new_data = new T[capacity_];
  match (if alloc then new_array self.capacity_ else .error .alloc) with
  | .error e => (.error e, self)
  | .ok new_data =>
    -- std::copy(data_, data_ + size_, new_data);
    match std_copy self.data_ self.size_ new_data with
    | .error e => (.error e, self)
    | .ok new_data =>
      -- delete[] data_; data_ = new_data;
      (.ok (), { self with data_ := new_data })

/-- The shift loop of `ArrayList::insert`,
`for (int i = size_; i > index; --i) data_[i] = data_[i - 1];`
started at `i`; `fuel` bounds the number of iterations. -/
def ArrayList.insert_shift {T : Type} (index : Int) :
    Nat → Int → List T → Except Error (List T)
  | 0, _, data => .ok data
  | fuel + 1, i, data =>
    if i > index then
      match arr_get data (i - 1) with
      | .error e => .error e
      | .ok x =>
        match arr_set data i x with
        | .error e => .error e
        | .ok data => ArrayList.insert_shift index fuel (i - 1) data
    else .ok data

/-- Model of a `const T&` argument of `ArrayList::insert`. The object referred to is
either a cell of the array `data_` that the list has when the call is made, which is
what `a[i]` refers to in a call `a.insert(index, a[i])`, or an object that lies
elsewhere, given by its value. -/
inductive ArrayList.ConstRef (T : Type) where
  | cell (i : Int)
  | object (value : T)
deriving DecidableEq, Repr

/-- Read through a `const T&` argument. `data` is the array of the list at the moment of
the read and `deleted` tells whether the array the reference was taken from has been
deleted since the call was made (by `expand_capacity`): reading a cell of a deleted
array is a fault, reading a cell of the live array gives what the cell holds now. -/
def ArrayList.ConstRef.read {T : Type} (element : ArrayList.ConstRef T) (data : List T)
    (deleted : Bool) : Except Error T :=
  match element with
  | .object value => .ok value
  | .cell i => if deleted then .error .fault else arr_get data i

/-- Model of `ArrayList::insert`: the outcome and the list afterwards. The element is
passed by `const T&` and read only in the statement `data_[index] = element;`, after
the expansion and the shift loop. `alloc` tells whether the allocation in
`expand_capacity`, when one is made, can be served. -/
def ArrayList.insert {T : Type} [Inhabited T] (MAX_CAPACITY : Int) (alloc : Bool)
    (self : ArrayList T) (index : Int) (element : ArrayList.ConstRef T) :
    Except Error Unit × ArrayList T :=
  -- check
  match check_full self.size_ MAX_CAPACITY with
  | .error e => (.error e, self)
  | .ok _ =>
    match check_bounds index 0 (self.size_ + 1) with
    | .error e => (.error e, self)
    | .ok _ =>
      -- expand capacity if need
      let deleted : Bool := decide (self.size_ = self.capacity_)
      match (if self.size_ = self.capacity_ then self.expand_capacity MAX_CAPACITY alloc
             else (.ok (), self)) with
      | (.error e, self) => (.error e, self)
      | (.ok _, self) =>
        -- shift
        match ArrayList.insert_shift index (self.size_ - index).toNat self.size_ self.data_ with
        | .error e => (.error e, self)
        | .ok data =>
          -- insert: data_[index] = element;
          match element.read data deleted with
          | .error e => (.error e, { self with data_ := data })
          | .ok x =>
            match arr_set data index x with
            | .error e => (.error e, { self with data_ := data })
            | .ok data =>
              -- resize
              (.ok (), { self with data_ := data, size_ := self.size_ + 1 })

/-- The shift loop of `ArrayList::remove`,
`for (int i = index + 1; i < size_; ++i) data_[i - 1] = data_[i];`
started at `i`; `fuel` bounds the number of iterations. -/
def ArrayList.remove_shift {T : Type} (size : Int) :
    Nat → Int → List T → Except Error (List T)
  | 0, _, data => .ok data
  | fuel + 1, i, data =>
    if i < size then
      match arr_get data i with
      | .error e => .error e
      | .ok x =>
        match arr_set data (i - 1) x with
        | .error e => .error e
        | .ok data => ArrayList.remove_shift size fuel (i + 1) data
    else .ok data

/-- Model of `ArrayList::remove`: the outcome (the removed element) and the list
afterwards. `std::move` from `data_[index]` is a copy for the element types modelled. -/
def ArrayList.remove {T : Type} (self : ArrayList T) (index : Int) :
    Except Error T × ArrayList T :=
  -- check
  match check_empty self.size_ with
  | .error e => (.error e, self)
  | .ok _ =>
    match check_bounds index 0 self.size_ with
    | .error e => (.error e, self)
    | .ok _ =>
      -- move element
      match arr_get self.data_ index with
      | .error e => (.error e, self)
      | .ok element =>
        -- shift
        match ArrayList.remove_shift self.size_ (self.size_ - (index + 1)).toNat (index + 1)
            self.data_ with
        | .error e => (.error e, self)
        | .ok data =>
          -- resize, return element
          (.ok element, { self with data_ := data, size_ := self.size_ - 1 })

/-- A well-formed list: `capacity_` is positive and is the length of the array, and
`size_` lies between 0 and `capacity_`. -/
def ArrayList.WF {T : Type} (self : ArrayList T) : Prop :=
  0 ≤ self.size_ ∧ self.size_ ≤ self.capacity_ ∧ 0 < self.capacity_ ∧
  (self.data_.length : Int) = self.capacity_

instance {T : Type} (self : ArrayList T) : Decidable self.WF := by
  unfold ArrayList.WF; infer_instance

/-- The contents of the list: the first `size_` cells of the array. -/
def ArrayList.contents {T : Type} (self : ArrayList T) : List T :=
  self.data_.take self.size_.toNat

/-! ### MatrixGraph.h

Only the header of the graph module is among the sources: the types
(`MatrixGraphVertex` and `MatrixGraphEdge` are `int`) and the signatures. The bodies
are modelled from the design document (`spec.md`, sections 3 and 4). The document
leaves the value of the no-edge / infinity sentinel open, so every function takes
it as the parameter `INF`. Weights and distances are mathematical integers, the
"numbers" of the document. -/

/-- Modelled from the spec: the store of section 3, which `MatrixGraph.h` only declares
(`struct MatrixGraph`): the vertex count `n` and the `n × n` weight matrix, a cell holding
an edge weight or the no-edge sentinel. -/
structure MatrixGraph where
  vertex_count : Nat
  matrix : List (List Int)
deriving DecidableEq, Repr

/-- Modelled from the spec: the no-predecessor / direct-or-none sentinel of the `path`
outputs, "never a valid vertex index"; `-1` is used. -/
def NO_VERTEX : Int := -1

/-- Modelled from the spec: `MatrixGraph_Create` of the absent `MatrixGraph.c`; the
store is created empty (vertex count 0, a 0 × 0 matrix). -/
def MatrixGraph_Create : MatrixGraph := { vertex_count := 0, matrix := [] }

/-- Modelled from the spec: `MatrixGraph_SetVertexNumber` of the absent `MatrixGraph.c`
(`set_vertex_count`): allocates the `n × n` matrix with every cell the sentinel; fails if
`n` is negative or exceeds the configured maximum `max`. -/
def MatrixGraph_SetVertexNumber (INF : Int) (max : Int) (self : MatrixGraph)
    (vertex_number : Int) : Except Error Unit × MatrixGraph :=
  if vertex_number < 0 ∨ vertex_number > max then (.error .bounds, self)
  else
    (.ok (), { vertex_count := vertex_number.toNat,
               matrix := List.replicate vertex_number.toNat
                 (List.replicate vertex_number.toNat INF) })

/-- Modelled from the spec: a read of the weight matrix of the absent `MatrixGraph.c`,
the cell `(u, v)`; outside the matrix there is no edge. -/
def MatrixGraph.cell (INF : Int) (g : MatrixGraph) (u v : Nat) : Int :=
  (g.matrix.getD u []).getD v INF

/-- Modelled from the spec: a write to the weight matrix of the absent `MatrixGraph.c`,
the cell `(u, v)` becomes `x`. -/
def MatrixGraph.setCell (g : MatrixGraph) (u v : Nat) (x : Int) : MatrixGraph :=
  { g with matrix := g.matrix.set u ((g.matrix.getD u []).set v x) }

/-- The vertex index `V` lies in `[0, vertex_count)`. -/
def MatrixGraph.inRange (g : MatrixGraph) (V : Int) : Prop :=
  0 ≤ V ∧ V < g.vertex_count

instance (g : MatrixGraph) (V : Int) : Decidable (g.inRange V) := by
  unfold MatrixGraph.inRange; infer_instance

/-- Modelled from the spec: `MatrixGraph_Link` of the absent `MatrixGraph.c` (`link`):
sets `matrix[u][v] = weight`, directed; a bounds error if `u` or `v` is outside
`[0, n)`. -/
def MatrixGraph_Link (self : MatrixGraph) (V1 V2 : Int) (E : Int) :
    Except Error Unit × MatrixGraph :=
  if self.inRange V1 ∧ self.inRange V2 then (.ok (), self.setCell V1.toNat V2.toNat E)
  else (.error .bounds, self)

/-- Modelled from the spec: `MatrixGraph_Unlink` of the absent `MatrixGraph.c`
(`unlink`): resets `matrix[u][v]` to the no-edge sentinel; a bounds error on invalid
indices; unlinking an edge that does not exist is a no-op. -/
def MatrixGraph_Unlink (INF : Int) (self : MatrixGraph) (V1 V2 : Int) :
    Except Error Unit × MatrixGraph :=
  if self.inRange V1 ∧ self.inRange V2 then (.ok (), self.setCell V1.toNat V2.toNat INF)
  else (.error .bounds, self)

/-- Modelled from the spec: `MatrixGraph_IsAdjacent` of the absent `MatrixGraph.c`
(`is_adjacent`): true iff `matrix[u][v]` is not the sentinel; read-only; a bounds error
on invalid indices. -/
def MatrixGraph_IsAdjacent (INF : Int) (self : MatrixGraph) (V1 V2 : Int) :
    Except Error Bool :=
  if self.inRange V1 ∧ self.inRange V2 then
    .ok (decide (self.cell INF V1.toNat V2.toNat ≠ INF))
  else .error .bounds

/-- The store invariant of section 3: the matrix is `n × n`. -/
def MatrixGraph.Valid (g : MatrixGraph) : Prop :=
  g.matrix.length = g.vertex_count ∧ ∀ row ∈ g.matrix, row.length = g.vertex_count

instance (g : MatrixGraph) : Decidable g.Valid := by
  unfold MatrixGraph.Valid; infer_instance

/-- There is an edge from `u` to `v`: both are vertices and the cell is not the
sentinel. -/
def MatrixGraph.Adj (INF : Int) (g : MatrixGraph) (u v : Nat) : Prop :=
  u < g.vertex_count ∧ v < g.vertex_count ∧ g.cell INF u v ≠ INF

instance (INF : Int) (g : MatrixGraph) (u v : Nat) : Decidable (g.Adj INF u v) := by
  unfold MatrixGraph.Adj; infer_instance

/-- Modelled from the spec: the scan of row `u` of the matrix in the absent
`MatrixGraph.c`, giving the vertices `v` with an edge from `u` in ascending index
order. -/
def MatrixGraph.neighbours (INF : Int) (g : MatrixGraph) (u : Nat) : List Nat :=
  (List.range g.vertex_count).filter (fun v => decide (g.cell INF u v ≠ INF))

/-- Modelled from the spec: the loop of the depth-first traversal of the absent
`MatrixGraph.c`, section 4.2: "repeatedly pop the top
unvisited vertex, mark visited, invoke visitor, then push all adjacent unvisited
vertices in ascending index order". The calls of the visitor are recorded in `trace`,
in call order. -/
def MatrixGraph.dfs_loop (INF : Int) (g : MatrixGraph) :
    Nat → List Nat → List Bool → List Nat → Except Error (List Nat)
  | _, [], _, trace => .ok trace
  | 0, _ :: _, _, _ => .error .fuel
  | fuel + 1, u :: stack, visited, trace =>
    if visited.getD u false then
      -- a vertex visited since it was pushed: popped and dropped
      MatrixGraph.dfs_loop INF g fuel stack visited trace
    else
      let visited := visited.set u true
      let trace := trace ++ [u]
      let stack := ((g.neighbours INF u).filter (fun v => !visited.getD v false)).foldl
        (fun st v => v :: st) stack
      MatrixGraph.dfs_loop INF g fuel stack visited trace

/-- Modelled from the spec: `MatrixGraph_DFS` of the absent `MatrixGraph.c` (section
4.2): a `visited` array of size `n` is allocated per call, the start vertex is pushed
and the loop runs until the stack is empty. An out-of-range start vertex is a bounds
error (the contract the document recommends). The result is the sequence of vertices
the visitor `p_visit` was called on. -/
def MatrixGraph_DFS (INF : Int) (self : MatrixGraph) (startV : Int) :
    Except Error (List Nat) :=
  if self.inRange startV then
    self.dfs_loop INF (self.vertex_count * (self.vertex_count + 1) + 1) [startV.toNat]
      (List.replicate self.vertex_count false) []
  else .error .bounds

/-- Modelled from the spec: one scan of the breadth-first traversal of the absent
`MatrixGraph.c` over the vertices adjacent to the dequeued vertex: each one not yet
visited is marked visited and enqueued. -/
def MatrixGraph.bfs_enqueue (queue : List Nat) (visited : List Bool) :
    List Nat → List Nat × List Bool
  | [] => (queue, visited)
  | v :: vs =>
    if visited.getD v false then MatrixGraph.bfs_enqueue queue visited vs
    else MatrixGraph.bfs_enqueue (queue ++ [v]) (visited.set v true) vs

/-- Modelled from the spec: the loop of the breadth-first traversal of the absent
`MatrixGraph.c`, section 4.2: "repeatedly dequeue, invoke
visitor, and enqueue all not-yet-visited adjacent vertices in ascending index order".
As for the start vertex ("mark start visited, enqueue"), a vertex is marked visited
when it is enqueued. -/
def MatrixGraph.bfs_loop (INF : Int) (g : MatrixGraph) :
    Nat → List Nat → List Bool → List Nat → Except Error (List Nat)
  | _, [], _, trace => .ok trace
  | 0, _ :: _, _, _ => .error .fuel
  | fuel + 1, u :: queue, visited, trace =>
    let trace := trace ++ [u]
    let (queue, visited) := MatrixGraph.bfs_enqueue queue visited (g.neighbours INF u)
    MatrixGraph.bfs_loop INF g fuel queue visited trace

/-- Modelled from the spec: `MatrixGraph_BFS` of the absent `MatrixGraph.c` (section
4.2): the start vertex is marked visited and enqueued, then the loop runs until the
queue is empty. An out-of-range start vertex is a bounds error. The result is the
sequence of vertices the visitor `p_visit` was called on. -/
def MatrixGraph_BFS (INF : Int) (self : MatrixGraph) (startV : Int) :
    Except Error (List Nat) :=
  if self.inRange startV then
    self.bfs_loop INF self.vertex_count [startV.toNat]
      ((List.replicate self.vertex_count false).set startV.toNat true) []
  else .error .bounds

/-- The vertex `v` is reachable from `s` along directed edges (`s` itself included). -/
def MatrixGraph.Reachable (INF : Int) (g : MatrixGraph) (s v : Nat) : Prop :=
  Relation.ReflTransGen (g.Adj INF) s v

/-- The invariant of the depth-first loop: `visited` marks exactly the vertices of
`trace`, no vertex was visited twice, everything on the stack or in the trace is
reachable from `start`, every edge out of a visited vertex leads to a visited vertex
or to one waiting on the stack, and `start` is visited or waiting. -/
structure MatrixGraph.DfsInv (INF : Int) (g : MatrixGraph) (start : Nat)
    (stack : List Nat) (visited : List Bool) (trace : List Nat) : Prop where
  len : visited.length = g.vertex_count
  vis : ∀ v, visited.getD v false = true ↔ v ∈ trace
  nodup : trace.Nodup
  stack_ok : ∀ v ∈ stack, g.Reachable INF start v ∧ v < g.vertex_count
  trace_ok : ∀ v ∈ trace, g.Reachable INF start v
  closed : ∀ u ∈ trace, ∀ v, g.Adj INF u v → v ∈ trace ∨ v ∈ stack
  start_in : start ∈ trace ∨ start ∈ stack

/-- The bookkeeping invariant of the breadth-first traversal: `visited` marks exactly
the vertices that were visited or are waiting in the queue, none of them occurs twice,
and all of them are reachable from `start`. -/
structure MatrixGraph.BfsMarks (INF : Int) (g : MatrixGraph) (start : Nat)
    (queue : List Nat) (visited : List Bool) (trace : List Nat) : Prop where
  len : visited.length = g.vertex_count
  vis : ∀ v, visited.getD v false = true ↔ v ∈ trace ∨ v ∈ queue
  nodup : (trace ++ queue).Nodup
  reach : ∀ v, v ∈ trace ∨ v ∈ queue → g.Reachable INF start v

/-- The invariant of the breadth-first loop: the bookkeeping invariant, every edge out
of a visited vertex leads to a visited or waiting vertex, and `start` is visited or
waiting. -/
structure MatrixGraph.BfsInv (INF : Int) (g : MatrixGraph) (start : Nat)
    (queue : List Nat) (visited : List Bool) (trace : List Nat) : Prop where
  marks : g.BfsMarks INF start queue visited trace
  closed : ∀ u ∈ trace, ∀ v, g.Adj INF u v → v ∈ trace ∨ v ∈ queue
  start_in : start ∈ trace ∨ start ∈ queue

/-- The outputs of `MatrixGraph_Dijkstra`: the returned flag and the contents of the
caller's arrays `dist` and `path` after the call (empty when the call fails before
writing anything). -/
structure DijkstraResult where
  success : Bool
  dist : List Int
  path : List Int
deriving DecidableEq, Repr

/-- Modelled from the spec: step 3 of section 4.3 (Dijkstra in the absent
`MatrixGraph.c`), the selection: the non-finalized vertex with minimum
`dist`, ties broken by lowest index; `none` when every vertex is finalized. -/
def MatrixGraph.dijkstra_select (INF : Int) (dist : List Int) (finalized : List Bool) :
    List Nat → Option Nat → Option Nat
  | [], best => best
  | v :: vs, best =>
    if finalized.getD v false then MatrixGraph.dijkstra_select INF dist finalized vs best
    else
      match best with
      | none => MatrixGraph.dijkstra_select INF dist finalized vs (some v)
      | some b =>
        if dist.getD v INF < dist.getD b INF then
          MatrixGraph.dijkstra_select INF dist finalized vs (some v)
        else MatrixGraph.dijkstra_select INF dist finalized vs (some b)

/-- Modelled from the spec: step 3 of section 4.3 (Dijkstra in the absent
`MatrixGraph.c`), the relaxation: "for every v adjacent to u via a finite edge,
if dist[u] + weight(u,v) < dist[v], update dist[v] = dist[u] + weight(u,v) and
path[v] = u". -/
def MatrixGraph.dijkstra_relax (INF : Int) (g : MatrixGraph) (u : Nat) :
    List Nat → List Int × List Int → List Int × List Int
  | [], s => s
  | v :: vs, (dist, path) =>
    if dist.getD u INF + g.cell INF u v < dist.getD v INF then
      MatrixGraph.dijkstra_relax INF g u vs
        (dist.set v (dist.getD u INF + g.cell INF u v), path.set v (u : Int))
    else MatrixGraph.dijkstra_relax INF g u vs (dist, path)

/-- Modelled from the spec: step 3 of section 4.3 (Dijkstra in the absent
`MatrixGraph.c`), the loop: "repeat n times: select ...; if no such u has
finite distance, remaining vertices are unreachable — stop early. Mark u finalized",
then relax the edges out of `u`. -/
def MatrixGraph.dijkstra_loop (INF : Int) (g : MatrixGraph) :
    Nat → List Int × List Int × List Bool → List Int × List Int
  | 0, (dist, path, _) => (dist, path)
  | k + 1, (dist, path, finalized) =>
    match MatrixGraph.dijkstra_select INF dist finalized (List.range g.vertex_count) none with
    | none => (dist, path)
    | some u =>
      if dist.getD u INF = INF then (dist, path)
      else
        let finalized := finalized.set u true
        let (dist, path) := MatrixGraph.dijkstra_relax INF g u (g.neighbours INF u) (dist, path)
        MatrixGraph.dijkstra_loop INF g k (dist, path, finalized)

/-- Modelled from the spec: `MatrixGraph_Dijkstra` of the absent `MatrixGraph.c`
(section 4.3). Step 1 initialises `dist[start] = 0`, all other distances to the infinity
sentinel and every `path` entry to the no-predecessor sentinel; step 2 starts with no
vertex finalized; step 3 is the loop; step 4: the call returns true once the loop
completes, and false if the start vertex is out of range or the vertex count is 0. -/
def MatrixGraph_Dijkstra (INF : Int) (self : MatrixGraph) (startV : Int) : DijkstraResult :=
  if self.vertex_count = 0 ∨ ¬ self.inRange startV then
    { success := false, dist := [], path := [] }
  else
    let dist := (List.replicate self.vertex_count INF).set startV.toNat 0
    let path := List.replicate self.vertex_count NO_VERTEX
    let finalized := List.replicate self.vertex_count false
    let (dist, path) := self.dijkstra_loop INF self.vertex_count (dist, path, finalized)
    { success := true, dist := dist, path := path }

/-- Modelled from the spec: the path reconstruction of section 4.3, which no source
file implements: "follow path[v] backward to start". The result
is the route from `start` to `v`, `none` when a no-predecessor entry is met before
`start` (or after `fuel` steps). -/
def MatrixGraph.dijkstra_route (path : List Int) (start : Nat) : Nat → Nat → Option (List Nat)
  | fuel, v =>
    if v = start then some [start]
    else
      match fuel with
      | 0 => none
      | fuel + 1 =>
        if path.getD v NO_VERTEX < 0 then none
        else
          (MatrixGraph.dijkstra_route path start fuel (path.getD v NO_VERTEX).toNat).map
            (fun r => r ++ [v])

/-- The total weight of the route `p`, the sum of the cells of its consecutive
vertices. -/
def MatrixGraph.walkWeight (INF : Int) (g : MatrixGraph) : List Nat → Int
  | u :: v :: rest => g.cell INF u v + MatrixGraph.walkWeight INF g (v :: rest)
  | _ => 0

/-- Consecutive vertices of the list `p` are joined by an edge. -/
def MatrixGraph.isChain (INF : Int) (g : MatrixGraph) : List Nat → Bool
  | u :: v :: rest => decide (g.Adj INF u v) && MatrixGraph.isChain INF g (v :: rest)
  | _ => true

/-- The vertex list `p` is a directed path from `s` to `t`: it starts at `s`, ends at
`t`, and consecutive vertices are joined by an edge. A single vertex is the path
without edges from a vertex to itself. -/
def MatrixGraph.IsWalk (INF : Int) (g : MatrixGraph) (s t : Nat) (p : List Nat) : Prop :=
  p.head? = some s ∧ p.getLast? = some t ∧ g.isChain INF p = true

instance (INF : Int) (g : MatrixGraph) (s t : Nat) (p : List Nat) :
    Decidable (g.IsWalk INF s t p) := by
  unfold MatrixGraph.IsWalk; infer_instance

/-- Every stored edge weight is non-negative (the precondition of Dijkstra). -/
def MatrixGraph.NonNeg (INF : Int) (g : MatrixGraph) : Prop :=
  ∀ u v, u < g.vertex_count → v < g.vertex_count → g.cell INF u v ≠ INF → 0 ≤ g.cell INF u v

/-- There is a directed path with at least one edge from `u` to `v` of total weight `w`
whose intermediate vertices all have an index below `K`. -/
inductive MatrixGraph.WalkVia (INF : Int) (g : MatrixGraph) (K : Nat) : Nat → Nat → Int → Prop
  | single {u v : Nat} : g.Adj INF u v → MatrixGraph.WalkVia INF g K u v (g.cell INF u v)
  | cons {u x v : Nat} {w : Int} : g.Adj INF u x → x < K → MatrixGraph.WalkVia INF g K x v w →
      MatrixGraph.WalkVia INF g K u v (g.cell INF u x + w)

/-- The invariant of Dijkstra's loop. `ord` lists the finalized vertices in the order
they were finalized and `rel u v` says that the edge from `u` to `v` has been relaxed. -/
structure MatrixGraph.DijkstraInv (INF : Int) (g : MatrixGraph) (start : Nat)
    (ord : List Nat) (rel : Nat → Nat → Prop) (dist path : List Int) : Prop where
  len_d : dist.length = g.vertex_count
  len_p : path.length = g.vertex_count
  ord_nodup : ord.Nodup
  ord_lt : ∀ u ∈ ord, u < g.vertex_count
  start_lt : start < g.vertex_count
  d_start : dist.getD start INF = 0
  p_start : path.getD start NO_VERTEX = NO_VERTEX
  le_inf : ∀ v, dist.getD v INF ≤ INF
  nonneg : ∀ v, 0 ≤ dist.getD v INF
  fin_finite : ∀ u ∈ ord, dist.getD u INF < INF
  fin_le : ∀ x ∈ ord, ∀ v, v ∉ ord → dist.getD x INF ≤ dist.getD v INF
  rel_ord : ∀ x y, rel x y → x ∈ ord
  relaxed : ∀ x y, rel x y → g.Adj INF x y →
    dist.getD y INF ≤ dist.getD x INF + g.cell INF x y
  pred : ∀ v, v ≠ start → dist.getD v INF < INF →
    ∃ u : Nat, path.getD v NO_VERTEX = (u : Int) ∧ u ∈ ord ∧ g.Adj INF u v ∧
      dist.getD v INF = dist.getD u INF + g.cell INF u v ∧
      (v ∈ ord → ord.indexOf u < ord.indexOf v)
  unreached : ∀ v, dist.getD v INF = INF → path.getD v NO_VERTEX = NO_VERTEX
  start_first : start ∈ ord ∨ (ord = [] ∧ ∀ v, v ≠ start → dist.getD v INF = INF)

/-- The state in which Dijkstra's loop ends: the invariant holds with every edge out of
a finalized vertex relaxed, the start vertex is finalized, and every vertex that is
not finalized still has the infinity sentinel as its distance. -/
def MatrixGraph.DijkstraDone (INF : Int) (g : MatrixGraph) (start : Nat)
    (dist path : List Int) : Prop :=
  ∃ ord, g.DijkstraInv INF start ord (fun x _ => x ∈ ord) dist path ∧ start ∈ ord ∧
    ∀ v, v ∉ ord → dist.getD v INF = INF

/-- A five-vertex graph for the sentinel 9: edges 0 → 1, 0 → 2, 1 → 3, 2 → 3 and 3 → 0,
all of weight 1; vertex 4 is isolated. -/
def traversal_graph : MatrixGraph :=
  ⟨5, [[9, 1, 1, 9, 9], [9, 9, 9, 1, 9], [9, 9, 9, 1, 9], [1, 9, 9, 9, 9], [9, 9, 9, 9, 9]]⟩

/-- The three-vertex graph of the design document's examples, for the sentinel 99:
edges 0 → 1 (weight 1), 1 → 2 (weight 2) and 0 → 2 (weight 10). -/
def example_graph : MatrixGraph :=
  ⟨3, [[99, 1, 10], [99, 99, 2], [99, 99, 99]]⟩

/-- A three-vertex graph for the sentinel 99: edges 0 → 1 (weight 60) and 1 → 2
(weight 60); the only path from 0 to 2 weighs 120, more than the sentinel. -/
def far_graph : MatrixGraph :=
  ⟨3, [[99, 60, 99], [99, 99, 60], [99, 99, 99]]⟩

/-- A two-vertex graph for the sentinel 99 with the single edge 0 → 1 of weight 150, a
weight above the sentinel. -/
def steep_graph : MatrixGraph :=
  ⟨2, [[99, 150], [99, 99]]⟩

/-- The outputs of `MatrixGraph_Floyd`: the returned flag and the contents of the
caller's matrices `dist` and `path` after the call (empty when the call fails before
writing anything). -/
structure FloydResult where
  success : Bool
  dist : List (List Int)
  path : List (List Int)
deriving DecidableEq, Repr

/-- The entry `(i, j)` of a matrix given by its rows; `d` outside the matrix. -/
def mat_get (d : Int) (m : List (List Int)) (i j : Nat) : Int :=
  (m.getD i []).getD j d

/-- The entry `(i, j)` of the matrix becomes `x`. -/
def mat_set (m : List (List Int)) (i j : Nat) (x : Int) : List (List Int) :=
  m.set i ((m.getD i []).set j x)

/-- The matrix `m` has `n` rows of `n` entries. -/
def mat_square (n : Nat) (m : List (List Int)) : Prop :=
  m.length = n ∧ ∀ row ∈ m, row.length = n

/-- Modelled from the spec: step 1 of section 4.4 (Floyd–Warshall in the absent
`MatrixGraph.c`): "dist[i][j] = matrix weight if an edge exists, 0 if i == j,
infinity sentinel otherwise", the diagonal being 0 regardless of a self-loop (design
notes). -/
def MatrixGraph.floyd_init_dist (INF : Int) (g : MatrixGraph) : List (List Int) :=
  (List.range g.vertex_count).map fun i =>
    (List.range g.vertex_count).map fun j =>
      if i = j then 0 else if g.cell INF i j ≠ INF then g.cell INF i j else INF

/-- Modelled from the spec: step 1 of section 4.4 (Floyd–Warshall in the absent
`MatrixGraph.c`): "path[i][j] = direct/none for all pairs". -/
def MatrixGraph.floyd_init_path (g : MatrixGraph) : List (List Int) :=
  List.replicate g.vertex_count (List.replicate g.vertex_count NO_VERTEX)

/-- Modelled from the spec: step 2 of section 4.4 (Floyd–Warshall in the absent
`MatrixGraph.c`) for one triple: "if dist[i][k] + dist[k][j] < dist[i][j]
(guarding against infinity-plus-infinity overflow), set dist[i][j] = dist[i][k] +
dist[k][j] and path[i][j] = k"; the update is skipped when either operand is the
sentinel (design notes). -/
def MatrixGraph.floyd_step (INF : Int) (k i j : Nat)
    (s : List (List Int) × List (List Int)) : List (List Int) × List (List Int) :=
  if mat_get INF s.1 i k ≠ INF ∧ mat_get INF s.1 k j ≠ INF ∧
      mat_get INF s.1 i k + mat_get INF s.1 k j < mat_get INF s.1 i j then
    (mat_set s.1 i j (mat_get INF s.1 i k + mat_get INF s.1 k j), mat_set s.2 i j (k : Int))
  else s

/-- Modelled from the spec: the innermost loop of step 2 of section 4.4: `j` runs over `js` for fixed `k` and `i`. -/
def MatrixGraph.floyd_row (INF : Int) (k i : Nat) (js : List Nat)
    (s : List (List Int) × List (List Int)) : List (List Int) × List (List Int) :=
  js.foldl (fun s j => MatrixGraph.floyd_step INF k i j s) s

/-- Modelled from the spec: the middle loop of step 2 of section 4.4: `i` runs over `is` for fixed `k`, each time with the
full inner loop over `0 .. n-1`. -/
def MatrixGraph.floyd_phase (INF : Int) (n k : Nat) (is : List Nat)
    (s : List (List Int) × List (List Int)) : List (List Int) × List (List Int) :=
  is.foldl (fun s i => MatrixGraph.floyd_row INF k i (List.range n) s) s

/-- Modelled from the spec: the outer loop of step 2 of section 4.4: the candidate intermediate vertex `k` runs over `ks`,
outermost (step 3). -/
def MatrixGraph.floyd_loop (INF : Int) (n : Nat) (ks : List Nat)
    (s : List (List Int) × List (List Int)) : List (List Int) × List (List Int) :=
  ks.foldl (fun s k => MatrixGraph.floyd_phase INF n k (List.range n) s) s

/-- Modelled from the spec: `MatrixGraph_Floyd` of the absent `MatrixGraph.c` (section
4.4): initialisation, then the triple loop with `k` outermost; the call returns success
unless the vertex count is 0. -/
def MatrixGraph_Floyd (INF : Int) (self : MatrixGraph) : FloydResult :=
  if self.vertex_count = 0 then { success := false, dist := [], path := [] }
  else
    let s := MatrixGraph.floyd_loop INF self.vertex_count (List.range self.vertex_count)
      (self.floyd_init_dist INF, self.floyd_init_path)
    { success := true, dist := s.1, path := s.2 }

/-- No stored weight exceeds the sentinel: the sentinel is the "infinity" of the
weights (the maximum-representable constant of section 6). -/
def MatrixGraph.Bounded (INF : Int) (g : MatrixGraph) : Prop :=
  ∀ u v, g.cell INF u v ≤ INF

/-- The invariant of the Floyd–Warshall loops while the candidate `K` is processed:
every entry is between 0 and the sentinel, the diagonal is 0, a finite entry is the
weight of a path, every entry is at most the weight of each path whose intermediate
vertices are below `K`, and the entries `(i, j)` already processed for `K` (`S i j`)
are at most the weight of each path whose intermediate vertices are at most `K`. -/
structure MatrixGraph.FloydInv (INF : Int) (g : MatrixGraph) (K : Nat)
    (S : Nat → Nat → Prop) (dist : List (List Int)) : Prop where
  shape : mat_square g.vertex_count dist
  le_inf : ∀ i j, mat_get INF dist i j ≤ INF
  nonneg : ∀ i j, 0 ≤ mat_get INF dist i j
  diag : ∀ i, i < g.vertex_count → mat_get INF dist i i = 0
  sound : ∀ i j, i < g.vertex_count → j < g.vertex_count → mat_get INF dist i j < INF →
    i = j ∨ g.WalkVia INF g.vertex_count i j (mat_get INF dist i j)
  via : ∀ i j w, g.WalkVia INF K i j w → mat_get INF dist i j ≤ w
  done : ∀ i j w, S i j → g.WalkVia INF (K + 1) i j w → mat_get INF dist i j ≤ w

/-! ### ArrayList.hpp: construction, comparison, access, examination, `reverse`, `clear` -/

/-- Model of the constructor `ArrayList()`. `INIT_CAPACITY` belongs to
`common::Container`, which is not among the sources, and is a parameter. -/
def ArrayList.ctor {T : Type} [Inhabited T] (INIT_CAPACITY : Int) : Except Error (ArrayList T) :=
  -- size_(0), capacity_(INIT_CAPACITY), data_(new T[capacity_])
  match new_array INIT_CAPACITY with
  | .error e => .error e
  | .ok data => .ok { size_ := 0, capacity_ := INIT_CAPACITY, data_ := data }

/-- The loop of `ArrayList::operator==`,
`for (int i = 0; i < size_; ++i) if (data_[i] != that.data_[i]) return false;`
followed by `return true;`, started at `i`; `fuel` bounds the number of iterations.
`!=` on `T` is the negation of equality. -/
def ArrayList.operator_eq_loop {T : Type} [DecidableEq T] (size : Int) (data that_data : List T) :
    Nat → Int → Except Error Bool
  | 0, i => if i < size then .error .fuel else .ok true
  | fuel + 1, i =>
    if i < size then
      match arr_get data i with
      | .error e => .error e
      | .ok x =>
        match arr_get that_data i with
        | .error e => .error e
        | .ok y =>
          if x ≠ y then .ok false
          else ArrayList.operator_eq_loop size data that_data fuel (i + 1)
    else .ok true

/-- Model of `ArrayList::operator==`. -/
def ArrayList.operator_eq {T : Type} [DecidableEq T] (self that : ArrayList T) :
    Except Error Bool :=
  if self.size_ ≠ that.size_ then .ok false
  else ArrayList.operator_eq_loop self.size_ self.data_ that.data_ self.size_.toNat 0

/-- Model of `ArrayList::operator!=`: `return !(*this == that);`. -/
def ArrayList.operator_ne {T : Type} [DecidableEq T] (self that : ArrayList T) :
    Except Error Bool :=
  match self.operator_eq that with
  | .error e => .error e
  | .ok b => .ok (!b)

/-- Model of `ArrayList::operator[]`: the outcome (the element referred to) and the list
afterwards. -/
def ArrayList.operator_subscript {T : Type} (self : ArrayList T) (index : Int) :
    Except Error T × ArrayList T :=
  match check_bounds index 0 self.size_ with
  | .error e => (.error e, self)
  | .ok _ =>
    -- return data_[index];
    match arr_get self.data_ index with
    | .error e => (.error e, self)
    | .ok x => (.ok x, self)

/-- Model of `ArrayList::Iterator`: the pointer `current_`, kept as its offset from the
start of the array `data_`. -/
structure ArrayList.Iterator where
  current_ : Int
deriving DecidableEq, Repr

/-- Model of `ArrayList::begin`: `Iterator(data_)`. -/
def ArrayList.begin {T : Type} (_self : ArrayList T) : ArrayList.Iterator := ⟨0⟩

/-- Model of `ArrayList::end` (`end` is reserved in Lean): `Iterator(data_ + size_)`. -/
def ArrayList.end_ {T : Type} (self : ArrayList T) : ArrayList.Iterator := ⟨self.size_⟩

/-- Model of `std::find(first, last, value)` of `<algorithm>` on iterators into the array
`data`: `for (; first != last; ++first) if (*first == value) return first;` followed by
`return last;`. `fuel` bounds the number of iterations. -/
def std_find {T : Type} [DecidableEq T] (data : List T) (last : ArrayList.Iterator) (value : T) :
    Nat → ArrayList.Iterator → Except Error ArrayList.Iterator
  | 0, first => if first ≠ last then .error .fuel else .ok last
  | fuel + 1, first =>
    if first ≠ last then
      match arr_get data first.current_ with
      | .error e => .error e
      | .ok x =>
        if x = value then .ok first
        else std_find data last value fuel ⟨first.current_ + 1⟩
    else .ok last

/-- Model of `ArrayList::find`: the outcome (an iterator) and the list afterwards. -/
def ArrayList.find {T : Type} [DecidableEq T] (self : ArrayList T) (element : T) :
    Except Error ArrayList.Iterator × ArrayList T :=
  -- return std::find(begin(), end(), element);
  (std_find self.data_ self.end_ element self.size_.toNat self.begin, self)

/-- The loop of `ArrayList::reverse`,
`for (int i = 0, j = size_ - 1; i < j; ++i, --j) std::swap(data_[i], data_[j]);`
started at `i` and `j`; `fuel` bounds the number of iterations. -/
def ArrayList.reverse_loop {T : Type} : Nat → Int → Int → List T → Except Error (List T)
  | 0, i, j, data => if i < j then .error .fuel else .ok data
  | fuel + 1, i, j, data =>
    if i < j then
      match arr_get data i with
      | .error e => .error e
      | .ok x =>
        match arr_get data j with
        | .error e => .error e
        | .ok y =>
          match arr_set data i y with
          | .error e => .error e
          | .ok data =>
            match arr_set data j x with
            | .error e => .error e
            | .ok data => ArrayList.reverse_loop fuel (i + 1) (j - 1) data
    else .ok data

/-- Model of `ArrayList::reverse`: the outcome and the list afterwards. -/
def ArrayList.reverse {T : Type} (self : ArrayList T) : Except Error Unit × ArrayList T :=
  match ArrayList.reverse_loop self.size_.toNat 0 (self.size_ - 1) self.data_ with
  | .error e => (.error e, self)
  | .ok data => (.ok (), { self with data_ := data })

/-- Model of `ArrayList::clear`: `size_ = 0;`. -/
def ArrayList.clear {T : Type} (self : ArrayList T) : ArrayList T :=
  { self with size_ := 0 }

/-! ### SinglyLinkedList.hpp

`MAX_CAPACITY` belongs to `common::Container`, which is not among the sources, and is
a parameter. Each list object carries the memory its pointers refer to. After a
fault the list that a function returns has no meaning. -/

/-- Model of `struct Node` of `SinglyLinkedList`: the data and the successor, `none`
for `nullptr`. -/
structure SinglyLinkedList.Node (T : Type) where
  data_ : T
  succ_ : Option Nat
deriving DecidableEq, Repr

/-- Memory holding list nodes, indexed by address; `none` marks a cell that is not (or
no longer) allocated. -/
abbrev NodeHeap (T : Type) := List (Option (SinglyLinkedList.Node T))

/-- Model of `new Node(..)`: a fresh cell at the end of the memory; its address is the
old length. -/
def NodeHeap.new_node {T : Type} (h : NodeHeap T) (nd : SinglyLinkedList.Node T) :
    Nat × NodeHeap T :=
  (h.length, h ++ [some nd])

/-- Read through a pointer; reading an unallocated cell is a fault. -/
def NodeHeap.load {T : Type} (h : NodeHeap T) (a : Nat) :
    Except Error (SinglyLinkedList.Node T) :=
  match h[a]? with
  | some (some nd) => .ok nd
  | _ => .error .fault

/-- Write through a pointer (the callers have loaded the cell before). -/
def NodeHeap.store {T : Type} (h : NodeHeap T) (a : Nat) (nd : SinglyLinkedList.Node T) :
    NodeHeap T :=
  h.set a (some nd)

/-- Model of `delete` on a node. -/
def NodeHeap.delete {T : Type} (h : NodeHeap T) (a : Nat) : NodeHeap T :=
  h.set a none

/-- Model of the data members of `SinglyLinkedList<T>`: `size_` (from
`common::Container`) and the pointer `header_` to the header node, together with the
memory. -/
structure SinglyLinkedList (T : Type) where
  size_ : Int
  header_ : Nat
  heap : NodeHeap T
deriving DecidableEq, Repr

/-- The loop `for (int i = 0; i < index; ++i) current = current->succ_;` of `access`,
`insert` and `remove`, run `n` times from `current`; following `nullptr` is a fault. -/
def SinglyLinkedList.advance {T : Type} (h : NodeHeap T) :
    Nat → Option Nat → Except Error (Option Nat)
  | 0, current => .ok current
  | n + 1, current =>
    match current with
    | none => .error .fault
    | some a =>
      match h.load a with
      | .error e => .error e
      | .ok nd => SinglyLinkedList.advance h n nd.succ_

/-- The loop of `SinglyLinkedList::clear_data`; `fuel` bounds the number of iterations. -/
def SinglyLinkedList.clear_data_loop {T : Type} (header : Nat) :
    Nat → NodeHeap T → Except Error (NodeHeap T)
  | 0, h =>
    match h.load header with
    | .error e => .error e
    | .ok hd =>
      match hd.succ_ with
      | none => .ok h
      | some _ => .error .fuel
  | fuel + 1, h =>
    -- while (header_->succ_ != nullptr)
    match h.load header with
    | .error e => .error e
    | .ok hd =>
      match hd.succ_ with
      | none => .ok h
      | some a =>
        -- auto node = header_->succ_->succ_;
        match h.load a with
        | .error e => .error e
        | .ok nd =>
          -- delete header_->succ_; header_->succ_ = node;
          let h := h.delete a
          let h := h.store header { hd with succ_ := nd.succ_ }
          SinglyLinkedList.clear_data_loop header fuel h

/-- Model of `SinglyLinkedList::clear_data`: the outcome and the list afterwards. The
loop follows distinct nodes, so the number of cells of the memory bounds it. -/
def SinglyLinkedList.clear_data {T : Type} (self : SinglyLinkedList T) :
    Except Error Unit × SinglyLinkedList T :=
  match SinglyLinkedList.clear_data_loop self.header_ self.heap.length self.heap with
  | .error e => (.error e, self)
  | .ok h =>
    -- size_ = 0; header_->succ_ = nullptr;
    let self := { self with heap := h, size_ := 0 }
    match self.heap.load self.header_ with
    | .error e => (.error e, self)
    | .ok hd =>
      (.ok (), { self with heap := self.heap.store self.header_ { hd with succ_ := none } })

/-- Model of `SinglyLinkedList::access`: the outcome (the element referred to) and the
list afterwards. -/
def SinglyLinkedList.access {T : Type} (self : SinglyLinkedList T) (index : Int) :
    Except Error T × SinglyLinkedList T :=
  match check_bounds index 0 self.size_ with
  | .error e => (.error e, self)
  | .ok _ =>
    -- auto current = header_->succ_;
    match self.heap.load self.header_ with
    | .error e => (.error e, self)
    | .ok hd =>
      -- for (int i = 0; i < index; ++i) current = current->succ_;
      match SinglyLinkedList.advance self.heap index.toNat hd.succ_ with
      | .error e => (.error e, self)
      | .ok none => (.error .fault, self)
      | .ok (some current) =>
        -- return current->data_;
        match self.heap.load current with
        | .error e => (.error e, self)
        | .ok nd => (.ok nd.data_, self)

/-- Model of the constructor `SinglyLinkedList()`, run on an empty memory; `T()` is
`default`. -/
def SinglyLinkedList.ctor {T : Type} [Inhabited T] : SinglyLinkedList T :=
  -- header_(new Node(T())); header_->succ_ = nullptr;
  let (header, h) := NodeHeap.new_node [] ⟨default, none⟩
  { size_ := 0, header_ := header, heap := h.store header ⟨default, none⟩ }

/-- The loop of `SinglyLinkedList::operator==`, over the nodes of `this` (in `h1`) and of
`that` (in `h2`); `fuel` bounds the number of iterations. `!=` on `T` is the negation of
equality. -/
def SinglyLinkedList.operator_eq_loop {T : Type} [DecidableEq T] (h1 h2 : NodeHeap T) :
    Nat → Option Nat → Option Nat → Except Error Bool
  | 0, it1, _ =>
    match it1 with
    | none => .ok true
    | some _ => .error .fuel
  | fuel + 1, it1, it2 =>
    -- it1 != nullptr
    match it1 with
    | none => .ok true
    | some a1 =>
      -- if (it1->data_ != it2->data_) return false;
      match h1.load a1 with
      | .error e => .error e
      | .ok n1 =>
        match it2 with
        | none => .error .fault
        | some a2 =>
          match h2.load a2 with
          | .error e => .error e
          | .ok n2 =>
            if n1.data_ ≠ n2.data_ then .ok false
            -- it1 = it1->succ_, it2 = it2->succ_
            else SinglyLinkedList.operator_eq_loop h1 h2 fuel n1.succ_ n2.succ_

/-- Model of `SinglyLinkedList::operator==`. -/
def SinglyLinkedList.operator_eq {T : Type} [DecidableEq T] (self that : SinglyLinkedList T) :
    Except Error Bool :=
  if self.size_ ≠ that.size_ then .ok false
  else
    -- it1 = header_->succ_, it2 = that.header_->succ_
    match self.heap.load self.header_ with
    | .error e => .error e
    | .ok hd1 =>
      match that.heap.load that.header_ with
      | .error e => .error e
      | .ok hd2 =>
        SinglyLinkedList.operator_eq_loop self.heap that.heap self.heap.length
          hd1.succ_ hd2.succ_

/-- Model of `SinglyLinkedList::operator!=`: `return !(*this == that);`. -/
def SinglyLinkedList.operator_ne {T : Type} [DecidableEq T] (self that : SinglyLinkedList T) :
    Except Error Bool :=
  match self.operator_eq that with
  | .error e => .error e
  | .ok b => .ok (!b)

/-- Model of `SinglyLinkedList::operator[]`: `return access(index);`. -/
def SinglyLinkedList.operator_subscript {T : Type} (self : SinglyLinkedList T) (index : Int) :
    Except Error T × SinglyLinkedList T :=
  self.access index

/-- The loop of `SinglyLinkedList::find`,
`while (current != nullptr && current->data_ != element) { current = current->succ_; index++; }`;
`fuel` bounds the number of iterations. The result is `current` and `index` after the
loop. -/
def SinglyLinkedList.find_loop {T : Type} [DecidableEq T] (h : NodeHeap T) (element : T) :
    Nat → Option Nat → Int → Except Error (Option Nat × Int)
  | 0, current, index =>
    match current with
    | none => .ok (none, index)
    | some a =>
      match h.load a with
      | .error e => .error e
      | .ok nd => if nd.data_ ≠ element then .error .fuel else .ok (some a, index)
  | fuel + 1, current, index =>
    match current with
    | none => .ok (none, index)
    | some a =>
      match h.load a with
      | .error e => .error e
      | .ok nd =>
        if nd.data_ ≠ element then
          SinglyLinkedList.find_loop h element fuel nd.succ_ (index + 1)
        else .ok (some a, index)

/-- Model of `SinglyLinkedList::find`: the outcome (an index, or `-1`) and the list
afterwards. -/
def SinglyLinkedList.find {T : Type} [DecidableEq T] (self : SinglyLinkedList T) (element : T) :
    Except Error Int × SinglyLinkedList T :=
  -- int index = 0; auto current = header_->succ_;
  match self.heap.load self.header_ with
  | .error e => (.error e, self)
  | .ok hd =>
    match SinglyLinkedList.find_loop self.heap element self.heap.length hd.succ_ 0 with
    | .error e => (.error e, self)
    | .ok (current, index) =>
      -- return current != nullptr ? index : -1;
      (.ok (if current ≠ none then index else -1), self)

/-- Model of `SinglyLinkedList::insert`: the outcome and the list afterwards. -/
def SinglyLinkedList.insert {T : Type} (MAX_CAPACITY : Int) (self : SinglyLinkedList T)
    (index : Int) (element : T) : Except Error Unit × SinglyLinkedList T :=
  -- check
  match check_full self.size_ MAX_CAPACITY with
  | .error e => (.error e, self)
  | .ok _ =>
    match check_bounds index 0 (self.size_ + 1) with
    | .error e => (.error e, self)
    | .ok _ =>
      -- index
      match SinglyLinkedList.advance self.heap index.toNat (some self.header_) with
      | .error e => (.error e, self)
      | .ok none => (.error .fault, self)
      | .ok (some current) =>
        match self.heap.load current with
        | .error e => (.error e, self)
        | .ok cur =>
          -- insert: auto node = new Node(element, current->succ_); current->succ_ = node;
          let (node, h) := self.heap.new_node ⟨element, cur.succ_⟩
          let h := h.store current { cur with succ_ := some node }
          -- resize
          (.ok (), { self with heap := h, size_ := self.size_ + 1 })

/-- Model of `SinglyLinkedList::remove`: the outcome (the removed element) and the list
afterwards. `std::move` from the node's data is a copy for the element types modelled. -/
def SinglyLinkedList.remove {T : Type} (self : SinglyLinkedList T) (index : Int) :
    Except Error T × SinglyLinkedList T :=
  -- check
  match check_empty self.size_ with
  | .error e => (.error e, self)
  | .ok _ =>
    match check_bounds index 0 self.size_ with
    | .error e => (.error e, self)
    | .ok _ =>
      -- index
      match SinglyLinkedList.advance self.heap index.toNat (some self.header_) with
      | .error e => (.error e, self)
      | .ok none => (.error .fault, self)
      | .ok (some current) =>
        match self.heap.load current with
        | .error e => (.error e, self)
        | .ok cur =>
          match cur.succ_ with
          | none => (.error .fault, self)
          | some node =>
            -- move data: T data = std::move(current->succ_->data_);
            match self.heap.load node with
            | .error e => (.error e, self)
            | .ok nd =>
              -- remove: current->succ_ = node->succ_; delete node;
              let h := self.heap.store current { cur with succ_ := nd.succ_ }
              let h := h.delete node
              -- resize, return data
              (.ok nd.data_, { self with heap := h, size_ := self.size_ - 1 })

/-- The loop of `SinglyLinkedList::reverse`; `fuel` bounds the number of iterations. -/
def SinglyLinkedList.reverse_loop {T : Type} (header : Nat) :
    Nat → Option Nat → NodeHeap T → Except Error (NodeHeap T)
  | 0, pre, h =>
    match pre with
    | none => .ok h
    | some _ => .error .fuel
  | fuel + 1, pre, h =>
    -- while (pre)
    match pre with
    | none => .ok h
    | some tmp =>
      -- auto tmp = pre; pre = pre->succ_;
      match h.load tmp with
      | .error e => .error e
      | .ok nd =>
        -- tmp->succ_ = header_->succ_;
        match h.load header with
        | .error e => .error e
        | .ok hd =>
          let h := h.store tmp { nd with succ_ := hd.succ_ }
          -- header_->succ_ = tmp;
          match h.load header with
          | .error e => .error e
          | .ok hd =>
            let h := h.store header { hd with succ_ := some tmp }
            SinglyLinkedList.reverse_loop header fuel nd.succ_ h

/-- Model of `SinglyLinkedList::reverse`: the outcome and the list afterwards. The loop
follows distinct nodes, so the number of cells of the memory bounds it. -/
def SinglyLinkedList.reverse {T : Type} (self : SinglyLinkedList T) :
    Except Error Unit × SinglyLinkedList T :=
  -- auto pre = header_->succ_; header_->succ_ = nullptr;
  match self.heap.load self.header_ with
  | .error e => (.error e, self)
  | .ok hd =>
    let h := self.heap.store self.header_ { hd with succ_ := none }
    match SinglyLinkedList.reverse_loop self.header_ h.length hd.succ_ h with
    | .error e => (.error e, self)
    | .ok h => (.ok (), { self with heap := h })

/-- Model of `SinglyLinkedList::clear`: the outcome and the list afterwards. -/
def SinglyLinkedList.clear {T : Type} (self : SinglyLinkedList T) :
    Except Error Unit × SinglyLinkedList T :=
  if self.size_ ≠ 0 then self.clear_data else (.ok (), self)

/-- Model of the constructor `SinglyLinkedList(il)`, from the freshly constructed list:
the loop `insert(size_, *it)` over the rest `il` of the initializer list, stopping at
the first failure. -/
def SinglyLinkedList.ctor_il {T : Type} (MAX_CAPACITY : Int) (self : SinglyLinkedList T) :
    List T → Except Error Unit × SinglyLinkedList T
  | [] => (.ok (), self)
  | x :: il =>
    match self.insert MAX_CAPACITY self.size_ x with
    | (.error e, l) => (.error e, l)
    | (.ok _, l) => SinglyLinkedList.ctor_il MAX_CAPACITY l il

/-- The cells `cells` (address and element, in list order) are linked in `h` from the
pointer `p`, and the successor of the last of them is `q` (`p = q` when there is no
cell). -/
def SinglyLinkedList.Seg {T : Type} (h : NodeHeap T) :
    Option Nat → List (Nat × T) → Option Nat → Prop
  | p, [], q => p = q
  | p, (a, x) :: rest, q =>
      p = some a ∧ ∃ nxt, h[a]? = some (some ⟨x, nxt⟩) ∧ SinglyLinkedList.Seg h nxt rest q

/-- Representation of a list by the data nodes `cells` behind the header node, which
holds `d`: the header and the data nodes form a chain that ends with `nullptr`, their
addresses are distinct, and `size_` counts the data nodes. -/
def SinglyLinkedList.RepCells {T : Type} (l : SinglyLinkedList T) (d : T)
    (cells : List (Nat × T)) : Prop :=
  SinglyLinkedList.Seg l.heap (some l.header_) ((l.header_, d) :: cells) none ∧
  (l.header_ :: cells.map Prod.fst).Nodup ∧
  l.size_ = cells.length

/-- The list `l` is well formed and has the contents `xs`. -/
def SinglyLinkedList.Rep {T : Type} (l : SinglyLinkedList T) (xs : List T) : Prop :=
  ∃ d cells, cells.map Prod.snd = xs ∧ l.RepCells d cells

/-! ### LinkedQueue.c: the queues that the interface can produce -/

/-- The queues that `LinkedQueue_Create` followed by calls of `LinkedQueue_Enqueue` and
`LinkedQueue_Dequeue` produces; a call that stops counts with the queue it leaves
behind. -/
inductive LinkedQueue.Reachable : LinkedQueue → Prop
  | create : LinkedQueue.Reachable LinkedQueue_Create
  | enqueue (q : LinkedQueue) (data : LinkedQueueItem) :
      LinkedQueue.Reachable q → LinkedQueue.Reachable (LinkedQueue_Enqueue q data).2
  | dequeue (q : LinkedQueue) :
      LinkedQueue.Reachable q → LinkedQueue.Reachable (LinkedQueue_Dequeue q).2

/-- The addresses of the nodes linked from the pointer `p` up to `NULL`, in order;
`fuel` bounds the length of the walk. -/
def LinkedQueue.walk (h : Heap) : Nat → Option Nat → Except Error (List Nat)
  | _, none => .ok []
  | 0, some _ => .error .fuel
  | fuel + 1, some a =>
    match h.load a with
    | .error e => .error e
    | .ok nd =>
      match LinkedQueue.walk h fuel nd.next with
      | .error e => .error e
      | .ok l => .ok (a :: l)

/-- The data nodes of the queue: the addresses of the nodes linked after the header
node, oldest first. A walk over distinct nodes is bounded by the number of cells of
the memory. -/
def LinkedQueue.data_nodes (q : LinkedQueue) : Except Error (List Nat) :=
  match q.heap.load q.front with
  | .error e => .error e
  | .ok f => LinkedQueue.walk q.heap q.heap.length f.next

/-! ## Theorems -/

/-! ### LinkedQueue.c -/

theorem getLastD_mem_cons {α : Type} : ∀ (l : List α) (d : α), l.getLastD d ∈ d :: l
  | [], d => by simp
  | a :: l, d => by
    rw [List.getLastD_cons]
    exact List.mem_cons_of_mem _ (getLastD_mem_cons l a)

theorem IsChain.congr {h h' : Heap} : ∀ {p : Option Nat} {cells : List (Nat × LinkedQueueItem)},
    IsChain h p cells → (∀ a ∈ cells.map Prod.fst, h'[a]? = h[a]?) → IsChain h' p cells := by
  intro p cells
  induction cells generalizing p with
  | nil => intro hc _; exact hc
  | cons c rest ih =>
    obtain ⟨a, x⟩ := c
    rintro ⟨hp, nxt, hget, hrest⟩ hsame
    refine ⟨hp, nxt, ?_, ih hrest ?_⟩
    · rw [hsame a (by simp)]; exact hget
    · intro b hb; exact hsame b (by simp [List.mem_map] at hb ⊢; right; exact hb)

theorem IsChain.lt_length {h : Heap} : ∀ {p : Option Nat} {cells : List (Nat × LinkedQueueItem)},
    IsChain h p cells → ∀ a ∈ cells.map Prod.fst, a < h.length := by
  intro p cells
  induction cells generalizing p with
  | nil => intro _ a ha; simp at ha
  | cons c rest ih =>
    obtain ⟨a, x⟩ := c
    rintro ⟨_, nxt, hget, hrest⟩ b hb
    simp only [List.map_cons, List.mem_cons] at hb
    rcases hb with rfl | hb
    · exact (List.getElem?_eq_some.mp hget).1
    · exact ih hrest b hb

/-- Linking a new last node: the old last node (or the pointer we started from) now
points to `add`, the other nodes are untouched. -/
theorem IsChain.chain_snoc {h h' : Heap} {add : Nat} {x : LinkedQueueItem} :
    ∀ {p : Option Nat} {cells : List (Nat × LinkedQueueItem)} (c : Nat × LinkedQueueItem),
    IsChain h p (c :: cells) → (c.1 :: cells.map Prod.fst).Nodup →
    add ∉ (c.1 :: cells.map Prod.fst) →
    (∀ a ∈ (c.1 :: cells.map Prod.fst), a ≠ (cells.map Prod.fst).getLastD c.1 → h'[a]? = h[a]?) →
    (∀ y nxt, h[(cells.map Prod.fst).getLastD c.1]? = some (some ⟨y, nxt⟩) →
      h'[(cells.map Prod.fst).getLastD c.1]? = some (some ⟨y, some add⟩)) →
    h'[add]? = some (some ⟨x, none⟩) →
    IsChain h' p (c :: cells ++ [(add, x)]) := by
  intro p cells
  induction cells generalizing p with
  | nil =>
    rintro ⟨a, y⟩ ⟨hp, nxt, hget, hrest⟩ _ _ _ hlast hadd
    simp only [IsChain] at hrest
    subst hrest
    refine ⟨hp, some add, hlast y none hget, rfl, none, hadd, rfl⟩
  | cons c2 rest ih =>
    rintro ⟨a, y⟩ ⟨hp, nxt, hget, hrest⟩ hnd hfresh hsame hlast hadd
    have hnd2 : (c2.1 :: rest.map Prod.fst).Nodup := (List.nodup_cons.mp hnd).2
    have hlastD : ((c2 :: rest).map Prod.fst).getLastD a = (rest.map Prod.fst).getLastD c2.1 := by
      rw [List.map_cons, List.getLastD_cons]
    have hne : a ≠ (rest.map Prod.fst).getLastD c2.1 := by
      intro heq
      have hmem := getLastD_mem_cons (rest.map Prod.fst) c2.1
      rw [← heq] at hmem
      exact (List.nodup_cons.mp hnd).1 (by simpa using hmem)
    refine ⟨hp, nxt, ?_, ?_⟩
    · rw [hsame a (by simp) (by rw [hlastD]; exact hne)]; exact hget
    · have := ih c2 hrest hnd2 (fun hm => hfresh (List.mem_cons_of_mem _ (by simpa using hm)))
        (fun b hb hbne => hsame b (List.mem_cons_of_mem _ (by simpa using hb)) (by rw [hlastD]; exact hbne))
        (fun y nxt hy => by rw [← hlastD]; exact hlast y nxt (by rw [hlastD]; exact hy))
        hadd
      simpa using this



theorem IsChain.allocated {h : Heap} : ∀ {p : Option Nat} {cells : List (Nat × LinkedQueueItem)},
    IsChain h p cells → ∀ a ∈ cells.map Prod.fst, ∃ nd, h[a]? = some (some nd) := by
  intro p cells
  induction cells generalizing p with
  | nil => intro _ a ha; simp at ha
  | cons c rest ih =>
    obtain ⟨a, x⟩ := c
    rintro ⟨_, nxt, hget, hrest⟩ b hb
    simp only [List.map_cons, List.mem_cons] at hb
    rcases hb with rfl | hb
    · exact ⟨_, hget⟩
    · exact ih hrest b hb

theorem LinkedQueue.RepCells.rear_allocated {q : LinkedQueue} {cells : List (Nat × LinkedQueueItem)}
    (hrep : q.RepCells cells) : ∃ nd, q.heap[q.rear]? = some (some nd) := by
  obtain ⟨⟨d, nxt, hfront, hchain⟩, _, hrear, _⟩ := hrep
  have hmem := getLastD_mem_cons (cells.map Prod.fst) q.front
  rw [← hrear] at hmem
  rcases List.mem_cons.mp hmem with h | h
  · rw [h]; exact ⟨_, hfront⟩
  · exact hchain.allocated _ h

/-- The heap after the three writes of `LinkedQueue_Enqueue`. -/
theorem enqueue_heap_get (h : Heap) (rear : Nat) (r : LinkedQueueNode) (x : LinkedQueueItem)
    (hr : h[rear]? = some (some r)) (a : Nat) :
    ((((h ++ [some (LinkedQueueNode.mk 0 none)]).set h.length
        (some (LinkedQueueNode.mk x none))).set rear
        (some (LinkedQueueNode.mk r.data (some h.length))))[a]?) =
      if a = rear then some (some (LinkedQueueNode.mk r.data (some h.length)))
      else if a = h.length then some (some (LinkedQueueNode.mk x none)) else h[a]? := by
  have hlt : rear < h.length := (List.getElem?_eq_some.mp hr).1
  simp only [List.getElem?_set, List.length_set, List.length_append, List.length_singleton,
    List.getElem?_append]
  by_cases h1 : a = rear
  · subst h1
    simp [Nat.lt_succ_of_lt hlt]
  · by_cases h2 : a = h.length
    · subst h2
      have h1' : ¬ rear = h.length := fun e => h1 e.symm
      simp [h1, h1']
    · have h1' : ¬ rear = a := fun e => h1 e.symm
      have h2' : ¬ h.length = a := fun e => h2 e.symm
      simp only [h1, h2, h1', h2', if_false]
      by_cases h3 : a < h.length
      · simp [h3]
      · have : h.length ≤ a := Nat.le_of_not_lt h3
        have h4 : a - h.length ≠ 0 := by omega
        simp [h3, List.getElem?_eq_none this]
        omega

theorem LinkedQueue_Enqueue_spec (q : LinkedQueue) (cells : List (Nat × LinkedQueueItem))
    (x : LinkedQueueItem) (hrep : q.RepCells cells) (hsz : q.size < INT_MAX) :
    ∃ q', LinkedQueue_Enqueue q x = (.ok (), q') ∧
      q'.RepCells (cells ++ [(q.heap.length, x)]) := by
  obtain ⟨r, hr⟩ := hrep.rear_allocated
  obtain ⟨⟨d, nxt, hfront, hchain⟩, hnd, hrear, hsize⟩ := hrep
  have hrlt : q.rear < q.heap.length := (List.getElem?_eq_some.mp hr).1
  have hload : Heap.load (Heap.store (q.heap ++ [some (LinkedQueueNode.mk 0 none)]) q.heap.length
      (LinkedQueueNode.mk x none)) q.rear = .ok r := by
    unfold Heap.load Heap.store
    rw [List.getElem?_set_ne (by omega), List.getElem?_append_left hrlt, hr]
  refine ⟨{ q with
      heap := ((q.heap ++ [some (LinkedQueueNode.mk 0 none)]).set q.heap.length
        (some (LinkedQueueNode.mk x none))).set q.rear
        (some (LinkedQueueNode.mk r.data (some q.heap.length))),
      rear := q.heap.length, size := q.size + 1 }, ?_, ?_⟩
  · unfold LinkedQueue_Enqueue check_full Heap.malloc
    simp only [ge_iff_le, not_le.mpr hsz, if_false, hload]
    rfl
  · have hget := enqueue_heap_get q.heap q.rear r x hr
    have hflt : q.front < q.heap.length := (List.getElem?_eq_some.mp hfront).1
    have haddr_lt := hchain.lt_length
    unfold LinkedQueue.RepCells
    simp only []
    refine ⟨?_, ?_, ?_, ?_⟩
    · cases cells with
      | nil =>
        have hrf : q.rear = q.front := by simpa using hrear
        simp only [IsChain] at hchain
        refine ⟨r.data, some q.heap.length, ?_, rfl, none, ?_, rfl⟩
        · rw [hget]; simp [hrf]
        · rw [hget]; simp [Nat.ne_of_gt hrlt]
      | cons c rest =>
        have hfr : q.front ≠ q.rear := by
          intro e
          have hmem := getLastD_mem_cons (rest.map Prod.fst) c.1
          rw [List.map_cons, List.getLastD_cons] at hrear
          rw [← hrear, ← e] at hmem
          exact (List.nodup_cons.mp hnd).1 (by simpa using hmem)
        refine ⟨d, nxt, ?_, ?_⟩
        · rw [hget]; simp [hfr, Nat.ne_of_lt hflt, hfront]
        · rw [List.map_cons, List.getLastD_cons] at hrear
          refine IsChain.chain_snoc c hchain (List.nodup_cons.mp hnd).2 ?_ ?_ ?_ ?_
          · intro hm
            exact absurd (haddr_lt _ (by simpa using hm)) (lt_irrefl _)
          · intro a ha hne
            rw [← hrear] at hne
            rw [hget]
            have := haddr_lt a (by simpa using ha)
            simp [hne, Nat.ne_of_lt this]
          · intro y n hy
            rw [← hrear] at hy ⊢
            rw [hr] at hy
            simp only [Option.some.injEq] at hy
            subst hy
            rw [hget]; simp
          · rw [hget]; simp [Nat.ne_of_gt hrlt]
    · rw [List.map_append, ← List.cons_append]
      refine List.Nodup.append hnd (by simp) ?_
      intro a ha hb
      simp only [List.map_cons, List.map_nil, List.mem_singleton] at hb
      subst hb
      rcases List.mem_cons.mp ha with h | h
      · exact absurd hflt (by omega)
      · exact absurd (haddr_lt _ h) (lt_irrefl _)
    · rw [List.map_append]
      simp [List.getLastD_eq_getLast?]
    · simp [hsize]

theorem LinkedQueue_Dequeue_spec (q : LinkedQueue) (a : Nat) (x : LinkedQueueItem)
    (cells : List (Nat × LinkedQueueItem)) (hrep : q.RepCells ((a, x) :: cells)) :
    ∃ q', LinkedQueue_Dequeue q = (.ok x, q') ∧ q'.RepCells cells := by
  obtain ⟨⟨d, nxt, hfront, hp, nxt2, hget, hchain⟩, hnd, hrear, hsize⟩ := hrep
  subst hp
  simp only [List.map_cons, List.nodup_cons, List.mem_cons, not_or] at hnd
  obtain ⟨⟨hfa, hfc⟩, hac, hndc⟩ := hnd
  rw [List.map_cons, List.getLastD_cons] at hrear
  have hsz : q.size ≠ 0 := by rw [hsize]; simp; omega
  have hloadf : Heap.load q.heap q.front = .ok ⟨d, some a⟩ := by
    unfold Heap.load; rw [hfront]
  have hloada : Heap.load q.heap a = .ok ⟨x, nxt2⟩ := by
    unfold Heap.load; rw [hget]
  refine ⟨{ q with
      heap := (q.heap.set q.front (some (LinkedQueueNode.mk d nxt2))).set a none,
      rear := if a = q.rear then q.front else q.rear,
      size := q.size - 1 }, ?_, ?_⟩
  · unfold LinkedQueue_Dequeue check_empty
    simp only [hsz, if_false, hloadf]
    by_cases hra : a = q.rear
    · subst hra
      simp only [if_true, hloada]
      simp [Heap.store, Heap.free]
    · have : ¬ some q.rear = some a := by simpa using Ne.symm hra
      simp only [this, if_false, hloada, hra]
      simp [Heap.store, Heap.free]
  · have hflt : q.front < q.heap.length := (List.getElem?_eq_some.mp hfront).1
    unfold LinkedQueue.RepCells
    simp only []
    refine ⟨⟨d, nxt2, ?_, ?_⟩, List.nodup_cons.mpr ⟨hfc, hndc⟩, ?_, ?_⟩
    · rw [List.getElem?_set_ne (Ne.symm hfa), List.getElem?_set_self hflt]
    · refine hchain.congr ?_
      intro b hb
      have hba : a ≠ b := fun e => hac (e ▸ hb)
      have hbf : q.front ≠ b := fun e => hfc (e ▸ hb)
      rw [List.getElem?_set_ne hba, List.getElem?_set_ne hbf]
    · cases cells with
      | nil => simp at hrear; simp [hrear]
      | cons c rest =>
        rw [List.map_cons, List.getLastD_cons] at hrear ⊢
        have hne : a ≠ q.rear := by
          intro e
          have hmem := getLastD_mem_cons (rest.map Prod.fst) c.1
          rw [← hrear, ← e] at hmem
          exact hac (by simpa using hmem)
        rw [if_neg hne]; exact hrear
    · rw [hsize]; simp

theorem LinkedQueue_Create_rep : LinkedQueue_Create.Rep [] := by
  refine ⟨[], rfl, ⟨0, none, by decide, rfl⟩, by decide, by decide, by decide⟩

theorem LinkedQueue.Rep.queue_size_eq {q : LinkedQueue} {xs : List LinkedQueueItem} (h : q.Rep xs) :
    q.size = xs.length := by
  obtain ⟨cells, rfl, hc⟩ := h
  rw [hc.2.2.2]; simp

theorem LinkedQueue_Enqueue_rep (q : LinkedQueue) (items : List LinkedQueueItem)
    (x : LinkedQueueItem) (hrep : q.Rep items) (hsz : q.size < INT_MAX) :
    ∃ q', LinkedQueue_Enqueue q x = (.ok (), q') ∧ q'.Rep (items ++ [x]) := by
  obtain ⟨cells, rfl, hc⟩ := hrep
  obtain ⟨q', hq, hc'⟩ := LinkedQueue_Enqueue_spec q cells x hc hsz
  exact ⟨q', hq, _, by simp, hc'⟩

theorem LinkedQueue_Dequeue_rep (q : LinkedQueue) (items : List LinkedQueueItem)
    (x : LinkedQueueItem) (hrep : q.Rep (x :: items)) :
    ∃ q', LinkedQueue_Dequeue q = (.ok x, q') ∧ q'.Rep items := by
  obtain ⟨cells, hmap, hc⟩ := hrep
  cases cells with
  | nil => simp at hmap
  | cons c rest =>
    obtain ⟨a, y⟩ := c
    simp only [List.map_cons, List.cons.injEq] at hmap
    obtain ⟨rfl, rfl⟩ := hmap
    obtain ⟨q', hq, hc'⟩ := LinkedQueue_Dequeue_spec q a y rest hc
    exact ⟨q', hq, rest, rfl, hc'⟩

theorem LinkedQueue_EnqueueAll_rep : ∀ (xs : List LinkedQueueItem) (q : LinkedQueue)
    (items : List LinkedQueueItem), q.Rep items → ((items.length + xs.length : Nat) : Int) ≤ INT_MAX →
    ∃ q', LinkedQueue_EnqueueAll q xs = (.ok (), q') ∧ q'.Rep (items ++ xs)
  | [], q, items, hrep, _ => ⟨q, rfl, by simpa using hrep⟩
  | x :: xs, q, items, hrep, hlen => by
    have hsz : q.size < INT_MAX := by
      rw [hrep.queue_size_eq]
      simp only [List.length_cons] at hlen
      omega
    obtain ⟨q1, hq1, hrep1⟩ := LinkedQueue_Enqueue_rep q items x hrep hsz
    obtain ⟨q2, hq2, hrep2⟩ := LinkedQueue_EnqueueAll_rep xs q1 (items ++ [x]) hrep1
      (by simp only [List.length_append, List.length_cons, List.length_nil] at hlen ⊢; omega)
    refine ⟨q2, ?_, by simpa using hrep2⟩
    rw [LinkedQueue_EnqueueAll, hq1]; exact hq2

theorem LinkedQueue_DequeueN_rep : ∀ (xs : List LinkedQueueItem) (q : LinkedQueue)
    (rest : List LinkedQueueItem), q.Rep (xs ++ rest) →
    ∃ q', LinkedQueue_DequeueN q xs.length = (.ok xs, q') ∧ q'.Rep rest
  | [], q, rest, hrep => ⟨q, rfl, by simpa using hrep⟩
  | x :: xs, q, rest, hrep => by
    obtain ⟨q1, hq1, hrep1⟩ := LinkedQueue_Dequeue_rep q (xs ++ rest) x (by simpa using hrep)
    obtain ⟨q2, hq2, hrep2⟩ := LinkedQueue_DequeueN_rep xs q1 rest hrep1
    refine ⟨q2, ?_, hrep2⟩
    rw [List.length_cons, LinkedQueue_DequeueN, hq1]
    simp only [hq2]

/-- C1. `LinkedQueue` is first-in first-out. For every well-formed queue storing the
items `items` (oldest first) with `size` below `INT_MAX`, `LinkedQueue_Enqueue` succeeds
and leaves the items `items ++ [x]`; for every well-formed queue storing `x :: items`,
`LinkedQueue_Dequeue` returns `x` and leaves the items `items`; hence enqueuing a
sequence `xs` (that fits the size bound) onto a fresh queue and dequeuing `|xs|` times
returns `xs` in the same order and leaves the queue empty. -/
theorem LinkedQueue_fifo :
    (∀ (q : LinkedQueue) (items : List LinkedQueueItem) (x : LinkedQueueItem),
      q.Rep items → q.size < INT_MAX →
        ∃ q', LinkedQueue_Enqueue q x = (.ok (), q') ∧ q'.Rep (items ++ [x])) ∧
    (∀ (q : LinkedQueue) (items : List LinkedQueueItem) (x : LinkedQueueItem),
      q.Rep (x :: items) →
        ∃ q', LinkedQueue_Dequeue q = (.ok x, q') ∧ q'.Rep items) ∧
    (∀ xs : List LinkedQueueItem, (xs.length : Int) ≤ INT_MAX →
      ∃ q1 q2, LinkedQueue_EnqueueAll LinkedQueue_Create xs = (.ok (), q1) ∧ q1.Rep xs ∧
        LinkedQueue_DequeueN q1 xs.length = (.ok xs, q2) ∧ q2.Rep []) := by
  refine ⟨LinkedQueue_Enqueue_rep, LinkedQueue_Dequeue_rep, ?_⟩
  intro xs hlen
  obtain ⟨q1, hq1, hrep1⟩ := LinkedQueue_EnqueueAll_rep xs LinkedQueue_Create [] LinkedQueue_Create_rep
    (by simpa using hlen)
  obtain ⟨q2, hq2, hrep2⟩ := LinkedQueue_DequeueN_rep xs q1 [] (by simpa using hrep1)
  exact ⟨q1, q2, hq1, by simpa using hrep1, hq2, hrep2⟩

/-- Witness for C1: enqueue 1, 2, 3 on a fresh queue, then three dequeues give 1, 2, 3. -/
theorem LinkedQueue_fifo_witness :
    ∃ q1 q2, LinkedQueue_EnqueueAll LinkedQueue_Create [1, 2, 3] = (.ok (), q1) ∧
      q1.Rep [1, 2, 3] ∧ LinkedQueue_DequeueN q1 3 = (.ok [1, 2, 3], q2) ∧ q2.Rep [] :=
  LinkedQueue_fifo.2.2 [1, 2, 3] (by decide)

theorem LinkedQueue_Front_rep (q : LinkedQueue) (items : List LinkedQueueItem)
    (x : LinkedQueueItem) (hrep : q.Rep (x :: items)) :
    LinkedQueue_Front q = (.ok x, q) := by
  obtain ⟨cells, hmap, hc⟩ := hrep
  cases cells with
  | nil => simp at hmap
  | cons c rest =>
    obtain ⟨a, y⟩ := c
    simp only [List.map_cons, List.cons.injEq] at hmap
    obtain ⟨rfl, rfl⟩ := hmap
    obtain ⟨⟨d, nxt, hfront, hp, nxt2, hget, _⟩, _, _, hsize⟩ := hc
    subst hp
    have hsz : q.size ≠ 0 := by rw [hsize]; simp; omega
    have hloadf : Heap.load q.heap q.front = .ok ⟨d, some a⟩ := by
      unfold Heap.load; rw [hfront]
    have hloada : Heap.load q.heap a = .ok ⟨y, nxt2⟩ := by
      unfold Heap.load; rw [hget]
    unfold LinkedQueue_Front check_empty
    simp only [hsz, if_false, hloadf, hloada]

theorem LinkedQueue_Dequeue_of_size_zero (q : LinkedQueue) (h : q.size = 0) :
    LinkedQueue_Dequeue q = (.error .empty, q) := by
  unfold LinkedQueue_Dequeue check_empty
  simp [h]

theorem LinkedQueue_Front_of_size_zero (q : LinkedQueue) (h : q.size = 0) :
    LinkedQueue_Front q = (.error .empty, q) := by
  unfold LinkedQueue_Front check_empty
  simp [h]

/-- C10. On every well-formed queue storing `items`, `LinkedQueue_Dequeue` and
`LinkedQueue_Front` stop with the empty-container error if and only if the queue holds
no items, which is the case if and only if `size` is 0; they stop with no other error;
and a call that stops leaves the queue (hence its items and size) as it was. -/
theorem LinkedQueue_empty_error (q : LinkedQueue) (items : List LinkedQueueItem)
    (hrep : q.Rep items) :
    (items = [] ↔ q.size = 0) ∧
    ((LinkedQueue_Dequeue q).1 = .error .empty ↔ items = []) ∧
    ((LinkedQueue_Front q).1 = .error .empty ↔ items = []) ∧
    (∀ e, (LinkedQueue_Dequeue q).1 = .error e → e = .empty ∧ (LinkedQueue_Dequeue q).2 = q) ∧
    (∀ e, (LinkedQueue_Front q).1 = .error e → e = .empty ∧ (LinkedQueue_Front q).2 = q) := by
  have hsize := hrep.queue_size_eq
  cases items with
  | nil =>
    have h0 : q.size = 0 := by simpa using hsize
    rw [LinkedQueue_Dequeue_of_size_zero q h0, LinkedQueue_Front_of_size_zero q h0]
    refine ⟨by simp [h0], by simp, by simp, ?_, ?_⟩ <;>
    · intro e he
      simp only [Except.error.injEq] at he
      exact ⟨he.symm, rfl⟩
  | cons x rest =>
    have h0 : q.size ≠ 0 := by rw [hsize]; simp; omega
    obtain ⟨q', hq, _⟩ := LinkedQueue_Dequeue_rep q rest x hrep
    rw [hq, LinkedQueue_Front_rep q rest x hrep]
    refine ⟨by simp [h0], by simp, by simp, ?_, ?_⟩ <;>
    · intro e he
      simp at he

/-- Witness for C10: the freshly created queue is well formed and empty, so both calls
stop with the empty-container error and leave it unchanged. -/
theorem LinkedQueue_empty_error_witness :
    (LinkedQueue_Dequeue LinkedQueue_Create).1 = .error .empty ∧
    (LinkedQueue_Front LinkedQueue_Create).1 = .error .empty ∧
    (LinkedQueue_Dequeue LinkedQueue_Create).2 = LinkedQueue_Create ∧
    (LinkedQueue_Front LinkedQueue_Create).2 = LinkedQueue_Create :=
  have h := LinkedQueue_empty_error LinkedQueue_Create [] LinkedQueue_Create_rep
  ⟨h.2.1.mpr rfl, h.2.2.1.mpr rfl, (h.2.2.2.1 _ (h.2.1.mpr rfl)).2,
    (h.2.2.2.2 _ (h.2.2.1.mpr rfl)).2⟩

/-! ### ArrayStack.c -/

theorem take_succ_set {α : Type} (l : List α) (n : Nat) (x : α) (h : n < l.length) :
    (l.set n x).take (n + 1) = l.take n ++ [x] := by
  apply List.ext_getElem?
  intro i
  simp only [List.getElem?_take, List.getElem?_set, List.getElem?_append, List.length_take]
  by_cases h1 : i < n
  · have : ¬ n = i := by omega
    have h2 : i < min n l.length := by omega
    simp [h1, this, h2, Nat.lt_succ_of_lt h1]
  · by_cases h2 : i = n
    · subst h2
      simp [h, Nat.min_eq_left (Nat.le_of_lt h)]
    · have h3 : ¬ i < n + 1 := by omega
      have h4 : ¬ i < min n l.length := by omega
      have h5 : i - min n l.length ≠ 0 := by omega
      simp [h3, h4]
      omega

theorem ArrayStack_Push_spec (s : ArrayStack) (x : ArrayStackItem) (hwf : s.WF)
    (hsz : ArrayStack_Size s < 256) :
    ArrayStack_Push s x =
      (.ok (), { data := s.data.set (s.top + 1).toNat x, top := s.top + 1 }) ∧
    ArrayStack.WF { data := s.data.set (s.top + 1).toNat x, top := s.top + 1 } ∧
    ArrayStack.items { data := s.data.set (s.top + 1).toNat x, top := s.top + 1 } =
      s.items ++ [x] := by
  obtain ⟨hlen, hlo, hhi⟩ := hwf
  unfold ArrayStack_Size at hsz
  unfold ArrayStack.MAX_CAPACITY at hlen hhi
  refine ⟨?_, ⟨?_, ?_, ?_⟩, ?_⟩
  · unfold ArrayStack_Push check_full ArrayStack_Size ArrayStack.MAX_CAPACITY
    have h1 : ¬ (s.top + 1 ≥ 256) := by omega
    have h2 : 0 ≤ s.top + 1 ∧ s.top + 1 < (s.data.length : Int) := by omega
    simp only [h1, if_false, h2, and_self, if_true]
  · simpa [ArrayStack.MAX_CAPACITY] using hlen
  · show -1 ≤ s.top + 1; omega
  · show s.top + 1 < ArrayStack.MAX_CAPACITY; unfold ArrayStack.MAX_CAPACITY; omega
  · unfold ArrayStack.items
    show List.take (s.top + 1 + 1).toNat (s.data.set (s.top + 1).toNat x) = _
    have h3 : (s.top + 1 + 1).toNat = (s.top + 1).toNat + 1 := by omega
    rw [h3, take_succ_set _ _ _ (by omega)]

theorem ArrayStack_Pop_spec (s : ArrayStack) (l : List ArrayStackItem) (x : ArrayStackItem)
    (hwf : s.WF) (hitems : s.items = l ++ [x]) :
    ArrayStack_Pop s = (.ok x, { s with top := s.top - 1 }) ∧
    ArrayStack.WF { s with top := s.top - 1 } ∧
    ArrayStack.items { s with top := s.top - 1 } = l := by
  obtain ⟨hlen, hlo, hhi⟩ := hwf
  unfold ArrayStack.MAX_CAPACITY at hlen hhi
  unfold ArrayStack.items at hitems
  have hlenl : ((s.top + 1).toNat) = l.length + 1 := by
    have := congrArg List.length hitems
    simp only [List.length_take, List.length_append, List.length_singleton] at this
    omega
  have htop : 0 ≤ s.top := by omega
  have hn : (s.top + 1).toNat = s.top.toNat + 1 := by omega
  rw [hn, List.take_succ] at hitems
  have hlt : s.top.toNat < s.data.length := by omega
  rw [List.getElem?_eq_getElem hlt] at hitems
  simp only [Option.toList_some] at hitems
  have hx : s.data[s.top.toNat] = x := by
    have := List.append_inj_right' hitems (by simp)
    simpa using this
  have hl : s.data.take s.top.toNat = l := List.append_inj_left' hitems (by simp)
  refine ⟨?_, ⟨?_, ?_, ?_⟩, ?_⟩
  · unfold ArrayStack_Pop check_empty ArrayStack_Size
    have h1 : ¬ (s.top + 1 = 0) := by omega
    simp only [h1, if_false, htop, if_true, List.getElem?_eq_getElem hlt, hx]
  · simpa [ArrayStack.MAX_CAPACITY] using hlen
  · show -1 ≤ s.top - 1; omega
  · show s.top - 1 < ArrayStack.MAX_CAPACITY; unfold ArrayStack.MAX_CAPACITY; omega
  · unfold ArrayStack.items
    show List.take (s.top - 1 + 1).toNat s.data = l
    have : (s.top - 1 + 1).toNat = s.top.toNat := by omega
    rw [this, hl]

theorem ArrayStack.WF.stack_size_eq {s : ArrayStack} (hwf : s.WF) :
    ArrayStack_Size s = s.items.length := by
  obtain ⟨hlen, hlo, hhi⟩ := hwf
  unfold ArrayStack.MAX_CAPACITY at hlen hhi
  unfold ArrayStack_Size ArrayStack.items
  rw [List.length_take]
  omega

theorem ArrayStack_PushAll_spec : ∀ (xs : List ArrayStackItem) (s : ArrayStack), s.WF →
    ArrayStack_Size s + xs.length ≤ 256 →
    ∃ s1, ArrayStack_PushAll s xs = (.ok (), s1) ∧ s1.WF ∧ s1.items = s.items ++ xs
  | [], s, hwf, _ => ⟨s, rfl, hwf, by simp⟩
  | x :: xs, s, hwf, hsz => by
    simp only [List.length_cons, Nat.cast_add, Nat.cast_one] at hsz
    obtain ⟨hpush, hwf1, hitems1⟩ := ArrayStack_Push_spec s x hwf (by omega)
    obtain ⟨s2, hs2, hwf2, hitems2⟩ := ArrayStack_PushAll_spec xs _ hwf1
      (by rw [hwf1.stack_size_eq, hitems1, List.length_append, List.length_singleton]
          have := hwf.stack_size_eq
          push_cast; omega)
    refine ⟨s2, ?_, hwf2, by rw [hitems2, hitems1]; simp⟩
    rw [ArrayStack_PushAll, hpush]; exact hs2

theorem ArrayStack_PopN_spec : ∀ (ys l : List ArrayStackItem) (s : ArrayStack), s.WF →
    s.items = l ++ ys.reverse →
    ∃ s2, ArrayStack_PopN s ys.length = (.ok ys, s2) ∧ s2.WF ∧ s2.items = l ∧
      s2.data = s.data
  | [], l, s, hwf, hitems => ⟨s, rfl, hwf, by simpa using hitems, rfl⟩
  | y :: ys, l, s, hwf, hitems => by
    obtain ⟨hpop, hwf1, hitems1⟩ := ArrayStack_Pop_spec s (l ++ ys.reverse) y hwf
      (by rw [hitems]; simp)
    obtain ⟨s2, hs2, hwf2, hitems2, hdata⟩ := ArrayStack_PopN_spec ys l _ hwf1 hitems1
    refine ⟨s2, ?_, hwf2, hitems2, hdata⟩
    rw [List.length_cons, ArrayStack_PopN, hpop]
    simp only [hs2]

theorem ArrayStack_Create_wf : ArrayStack_Create.WF := by
  refine ⟨?_, by decide, by decide⟩
  show ((List.replicate 256 (0 : ArrayStackItem)).length : Int) = 256
  rw [List.length_replicate]; rfl

/-- C2. `ArrayStack` is last-in first-out. For every well-formed stack with fewer than
256 items and every item `x`, `ArrayStack_Push` of `x` followed by `ArrayStack_Pop`
returns `x` and leaves the stack with the items and the size it had before the push;
consequently pushing a sequence `xs` (that fits the capacity) and popping `|xs|` times
returns the items of `xs` in reverse order and again leaves the items and the size
the stack had before. -/
theorem ArrayStack_lifo :
    (∀ (s : ArrayStack) (x : ArrayStackItem), s.WF → ArrayStack_Size s < 256 →
      ∃ s1 s2, ArrayStack_Push s x = (.ok (), s1) ∧ ArrayStack_Pop s1 = (.ok x, s2) ∧
        s2.items = s.items ∧ ArrayStack_Size s2 = ArrayStack_Size s) ∧
    (∀ (s : ArrayStack) (xs : List ArrayStackItem), s.WF →
      ArrayStack_Size s + xs.length ≤ 256 →
      ∃ s1 s2, ArrayStack_PushAll s xs = (.ok (), s1) ∧
        ArrayStack_PopN s1 xs.length = (.ok xs.reverse, s2) ∧
        s2.items = s.items ∧ ArrayStack_Size s2 = ArrayStack_Size s) := by
  constructor
  · intro s x hwf hsz
    obtain ⟨hpush, hwf1, hitems1⟩ := ArrayStack_Push_spec s x hwf hsz
    obtain ⟨hpop, hwf2, hitems2⟩ := ArrayStack_Pop_spec _ s.items x hwf1 hitems1
    exact ⟨_, _, hpush, hpop, hitems2, by rw [hwf2.stack_size_eq, hitems2, hwf.stack_size_eq]⟩
  · intro s xs hwf hsz
    obtain ⟨s1, hs1, hwf1, hitems1⟩ := ArrayStack_PushAll_spec xs s hwf hsz
    obtain ⟨s2, hs2, hwf2, hitems2, _⟩ := ArrayStack_PopN_spec xs.reverse s.items s1 hwf1
      (by rw [hitems1]; simp)
    refine ⟨s1, s2, hs1, ?_, hitems2, by rw [hwf2.stack_size_eq, hitems2, hwf.stack_size_eq]⟩
    rw [← List.length_reverse xs]; exact hs2

/-- Witness for C2: on the fresh stack, pushing 1, 2, 3 and popping three times returns
3, 2, 1 and leaves the stack empty. -/
theorem ArrayStack_lifo_witness :
    ∃ s1 s2, ArrayStack_PushAll ArrayStack_Create [1, 2, 3] = (.ok (), s1) ∧
      ArrayStack_PopN s1 3 = (.ok [3, 2, 1], s2) ∧
      s2.items = [] ∧ ArrayStack_Size s2 = 0 :=
  ArrayStack_lifo.2 ArrayStack_Create [1, 2, 3] ArrayStack_Create_wf (by decide)

/-! ### ArrayList.hpp -/

theorem arr_get_of_lt {T : Type} (data : List T) (j : Nat) (h : j < data.length) :
    arr_get data (j : Int) = .ok data[j] := by
  unfold arr_get
  simp [List.getElem?_eq_getElem h]

theorem arr_set_of_lt {T : Type} (data : List T) (j : Nat) (x : T) (h : j < data.length) :
    arr_set data (j : Int) x = .ok (data.set j x) := by
  unfold arr_set
  simp [h]

theorem ArrayList.insert_shift_spec {T : Type} (n : Nat) : ∀ (k : Nat) (data : List T),
    n + k < data.length →
    ∃ data', ArrayList.insert_shift (n : Int) k ((n + k : Nat) : Int) data = .ok data' ∧
      data'.length = data.length ∧
      ∀ j, data'[j]? = if n < j ∧ j ≤ n + k then data[j - 1]? else data[j]?
  | 0, data, _ => ⟨data, rfl, rfl, fun j => by
      have : ¬ (n < j ∧ j ≤ n + 0) := by omega
      rw [if_neg this]⟩
  | k + 1, data, hlen => by
    have hgt : ((n + (k + 1) : Nat) : Int) > (n : Int) := by push_cast; omega
    have hi1 : ((n + (k + 1) : Nat) : Int) - 1 = ((n + k : Nat) : Int) := by push_cast; omega
    have hlt1 : n + k < data.length := by omega
    obtain ⟨data', hrun, hlen', hget⟩ :=
      ArrayList.insert_shift_spec n k (data.set (n + (k + 1)) data[n + k])
        (by rw [List.length_set]; omega)
    refine ⟨data', ?_, by rw [hlen', List.length_set], ?_⟩
    · rw [ArrayList.insert_shift, if_pos hgt, hi1, arr_get_of_lt data (n + k) hlt1]
      simp only []
      rw [arr_set_of_lt data (n + (k + 1)) _ hlen]
      exact hrun
    · intro j
      rw [hget j]
      simp only [List.getElem?_set]
      by_cases h1 : n < j ∧ j ≤ n + k
      · have h2 : n < j ∧ j ≤ n + (k + 1) := by omega
        have h3 : ¬ (n + (k + 1) = j - 1) := by omega
        simp [h1, h2, h3]
      · by_cases h4 : j = n + (k + 1)
        · subst h4
          have h2 : n < n + (k + 1) ∧ n + (k + 1) ≤ n + (k + 1) := by omega
          have h5 : n + (k + 1) - 1 = n + k := by omega
          simp [h1, h2, h5, hlen, List.getElem?_eq_getElem hlt1]
        · have h2 : ¬ (n < j ∧ j ≤ n + (k + 1)) := by omega
          have h3 : ¬ (n + (k + 1) = j) := by omega
          simp [h1, h2, h3]

theorem ArrayList.remove_shift_spec {T : Type} (size : Nat) : ∀ (k i : Nat) (data : List T),
    1 ≤ i → i + k = size → size ≤ data.length →
    ∃ data', ArrayList.remove_shift (size : Int) k (i : Int) data = .ok data' ∧
      data'.length = data.length ∧
      ∀ j, data'[j]? = if i ≤ j + 1 ∧ j + 1 < size then data[j + 1]? else data[j]?
  | 0, i, data, _, hk, _ => ⟨data, rfl, rfl, fun j => by
      have : ¬ (i ≤ j + 1 ∧ j + 1 < size) := by omega
      rw [if_neg this]⟩
  | k + 1, i, data, hi, hk, hlen => by
    have hlt : (i : Int) < (size : Int) := by omega
    have hi1 : (i : Int) - 1 = ((i - 1 : Nat) : Int) := by omega
    have hi2 : (i : Int) + 1 = ((i + 1 : Nat) : Int) := by push_cast; rfl
    have hlt1 : i < data.length := by omega
    obtain ⟨data', hrun, hlen', hget⟩ :=
      ArrayList.remove_shift_spec size k (i + 1) (data.set (i - 1) data[i])
        (by omega) (by omega) (by rw [List.length_set]; omega)
    refine ⟨data', ?_, by rw [hlen', List.length_set], ?_⟩
    · rw [ArrayList.remove_shift, if_pos hlt, arr_get_of_lt data i hlt1]
      simp only []
      rw [hi1, arr_set_of_lt data (i - 1) _ (by omega), hi2]
      exact hrun
    · intro j
      rw [hget j]
      simp only [List.getElem?_set]
      by_cases h1 : i + 1 ≤ j + 1 ∧ j + 1 < size
      · have h2 : i ≤ j + 1 ∧ j + 1 < size := by omega
        have h3 : ¬ (i - 1 = j + 1) := by omega
        rw [if_pos h1, if_pos h2, if_neg h3]
      · by_cases h4 : j = i - 1
        · subst h4
          have h2 : i ≤ i - 1 + 1 ∧ i - 1 + 1 < size := by omega
          have h5 : i - 1 + 1 = i := by omega
          have h6 : i - 1 < data.length := by omega
          rw [if_neg h1, if_pos rfl, if_pos h6, if_pos h2, h5, List.getElem?_eq_getElem hlt1]
        · have h2 : ¬ (i ≤ j + 1 ∧ j + 1 < size) := by omega
          have h3 : ¬ (i - 1 = j) := by omega
          rw [if_neg h1, if_neg h3, if_neg h2]

theorem insert_contents {T : Type} (data data' : List T) (n size : Nat) (e : T)
    (hn : n ≤ size) (hlen : size < data.length) (hlen' : data'.length = data.length)
    (hget : ∀ j, data'[j]? = if n < j ∧ j ≤ size then data[j - 1]? else data[j]?) :
    (data'.set n e).take (size + 1) =
      (data.take size).take n ++ [e] ++ (data.take size).drop n := by
  apply List.ext_getElem?
  intro j
  have hmin : min n (min size data.length) = n := by omega
  rw [List.getElem?_take, List.getElem?_set, List.append_assoc, List.getElem?_append,
    List.length_take, List.length_take, hmin, hget j]
  by_cases h1 : j < n
  · have h2 : ¬ n = j := by omega
    have h3 : ¬ (n < j ∧ j ≤ size) := by omega
    have h4 : j < size + 1 := by omega
    have h5 : j < size := by omega
    rw [if_pos h4, if_neg h2, if_neg h3, if_pos h1, List.getElem?_take, if_pos h1,
      List.getElem?_take, if_pos h5]
  · rw [if_neg h1]
    by_cases h2 : j = n
    · subst h2
      have h4 : j < size + 1 := by omega
      have h5 : j < data'.length := by omega
      rw [if_pos h4, if_pos rfl, if_pos h5]
      simp
    · have h3 : ¬ n = j := fun e => h2 e.symm
      obtain ⟨m, hm⟩ : ∃ m, j - n = m + 1 := ⟨j - n - 1, by omega⟩
      rw [hm, List.singleton_append, List.getElem?_cons_succ, List.getElem?_drop,
        List.getElem?_take]
      have h6 : n + m = j - 1 := by omega
      rw [h6, if_neg h3]
      by_cases h4 : j < size + 1
      · have h7 : n < j ∧ j ≤ size := by omega
        have h8 : j - 1 < size := by omega
        rw [if_pos h4, if_pos h7, if_pos h8]
      · have h8 : ¬ j - 1 < size := by omega
        rw [if_neg h4, if_neg h8]

theorem ArrayList.expand_capacity_spec {T : Type} [Inhabited T] (MAX_CAPACITY : Int)
    (self : ArrayList T) (hwf : self.WF) (heq : self.size_ = self.capacity_)
    (hfull : self.size_ < MAX_CAPACITY) :
    ∃ self', self.expand_capacity MAX_CAPACITY true = (.ok (), self') ∧ self'.WF ∧
      self'.size_ = self.size_ ∧ self'.contents = self.contents ∧
      self'.size_ < self'.capacity_ ∧
      self'.capacity_ = (if self.capacity_ < Int.tdiv MAX_CAPACITY 2 then self.capacity_ * 2
                         else MAX_CAPACITY) := by
  obtain ⟨h0, hle, hpos, hlen⟩ := hwf
  generalize hc : (if self.capacity_ < Int.tdiv MAX_CAPACITY 2 then self.capacity_ * 2
                         else MAX_CAPACITY) = c
  have hcgt : self.size_ < c := by
    rw [← hc]; split_ifs <;> omega
  have hnew : new_array (T := T) c = .ok (List.replicate c.toNat default) := by
    unfold new_array; rw [if_pos (by omega)]
  have hcopy : std_copy self.data_ self.size_ (List.replicate c.toNat (default : T)) =
      .ok (self.data_.take self.size_.toNat ++
        (List.replicate c.toNat (default : T)).drop self.size_.toNat) := by
    unfold std_copy
    rw [if_pos]
    refine ⟨h0, by omega, ?_⟩
    rw [List.length_replicate]; omega
  refine ⟨{ size_ := self.size_, capacity_ := c,
            data_ := self.data_.take self.size_.toNat ++
              (List.replicate c.toNat (default : T)).drop self.size_.toNat }, ?_, ?_, rfl, ?_,
          hcgt, rfl⟩
  · unfold ArrayList.expand_capacity
    simp only [hc, if_true, hnew, hcopy]
  · refine ⟨h0, le_of_lt hcgt, by show 0 < c; omega, ?_⟩
    show ((List.length (self.data_.take self.size_.toNat ++
              (List.replicate c.toNat (default : T)).drop self.size_.toNat) : Nat) : Int) = c
    simp only [List.length_append, List.length_take, List.length_drop, List.length_replicate]
    omega
  · unfold ArrayList.contents
    simp only []
    rw [List.take_append_eq_append_take, List.take_take, List.length_take]
    have h1 : min self.size_.toNat self.data_.length = self.size_.toNat := by omega
    rw [h1]
    simp

/-- The effect of `ArrayList::insert` on a well-formed list that is not full, for an
index between 0 and the size, an element that is not a cell of the list itself, and an
allocation that succeeds when one is needed. -/
theorem ArrayList.insert_spec {T : Type} [Inhabited T] (MAX_CAPACITY : Int) (alloc : Bool)
    (self : ArrayList T) (index : Int) (element : T) (hwf : self.WF)
    (hfull : self.size_ < MAX_CAPACITY) (hlo : 0 ≤ index) (hhi : index ≤ self.size_)
    (halloc : self.size_ = self.capacity_ → alloc = true) :
    ∃ self', self.insert MAX_CAPACITY alloc index (.object element) = (.ok (), self') ∧
      self'.WF ∧
      self'.contents =
        self.contents.take index.toNat ++ [element] ++ self.contents.drop index.toNat ∧
      self'.size_ = self.size_ + 1 ∧
      self'.capacity_ = (if self.size_ = self.capacity_ then
          (if self.capacity_ < Int.tdiv MAX_CAPACITY 2 then self.capacity_ * 2
           else MAX_CAPACITY)
        else self.capacity_) := by
  -- the list after the optional expansion
  obtain ⟨s1, hs1, hwf1, hsize1, hcont1, hlt1, hcap1⟩ :
      ∃ s1, (if self.size_ = self.capacity_ then self.expand_capacity MAX_CAPACITY alloc
             else (.ok (), self)) = (.ok (), s1) ∧ s1.WF ∧ s1.size_ = self.size_ ∧
        s1.contents = self.contents ∧ s1.size_ < s1.capacity_ ∧
        s1.capacity_ = (if self.size_ = self.capacity_ then
          (if self.capacity_ < Int.tdiv MAX_CAPACITY 2 then self.capacity_ * 2
           else MAX_CAPACITY)
        else self.capacity_) := by
    by_cases heq : self.size_ = self.capacity_
    · obtain ⟨s1, h1, h2, h3, h4, h5, h6⟩ :=
        ArrayList.expand_capacity_spec MAX_CAPACITY self hwf heq hfull
      rw [halloc heq]
      exact ⟨s1, by rw [if_pos heq]; exact h1, h2, h3, h4, h5, by rw [if_pos heq]; exact h6⟩
    · refine ⟨self, by rw [if_neg heq], hwf, rfl, rfl, ?_, by rw [if_neg heq]⟩
      have := hwf.2.1
      omega
  obtain ⟨h0, hle, hpos, hlen⟩ := hwf1
  -- the shift loop
  obtain ⟨n, rfl⟩ : ∃ n : Nat, index = n := ⟨index.toNat, by omega⟩
  obtain ⟨k, hk⟩ : ∃ k : Nat, s1.size_ = ((n + k : Nat) : Int) :=
    ⟨(s1.size_ - n).toNat, by push_cast; omega⟩
  obtain ⟨data', hrun, hlen', hget⟩ := ArrayList.insert_shift_spec n k s1.data_ (by omega)
  have hfuel : (s1.size_ - (n : Int)).toNat = k := by omega
  refine ⟨{ s1 with data_ := data'.set n element, size_ := s1.size_ + 1 }, ?_, ?_, ?_, ?_, hcap1⟩
  · unfold ArrayList.insert check_full check_bounds
    have c1 : ¬ (self.size_ ≥ MAX_CAPACITY) := by omega
    have c2 : ¬ ((n : Int) < 0 ∨ (n : Int) ≥ self.size_ + 1) := by omega
    simp only [c1, c2, if_false, hs1]
    rw [hfuel, hk, hrun]
    simp only [ArrayList.ConstRef.read]
    rw [arr_set_of_lt data' n element (by omega)]
  · refine ⟨by show 0 ≤ s1.size_ + 1; omega, by show s1.size_ + 1 ≤ s1.capacity_; omega, hpos, ?_⟩
    show (((data'.set n element).length : Nat) : Int) = s1.capacity_
    rw [List.length_set, hlen', hlen]
  · rw [← hcont1]
    unfold ArrayList.contents
    show List.take (s1.size_ + 1).toNat (data'.set n element) = _
    have e1 : (s1.size_ + 1).toNat = (n + k) + 1 := by omega
    have e2 : s1.size_.toNat = n + k := by omega
    rw [e1, e2, Int.toNat_ofNat]
    exact insert_contents s1.data_ data' n (n + k) element (by omega) (by omega) hlen' hget
  · show s1.size_ + 1 = self.size_ + 1
    rw [hsize1]

/-- `ArrayList::insert` places an element that is not a cell of the list itself. For
every well-formed list with contents `xs` and `size_ < MAX_CAPACITY`, every index with
`0 ≤ index ≤ size_` and every such element `e`, with an allocation that succeeds when
the call goes through `expand_capacity`: `insert(index, e)` succeeds; afterwards the
contents are the first `index` elements of `xs`, then `e`, then the remaining elements
of `xs`, and the size has grown by exactly 1. -/
theorem ArrayList.insert_places_object {T : Type} [Inhabited T] (MAX_CAPACITY : Int)
    (alloc : Bool) (self : ArrayList T) (xs : List T) (index : Int) (e : T)
    (hwf : self.WF) (hxs : self.contents = xs) (hfull : self.size_ < MAX_CAPACITY)
    (hlo : 0 ≤ index) (hhi : index ≤ self.size_)
    (halloc : self.size_ = self.capacity_ → alloc = true) :
    ∃ self', self.insert MAX_CAPACITY alloc index (.object e) = (.ok (), self') ∧
      self'.contents = xs.take index.toNat ++ [e] ++ xs.drop index.toNat ∧
      self'.size_ = self.size_ + 1 ∧ self'.WF := by
  obtain ⟨self', h1, h2, h3, h4, _⟩ :=
    ArrayList.insert_spec MAX_CAPACITY alloc self index e hwf hfull hlo hhi halloc
  exact ⟨self', h1, hxs ▸ h3, h4, h2⟩

/-- C3. `ArrayList::insert` does not always place the element it is given: it takes the
element by `const T&` and reads it only after the expansion and the shift loop. On the
list `a` with contents 1, 2, 3 in an array of four cells, `a[1]` is 2, and the call
`a.insert(0, a[1])` returns with the contents 1, 1, 2, 3 instead of 2, 1, 2, 3, because
the shift loop has moved 1 into the cell that the reference denotes. On the same
contents in a full array of three cells the call goes through `expand_capacity`, which
deletes the array the reference points into, and the read is a fault. With the
element 2 passed as an object of its own both calls give 2, 1, 2, 3. -/
theorem ArrayList_insert_aliased_element :
    (ArrayList.operator_subscript (⟨3, 4, [1, 2, 3, 0]⟩ : ArrayList Int) 1).1 = .ok 2 ∧
    ArrayList.insert 100 true (⟨3, 4, [1, 2, 3, 0]⟩ : ArrayList Int) 0 (.cell 1)
      = (.ok (), ⟨4, 4, [1, 1, 2, 3]⟩) ∧
    (ArrayList.insert 100 true (⟨3, 4, [1, 2, 3, 0]⟩ : ArrayList Int) 0 (.cell 1)).2.contents
      = [1, 1, 2, 3] ∧
    (ArrayList.insert 100 true (⟨3, 4, [1, 2, 3, 0]⟩ : ArrayList Int) 0 (.cell 1)).2.contents
      ≠ List.take 0 [1, 2, 3] ++ [2] ++ List.drop 0 [1, 2, 3] ∧
    (ArrayList.insert 100 true (⟨3, 3, [1, 2, 3]⟩ : ArrayList Int) 0 (.cell 1)).1
      = .error .fault ∧
    (ArrayList.insert 100 true (⟨3, 4, [1, 2, 3, 0]⟩ : ArrayList Int) 0 (.object 2)).2.contents
      = [2, 1, 2, 3] ∧
    (ArrayList.insert 100 true (⟨3, 3, [1, 2, 3]⟩ : ArrayList Int) 0 (.object 2)).2.contents
      = [2, 1, 2, 3] := by
  refine ⟨by decide, by decide, by decide, by decide, by decide, by decide, by decide⟩

theorem remove_contents {T : Type} (data data' : List T) (n size : Nat)
    (hn : n < size)
    (hget : ∀ j, data'[j]? = if n + 1 ≤ j + 1 ∧ j + 1 < size then data[j + 1]? else data[j]?) :
    data'.take (size - 1) = (data.take size).eraseIdx n := by
  apply List.ext_getElem?
  intro j
  rw [List.getElem?_take, List.getElem?_eraseIdx, hget j, List.getElem?_take,
    List.getElem?_take]
  by_cases h1 : j < n
  · have h2 : ¬ (n + 1 ≤ j + 1 ∧ j + 1 < size) := by omega
    have h3 : j < size - 1 := by omega
    have h4 : j < size := by omega
    rw [if_pos h3, if_neg h2, if_pos h1, if_pos h4]
  · rw [if_neg h1]
    by_cases h3 : j < size - 1
    · have h2 : n + 1 ≤ j + 1 ∧ j + 1 < size := by omega
      rw [if_pos h3, if_pos h2, if_pos h2.2]
    · have h4 : ¬ j + 1 < size := by omega
      rw [if_neg h3, if_neg h4]

/-- C4. `ArrayList::remove` removes and returns the element at the given position. For
every well-formed list with contents `xs` and every index with `0 ≤ index < size_` (the
list is then non-empty), `remove(index)` succeeds and returns `xs[index]`; afterwards
the contents are `xs` with position `index` erased, the other elements in their
order, and the size is smaller by exactly 1. -/
theorem ArrayList_remove_returns {T : Type} (self : ArrayList T) (xs : List T)
    (index : Int) (hwf : self.WF) (hxs : self.contents = xs)
    (hlo : 0 ≤ index) (hhi : index < self.size_) :
    ∃ x self', self.remove index = (.ok x, self') ∧ xs[index.toNat]? = some x ∧
      self'.contents = xs.eraseIdx index.toNat ∧
      self'.contents = xs.take index.toNat ++ xs.drop (index.toNat + 1) ∧
      self'.size_ = self.size_ - 1 ∧ self'.WF := by
  obtain ⟨h0, hle, hpos, hlen⟩ := hwf
  obtain ⟨n, rfl⟩ : ∃ n : Nat, index = n := ⟨index.toNat, by omega⟩
  obtain ⟨size, hsize⟩ : ∃ size : Nat, self.size_ = size := ⟨self.size_.toNat, by omega⟩
  have hnlt : n < self.data_.length := by omega
  obtain ⟨data', hrun, hlen', hget⟩ :=
    ArrayList.remove_shift_spec size (size - (n + 1)) (n + 1) self.data_
      (by omega) (by omega) (by omega)
  have hfuel : (self.size_ - ((n : Int) + 1)).toNat = size - (n + 1) := by omega
  have hcont : List.take (size - 1) data' = (List.take size self.data_).eraseIdx n :=
    remove_contents self.data_ data' n size (by omega) hget
  have hxs' : xs = List.take size self.data_ := by
    rw [← hxs]; unfold ArrayList.contents; rw [hsize, Int.toNat_ofNat]
  refine ⟨self.data_[n], { self with data_ := data', size_ := self.size_ - 1 }, ?_, ?_, ?_, ?_,
    rfl, ?_⟩
  · unfold ArrayList.remove check_empty check_bounds
    have c1 : ¬ (self.size_ = 0) := by omega
    have c2 : ¬ ((n : Int) < 0 ∨ (n : Int) ≥ self.size_) := by omega
    simp only [c1, c2, if_false]
    rw [arr_get_of_lt self.data_ n hnlt]
    simp only []
    rw [hfuel, hsize]
    have e1 : (n : Int) + 1 = ((n + 1 : Nat) : Int) := by push_cast; rfl
    rw [e1, hrun]
  · rw [hxs', Int.toNat_ofNat, List.getElem?_take, if_pos (by omega),
      List.getElem?_eq_getElem hnlt]
  · unfold ArrayList.contents
    show List.take (self.size_ - 1).toNat data' = _
    have e2 : (self.size_ - 1).toNat = size - 1 := by omega
    rw [e2, Int.toNat_ofNat, hxs', hcont]
  · unfold ArrayList.contents
    show List.take (self.size_ - 1).toNat data' = _
    have e2 : (self.size_ - 1).toNat = size - 1 := by omega
    rw [e2, Int.toNat_ofNat, hxs', hcont, List.eraseIdx_eq_take_drop_succ]
  · refine ⟨by show 0 ≤ self.size_ - 1; omega, by show self.size_ - 1 ≤ self.capacity_; omega,
      hpos, ?_⟩
    show ((data'.length : Nat) : Int) = self.capacity_
    rw [hlen', hlen]

/-- Witness for C4: removing position 1 of the list 1, 2, 3, 4 returns 2 and leaves
1, 3, 4. -/
theorem ArrayList_remove_returns_witness :
    ∃ x self', ArrayList.remove (⟨4, 4, [1, 2, 3, 4]⟩ : ArrayList Int) 1 = (.ok x, self') ∧
      ([1, 2, 3, 4] : List Int)[(1 : Nat)]? = some x ∧ self'.contents = [1, 3, 4] ∧
      self'.contents = [1] ++ [3, 4] ∧ self'.size_ = 3 ∧ self'.WF :=
  ArrayList_remove_returns ⟨4, 4, [1, 2, 3, 4]⟩ [1, 2, 3, 4] 1
    (by decide) rfl (by decide) (by decide)

/-! ### MatrixGraph: the store and the edge operations -/

theorem MatrixGraph.cell_setCell (INF : Int) (g : MatrixGraph) (hv : g.Valid) (u v a b : Nat)
    (x : Int) (hu : u < g.vertex_count) (hvv : v < g.vertex_count) :
    (g.setCell u v x).cell INF a b = if a = u ∧ b = v then x else g.cell INF a b := by
  obtain ⟨hlen, hrows⟩ := hv
  have hul : u < g.matrix.length := by omega
  have hrow : (g.matrix.getD u []).length = g.vertex_count := by
    apply hrows
    rw [List.getD_eq_getElem _ _ hul]
    exact List.getElem_mem _
  unfold MatrixGraph.cell MatrixGraph.setCell
  simp only [List.getD_eq_getElem?_getD, List.getElem?_set]
  by_cases h1 : a = u
  · subst h1
    simp only [if_true, hul, true_and]
    by_cases h2 : b = v
    · subst h2
      have hb : b < (g.matrix[a]?.getD []).length := by
        rw [← List.getD_eq_getElem?_getD, hrow]; exact hvv
      simp [hb]
    · have h2' : ¬ v = b := fun e => h2 e.symm
      simp [h2, h2']
  · have h1' : ¬ u = a := fun e => h1 e.symm
    simp [h1, h1']

theorem MatrixGraph.setCell_valid (g : MatrixGraph) (hv : g.Valid) (u v : Nat) (x : Int) :
    (g.setCell u v x).Valid := by
  obtain ⟨hlen, hrows⟩ := hv
  refine ⟨by simp [MatrixGraph.setCell, hlen], ?_⟩
  intro row hrow
  simp only [MatrixGraph.setCell] at hrow ⊢
  by_cases hu : u < g.matrix.length
  · rcases List.mem_or_eq_of_mem_set hrow with h | h
    · exact hrows row h
    · subst h
      rw [List.length_set]
      apply hrows
      rw [List.getD_eq_getElem _ _ hu]
      exact List.getElem_mem _
  · rw [List.set_eq_of_length_le (by omega)] at hrow
    exact hrows _ hrow

theorem MatrixGraph_Link_ok (g : MatrixGraph) (u v w : Int) (hu : g.inRange u)
    (hvv : g.inRange v) :
    MatrixGraph_Link g u v w = (.ok (), g.setCell u.toNat v.toNat w) := by
  unfold MatrixGraph_Link
  rw [if_pos ⟨hu, hvv⟩]

theorem MatrixGraph_Unlink_ok (INF : Int) (g : MatrixGraph) (u v : Int) (hu : g.inRange u)
    (hvv : g.inRange v) :
    MatrixGraph_Unlink INF g u v = (.ok (), g.setCell u.toNat v.toNat INF) := by
  unfold MatrixGraph_Unlink
  rw [if_pos ⟨hu, hvv⟩]

theorem MatrixGraph.inRange_toNat {g : MatrixGraph} {V : Int} (h : g.inRange V) :
    V.toNat < g.vertex_count := by
  unfold MatrixGraph.inRange at h
  omega

theorem MatrixGraph.cell_setCell_sentinel (INF : Int) (g : MatrixGraph) (u v : Nat) :
    (g.setCell u v INF).cell INF u v = INF := by
  unfold MatrixGraph.cell MatrixGraph.setCell
  simp only [List.getD_eq_getElem?_getD, List.getElem?_set]
  by_cases hu : u < g.matrix.length
  · simp only [if_true, hu, Option.getD_some]
    rw [List.getElem?_set, if_pos rfl]
    split_ifs <;> rfl
  · simp [hu, List.getElem?_eq_none (Nat.le_of_not_lt hu)]

/-- C8. Link/unlink round trip: for every graph, every pair of in-range vertices `u`,
`v` and every weight `w`, `MatrixGraph_Link(u, v, w)` succeeds, the following
`MatrixGraph_Unlink(u, v)` succeeds, and `MatrixGraph_IsAdjacent(u, v)` then returns
false. -/
theorem MatrixGraph_link_unlink_round_trip (INF : Int) (g : MatrixGraph) (u v w : Int)
    (hu : g.inRange u) (hvv : g.inRange v) :
    ∃ g1 g2, MatrixGraph_Link g u v w = (.ok (), g1) ∧
      MatrixGraph_Unlink INF g1 u v = (.ok (), g2) ∧
      MatrixGraph_IsAdjacent INF g2 u v = .ok false := by
  have hu1 : (g.setCell u.toNat v.toNat w).inRange u := hu
  have hvv1 : (g.setCell u.toNat v.toNat w).inRange v := hvv
  refine ⟨_, _, MatrixGraph_Link_ok g u v w hu hvv,
    MatrixGraph_Unlink_ok INF _ u v hu1 hvv1, ?_⟩
  unfold MatrixGraph_IsAdjacent
  rw [if_pos ⟨hu, hvv⟩, MatrixGraph.cell_setCell_sentinel]
  simp

/-- Witness for C8 on the three-vertex store with the edge 0 → 1 of weight 1. -/
theorem MatrixGraph_link_unlink_round_trip_witness :
    ∃ g1 g2, MatrixGraph_Link ⟨3, [[9, 1, 9], [9, 9, 9], [9, 9, 9]]⟩ 0 2 5 = (.ok (), g1) ∧
      MatrixGraph_Unlink 9 g1 0 2 = (.ok (), g2) ∧
      MatrixGraph_IsAdjacent 9 g2 0 2 = .ok false :=
  MatrixGraph_link_unlink_round_trip 9 ⟨3, [[9, 1, 9], [9, 9, 9], [9, 9, 9]]⟩ 0 2 5
    (by decide) (by decide)

/-- Counterexample to C9 as stated: linking with the sentinel itself as the weight
(here the sentinel is 2147483647, on the two-vertex store without edges) stores the
sentinel, and `MatrixGraph_IsAdjacent(0, 1)` returns false after the link. -/
theorem MatrixGraph_link_sentinel_not_adjacent :
    MatrixGraph_IsAdjacent 2147483647
      (MatrixGraph_Link ⟨2, [[2147483647, 2147483647], [2147483647, 2147483647]]⟩
        0 1 2147483647).2 0 1 = .ok false := by
  decide

/-- C9, amended. Edges are directed: for every store with an `n × n` matrix, in-range
vertices `u`, `v` and weight `w`, `MatrixGraph_Link(u, v, w)` succeeds; afterwards
`MatrixGraph_IsAdjacent(u, v)` returns true provided `w` is not the no-edge sentinel,
and for every other ordered pair `(a, b) ≠ (u, v)`, in particular `(v, u)` when
`u ≠ v`, `MatrixGraph_IsAdjacent(a, b)` returns what it returned before the link. -/
theorem MatrixGraph_link_directed (INF : Int) (g : MatrixGraph) (u v w : Int)
    (hv : g.Valid) (hu : g.inRange u) (hvv : g.inRange v) :
    ∃ g1, MatrixGraph_Link g u v w = (.ok (), g1) ∧
      (w ≠ INF → MatrixGraph_IsAdjacent INF g1 u v = .ok true) ∧
      (∀ a b : Int, (a, b) ≠ (u, v) →
        MatrixGraph_IsAdjacent INF g1 a b = MatrixGraph_IsAdjacent INF g a b) ∧
      (u ≠ v → MatrixGraph_IsAdjacent INF g1 v u = MatrixGraph_IsAdjacent INF g v u) := by
  have hframe : ∀ a b : Int, (a, b) ≠ (u, v) →
      MatrixGraph_IsAdjacent INF (g.setCell u.toNat v.toNat w) a b =
        MatrixGraph_IsAdjacent INF g a b := by
    intro a b hab
    unfold MatrixGraph_IsAdjacent
    by_cases hr : g.inRange a ∧ g.inRange b
    · have hr1 : (g.setCell u.toNat v.toNat w).inRange a ∧
          (g.setCell u.toNat v.toNat w).inRange b := hr
      rw [if_pos hr, if_pos hr1,
        MatrixGraph.cell_setCell INF g hv _ _ _ _ _ (MatrixGraph.inRange_toNat hu)
          (MatrixGraph.inRange_toNat hvv)]
      have hne : ¬ (a.toNat = u.toNat ∧ b.toNat = v.toNat) := by
        rintro ⟨h1, h2⟩
        apply hab
        unfold MatrixGraph.inRange at hr hu hvv
        have ha : a = u := by omega
        have hb : b = v := by omega
        rw [ha, hb]
      rw [if_neg hne]
    · have hr1 : ¬ ((g.setCell u.toNat v.toNat w).inRange a ∧
          (g.setCell u.toNat v.toNat w).inRange b) := hr
      rw [if_neg hr, if_neg hr1]
  refine ⟨_, MatrixGraph_Link_ok g u v w hu hvv, ?_, hframe, ?_⟩
  · intro hw
    have hu1 : (g.setCell u.toNat v.toNat w).inRange u := hu
    have hvv1 : (g.setCell u.toNat v.toNat w).inRange v := hvv
    unfold MatrixGraph_IsAdjacent
    rw [if_pos ⟨hu1, hvv1⟩,
      MatrixGraph.cell_setCell INF g hv _ _ _ _ _ (MatrixGraph.inRange_toNat hu)
        (MatrixGraph.inRange_toNat hvv)]
    simp [hw]
  · intro huv
    apply hframe
    intro h
    simp only [Prod.mk.injEq] at h
    exact huv h.1.symm

/-- Witness for the amended C9: on the three-vertex store with the edge 0 → 1, linking
0 → 2 with weight 5 makes (0, 2) adjacent and leaves every other pair as it was. -/
theorem MatrixGraph_link_directed_witness :
    ∃ g1, MatrixGraph_Link ⟨3, [[9, 1, 9], [9, 9, 9], [9, 9, 9]]⟩ 0 2 5 = (.ok (), g1) ∧
      ((5 : Int) ≠ 9 → MatrixGraph_IsAdjacent 9 g1 0 2 = .ok true) ∧
      (∀ a b : Int, (a, b) ≠ (0, 2) →
        MatrixGraph_IsAdjacent 9 g1 a b =
          MatrixGraph_IsAdjacent 9 ⟨3, [[9, 1, 9], [9, 9, 9], [9, 9, 9]]⟩ a b) ∧
      ((0 : Int) ≠ 2 → MatrixGraph_IsAdjacent 9 g1 2 0 =
          MatrixGraph_IsAdjacent 9 ⟨3, [[9, 1, 9], [9, 9, 9], [9, 9, 9]]⟩ 2 0) :=
  MatrixGraph_link_directed 9 ⟨3, [[9, 1, 9], [9, 9, 9], [9, 9, 9]]⟩ 0 2 5
    (by decide) (by decide) (by decide)

/-! ### MatrixGraph: traversal -/

theorem MatrixGraph.mem_neighbours (INF : Int) (g : MatrixGraph) (u v : Nat) :
    v ∈ g.neighbours INF u ↔ v < g.vertex_count ∧ g.cell INF u v ≠ INF := by
  unfold MatrixGraph.neighbours
  simp [List.mem_filter, List.mem_range]

theorem MatrixGraph.neighbours_length_le (INF : Int) (g : MatrixGraph) (u : Nat) :
    (g.neighbours INF u).length ≤ g.vertex_count := by
  unfold MatrixGraph.neighbours
  calc ((List.range g.vertex_count).filter _).length
      ≤ (List.range g.vertex_count).length := List.length_filter_le _ _
    _ = g.vertex_count := List.length_range _

theorem getD_set_true (visited : List Bool) (u v : Nat) (hu : u < visited.length) :
    (visited.set u true).getD v false = true ↔ v = u ∨ visited.getD v false = true := by
  simp only [List.getD_eq_getElem?_getD, List.getElem?_set]
  by_cases h : u = v
  · subst h; simp [hu]
  · have h' : ¬ v = u := fun e => h e.symm
    simp [h, h']

theorem getD_true_lt (visited : List Bool) (v : Nat) (h : visited.getD v false = true) :
    v < visited.length := by
  by_contra hn
  rw [List.getD_eq_getElem?_getD, List.getElem?_eq_none (by omega)] at h
  simp at h

theorem nodup_length_le_of_lt (l : List Nat) (n : Nat) (hnd : l.Nodup) (hlt : ∀ v ∈ l, v < n) :
    l.length ≤ n := by
  have h1 : l.toFinset ⊆ Finset.range n := by
    intro v hv
    rw [List.mem_toFinset] at hv
    exact Finset.mem_range.mpr (hlt v hv)
  have h2 := Finset.card_le_card h1
  rw [List.toFinset_card_of_nodup hnd, Finset.card_range] at h2
  exact h2

theorem foldl_push_eq (l stack : List Nat) :
    l.foldl (fun st v => v :: st) stack = l.reverse ++ stack := by
  induction l generalizing stack with
  | nil => rfl
  | cons a l ih => simp [List.foldl_cons, ih]

theorem MatrixGraph.DfsInv.trace_length_le {INF : Int} {g : MatrixGraph} {start : Nat}
    {stack : List Nat} {visited : List Bool} {trace : List Nat}
    (h : g.DfsInv INF start stack visited trace) : trace.length ≤ g.vertex_count :=
  nodup_length_le_of_lt trace _ h.nodup
    (fun v hv => h.len ▸ getD_true_lt visited v ((h.vis v).mpr hv))

theorem MatrixGraph.DfsInv.skip {INF : Int} {g : MatrixGraph} {start u : Nat}
    {stack : List Nat} {visited : List Bool} {trace : List Nat}
    (h : g.DfsInv INF start (u :: stack) visited trace)
    (hu : visited.getD u false = true) : g.DfsInv INF start stack visited trace where
  len := h.len
  vis := h.vis
  nodup := h.nodup
  stack_ok := fun v hv => h.stack_ok v (List.mem_cons_of_mem _ hv)
  trace_ok := h.trace_ok
  closed := fun a ha v hav => by
    rcases h.closed a ha v hav with h1 | h1
    · exact Or.inl h1
    · rcases List.mem_cons.mp h1 with h2 | h2
      · exact Or.inl (h2 ▸ (h.vis u).mp hu)
      · exact Or.inr h2
  start_in := by
    rcases h.start_in with h1 | h1
    · exact Or.inl h1
    · rcases List.mem_cons.mp h1 with h2 | h2
      · exact Or.inl (h2 ▸ (h.vis u).mp hu)
      · exact Or.inr h2

theorem MatrixGraph.DfsInv.visit {INF : Int} {g : MatrixGraph} {start u : Nat}
    {stack : List Nat} {visited : List Bool} {trace : List Nat}
    (h : g.DfsInv INF start (u :: stack) visited trace)
    (hu : ¬ visited.getD u false = true) :
    g.DfsInv INF start
      (((g.neighbours INF u).filter (fun v => !(visited.set u true).getD v false)).foldl
        (fun st v => v :: st) stack)
      (visited.set u true) (trace ++ [u]) := by
  have hur := h.stack_ok u (List.mem_cons_self _ _)
  have hulen : u < visited.length := by rw [h.len]; exact hur.2
  have hvis' : ∀ v, (visited.set u true).getD v false = true ↔ v ∈ trace ++ [u] := by
    intro v
    rw [getD_set_true visited u v hulen, h.vis v, List.mem_append, List.mem_singleton]
    exact or_comm
  have hmem : ∀ v, v ∈ ((g.neighbours INF u).filter
      (fun v => !(visited.set u true).getD v false)).foldl (fun st v => v :: st) stack ↔
      (g.Adj INF u v ∧ v ∉ trace ++ [u]) ∨ v ∈ stack := by
    intro v
    rw [foldl_push_eq, List.mem_append, List.mem_reverse, List.mem_filter,
      MatrixGraph.mem_neighbours, ← hvis' v]
    unfold MatrixGraph.Adj
    have := hur.2
    constructor
    · rintro (⟨⟨h1, h2⟩, h3⟩ | h4)
      · exact Or.inl ⟨⟨hur.2, h1, h2⟩, by simpa using h3⟩
      · exact Or.inr h4
    · rintro (⟨⟨_, h1, h2⟩, h3⟩ | h4)
      · exact Or.inl ⟨⟨h1, h2⟩, by simpa using h3⟩
      · exact Or.inr h4
  refine ⟨by rw [List.length_set]; exact h.len, hvis', ?_, ?_, ?_, ?_, ?_⟩
  · refine List.Nodup.append h.nodup (List.nodup_singleton u) ?_
    intro a ha hb
    rw [List.mem_singleton] at hb
    subst hb
    exact hu ((h.vis a).mpr ha)
  · intro v hv
    rcases (hmem v).mp hv with ⟨hadj, _⟩ | hs
    · exact ⟨Relation.ReflTransGen.tail hur.1 hadj, hadj.2.1⟩
    · exact h.stack_ok v (List.mem_cons_of_mem _ hs)
  · intro v hv
    rcases List.mem_append.mp hv with h1 | h1
    · exact h.trace_ok v h1
    · rw [List.mem_singleton] at h1; subst h1; exact hur.1
  · intro a ha v hav
    by_cases hvt : v ∈ trace ++ [u]
    · exact Or.inl hvt
    · right
      rw [hmem]
      rcases List.mem_append.mp ha with h1 | h1
      · rcases h.closed a h1 v hav with h2 | h2
        · exact absurd (List.mem_append_left _ h2) hvt
        · rcases List.mem_cons.mp h2 with h3 | h3
          · exact absurd (List.mem_append_right _ (by simp [h3])) hvt
          · exact Or.inr h3
      · rw [List.mem_singleton] at h1; subst h1
        exact Or.inl ⟨hav, hvt⟩
  · rcases h.start_in with h1 | h1
    · exact Or.inl (List.mem_append_left _ h1)
    · rcases List.mem_cons.mp h1 with h2 | h2
      · exact Or.inl (List.mem_append_right _ (by simp [h2]))
      · exact Or.inr ((hmem start).mpr (Or.inr h2))

theorem MatrixGraph.DfsInv.dfs_finished {INF : Int} {g : MatrixGraph} {start : Nat}
    {visited : List Bool} {trace : List Nat}
    (h : g.DfsInv INF start [] visited trace) :
    trace.Nodup ∧ ∀ v, v ∈ trace ↔ g.Reachable INF start v := by
  refine ⟨h.nodup, fun v => ⟨h.trace_ok v, ?_⟩⟩
  intro hr
  have hs : start ∈ trace := by
    rcases h.start_in with h1 | h1
    · exact h1
    · simp at h1
  induction hr with
  | refl => exact hs
  | tail _ hadj ih =>
    rcases h.closed _ ih _ hadj with h1 | h1
    · exact h1
    · simp at h1

theorem MatrixGraph.dfs_loop_spec (INF : Int) (g : MatrixGraph) (start : Nat) :
    ∀ (fuel : Nat) (stack : List Nat) (visited : List Bool) (trace : List Nat),
    g.DfsInv INF start stack visited trace →
    (g.vertex_count - trace.length) * (g.vertex_count + 1) + stack.length ≤ fuel →
    ∃ tr, g.dfs_loop INF fuel stack visited trace = .ok tr ∧ tr.Nodup ∧
      ∀ v, v ∈ tr ↔ g.Reachable INF start v := by
  intro fuel
  induction fuel with
  | zero =>
    intro stack visited trace hinv hfuel
    cases stack with
    | nil => exact ⟨trace, by rw [MatrixGraph.dfs_loop], hinv.dfs_finished⟩
    | cons u s => simp at hfuel
  | succ fuel ih =>
    intro stack visited trace hinv hfuel
    cases stack with
    | nil => exact ⟨trace, by rw [MatrixGraph.dfs_loop], hinv.dfs_finished⟩
    | cons u s =>
      rw [MatrixGraph.dfs_loop]
      simp only [List.length_cons] at hfuel
      by_cases hu : visited.getD u false = true
      · rw [if_pos hu]
        exact ih s visited trace (hinv.skip hu) (by omega)
      · rw [if_neg hu]
        have hinv' := hinv.visit hu
        refine ih _ _ _ hinv' ?_
        have hlen := hinv'.trace_length_le
        rw [List.length_append, List.length_singleton] at hlen ⊢
        have hpush : (((g.neighbours INF u).filter
            (fun v => !(visited.set u true).getD v false)).foldl
            (fun st v => v :: st) s).length ≤ g.vertex_count + s.length := by
          rw [foldl_push_eq, List.length_append, List.length_reverse]
          have h1 := List.length_filter_le (fun v => !(visited.set u true).getD v false)
            (g.neighbours INF u)
          have h2 := g.neighbours_length_le INF u
          omega
        obtain ⟨a, ha⟩ : ∃ a, g.vertex_count - trace.length = a + 1 :=
          ⟨g.vertex_count - trace.length - 1, by omega⟩
        have ha' : g.vertex_count - (trace.length + 1) = a := by omega
        rw [ha, Nat.succ_mul] at hfuel
        rw [ha']
        omega

/-- The depth-first traversal from an in-range start vertex returns, and it calls
the visitor exactly once on every reachable vertex and on no other vertex. -/
theorem MatrixGraph_DFS_spec (INF : Int) (g : MatrixGraph) (startV : Int)
    (hs : g.inRange startV) :
    ∃ tr, MatrixGraph_DFS INF g startV = .ok tr ∧ tr.Nodup ∧
      ∀ v, v ∈ tr ↔ g.Reachable INF startV.toNat v := by
  unfold MatrixGraph_DFS
  rw [if_pos hs]
  refine g.dfs_loop_spec INF startV.toNat _ _ _ _ ?_ (by simp)
  refine ⟨by simp, ?_, List.nodup_nil, ?_, by simp, by simp, Or.inr (by simp)⟩
  · intro v
    simp only [List.getD_eq_getElem?_getD, List.getElem?_replicate, List.not_mem_nil, iff_false]
    split_ifs <;> simp
  · intro v hv
    rw [List.mem_singleton] at hv
    subst hv
    exact ⟨Relation.ReflTransGen.refl, MatrixGraph.inRange_toNat hs⟩

theorem MatrixGraph.bfs_enqueue_spec (INF : Int) (g : MatrixGraph) (start : Nat)
    (trace : List Nat) : ∀ (l queue : List Nat) (visited : List Bool),
    g.BfsMarks INF start queue visited trace →
    (∀ v ∈ l, g.Reachable INF start v ∧ v < g.vertex_count) →
    g.BfsMarks INF start (MatrixGraph.bfs_enqueue queue visited l).1
      (MatrixGraph.bfs_enqueue queue visited l).2 trace ∧
    (∀ v ∈ queue, v ∈ (MatrixGraph.bfs_enqueue queue visited l).1) ∧
    (∀ v ∈ l, v ∈ trace ∨ v ∈ (MatrixGraph.bfs_enqueue queue visited l).1) := by
  intro l
  induction l with
  | nil =>
    intro queue visited hm _
    exact ⟨hm, fun v hv => hv, fun v hv => by simp at hv⟩
  | cons a l ih =>
    intro queue visited hm hl
    have hl' : ∀ v ∈ l, g.Reachable INF start v ∧ v < g.vertex_count :=
      fun v hv => hl v (List.mem_cons_of_mem _ hv)
    rw [MatrixGraph.bfs_enqueue]
    by_cases ha : visited.getD a false = true
    · rw [if_pos ha]
      obtain ⟨h1, h2, h3⟩ := ih queue visited hm hl'
      refine ⟨h1, h2, ?_⟩
      intro v hv
      rcases List.mem_cons.mp hv with rfl | hv
      · rcases (hm.vis v).mp ha with h4 | h4
        · exact Or.inl h4
        · exact Or.inr (h2 v h4)
      · exact h3 v hv
    · rw [if_neg ha]
      have hal := hl a (List.mem_cons_self _ _)
      have hnot : ¬ (a ∈ trace ∨ a ∈ queue) := fun h => ha ((hm.vis a).mpr h)
      have hm' : g.BfsMarks INF start (queue ++ [a]) (visited.set a true) trace := by
        refine ⟨by rw [List.length_set]; exact hm.len, ?_, ?_, ?_⟩
        · intro v
          rw [getD_set_true visited a v (by rw [hm.len]; exact hal.2), hm.vis v,
            List.mem_append, List.mem_singleton]
          tauto
        · rw [← List.append_assoc]
          refine List.Nodup.append hm.nodup (List.nodup_singleton a) ?_
          intro b hb hb'
          rw [List.mem_singleton] at hb'
          subst hb'
          exact hnot (List.mem_append.mp hb)
        · intro v hv
          rcases hv with h1 | h1
          · exact hm.reach v (Or.inl h1)
          · rcases List.mem_append.mp h1 with h2 | h2
            · exact hm.reach v (Or.inr h2)
            · rw [List.mem_singleton] at h2; subst h2; exact hal.1
      obtain ⟨h1, h2, h3⟩ := ih (queue ++ [a]) (visited.set a true) hm' hl'
      refine ⟨h1, fun v hv => h2 v (List.mem_append_left _ hv), ?_⟩
      intro v hv
      rcases List.mem_cons.mp hv with rfl | hv
      · exact Or.inr (h2 v (List.mem_append_right _ (List.mem_singleton_self v)))
      · exact h3 v hv

theorem MatrixGraph.BfsMarks.lt {INF : Int} {g : MatrixGraph} {start : Nat}
    {queue : List Nat} {visited : List Bool} {trace : List Nat}
    (h : g.BfsMarks INF start queue visited trace) (v : Nat) (hv : v ∈ trace ∨ v ∈ queue) :
    v < g.vertex_count :=
  h.len ▸ getD_true_lt visited v ((h.vis v).mpr hv)

theorem MatrixGraph.BfsInv.bfs_step {INF : Int} {g : MatrixGraph} {start u : Nat}
    {queue : List Nat} {visited : List Bool} {trace : List Nat}
    (h : g.BfsInv INF start (u :: queue) visited trace) :
    g.BfsInv INF start (MatrixGraph.bfs_enqueue queue visited (g.neighbours INF u)).1
      (MatrixGraph.bfs_enqueue queue visited (g.neighbours INF u)).2 (trace ++ [u]) := by
  have hu : g.Reachable INF start u := h.marks.reach u (Or.inr (List.mem_cons_self _ _))
  have hult : u < g.vertex_count := h.marks.lt u (Or.inr (List.mem_cons_self _ _))
  have hm0 : g.BfsMarks INF start queue visited (trace ++ [u]) := by
    refine ⟨h.marks.len, ?_, ?_, ?_⟩
    · intro v
      rw [h.marks.vis v, List.mem_append, List.mem_singleton, List.mem_cons]
      tauto
    · have := h.marks.nodup
      rw [List.append_assoc, List.singleton_append]
      exact this
    · intro v hv
      apply h.marks.reach v
      rw [List.mem_append, List.mem_singleton] at hv
      rw [List.mem_cons]
      tauto
  obtain ⟨h1, h2, h3⟩ := g.bfs_enqueue_spec INF start (trace ++ [u]) (g.neighbours INF u)
    queue visited hm0
    (fun v hv => by
      rw [MatrixGraph.mem_neighbours] at hv
      exact ⟨Relation.ReflTransGen.tail hu ⟨hult, hv.1, hv.2⟩, hv.1⟩)
  refine ⟨h1, ?_, ?_⟩
  · intro a ha v hav
    rcases List.mem_append.mp ha with ha | ha
    · rcases h.closed a ha v hav with h4 | h4
      · exact Or.inl (List.mem_append_left _ h4)
      · rcases List.mem_cons.mp h4 with h5 | h5
        · exact Or.inl (List.mem_append_right _ (by simp [h5]))
        · exact Or.inr (h2 v h5)
    · rw [List.mem_singleton] at ha; subst ha
      exact h3 v ((g.mem_neighbours INF a v).mpr ⟨hav.2.1, hav.2.2⟩)
  · rcases h.start_in with h4 | h4
    · exact Or.inl (List.mem_append_left _ h4)
    · rcases List.mem_cons.mp h4 with h5 | h5
      · exact Or.inl (List.mem_append_right _ (by simp [h5]))
      · exact Or.inr (h2 _ h5)

theorem MatrixGraph.BfsInv.bfs_finished {INF : Int} {g : MatrixGraph} {start : Nat}
    {visited : List Bool} {trace : List Nat}
    (h : g.BfsInv INF start [] visited trace) :
    trace.Nodup ∧ ∀ v, v ∈ trace ↔ g.Reachable INF start v := by
  refine ⟨by simpa using h.marks.nodup, fun v => ⟨fun hv => h.marks.reach v (Or.inl hv), ?_⟩⟩
  intro hr
  have hs : start ∈ trace := by
    rcases h.start_in with h1 | h1
    · exact h1
    · simp at h1
  induction hr with
  | refl => exact hs
  | tail _ hadj ih =>
    rcases h.closed _ ih _ hadj with h1 | h1
    · exact h1
    · simp at h1

theorem MatrixGraph.bfs_loop_spec (INF : Int) (g : MatrixGraph) (start : Nat) :
    ∀ (fuel : Nat) (queue : List Nat) (visited : List Bool) (trace : List Nat),
    g.BfsInv INF start queue visited trace →
    g.vertex_count - trace.length ≤ fuel →
    ∃ tr, g.bfs_loop INF fuel queue visited trace = .ok tr ∧ tr.Nodup ∧
      ∀ v, v ∈ tr ↔ g.Reachable INF start v := by
  intro fuel
  induction fuel with
  | zero =>
    intro queue visited trace hinv hfuel
    cases queue with
    | nil => exact ⟨trace, by rw [MatrixGraph.bfs_loop], hinv.bfs_finished⟩
    | cons u q =>
      have := nodup_length_le_of_lt _ _ hinv.marks.nodup
        (fun v hv => hinv.marks.lt v (List.mem_append.mp hv))
      simp only [List.length_append, List.length_cons] at this
      omega
  | succ fuel ih =>
    intro queue visited trace hinv hfuel
    cases queue with
    | nil => exact ⟨trace, by rw [MatrixGraph.bfs_loop], hinv.bfs_finished⟩
    | cons u q =>
      rw [MatrixGraph.bfs_loop]
      refine ih _ _ _ hinv.bfs_step ?_
      rw [List.length_append, List.length_singleton]
      omega

/-- The breadth-first traversal from an in-range start vertex returns, and it calls
the visitor exactly once on every reachable vertex and on no other vertex. -/
theorem MatrixGraph_BFS_spec (INF : Int) (g : MatrixGraph) (startV : Int)
    (hs : g.inRange startV) :
    ∃ tr, MatrixGraph_BFS INF g startV = .ok tr ∧ tr.Nodup ∧
      ∀ v, v ∈ tr ↔ g.Reachable INF startV.toNat v := by
  unfold MatrixGraph_BFS
  rw [if_pos hs]
  have hlt := MatrixGraph.inRange_toNat hs
  refine g.bfs_loop_spec INF startV.toNat _ _ _ _ ?_ (by simp)
  refine ⟨⟨by simp, ?_, by simp, ?_⟩, by simp, Or.inr (by simp)⟩
  · intro v
    rw [getD_set_true _ _ _ (by simpa using hlt)]
    simp only [List.getD_eq_getElem?_getD, List.getElem?_replicate, List.not_mem_nil,
      false_or, List.mem_singleton]
    split_ifs <;> simp
  · intro v hv
    simp only [List.not_mem_nil, false_or, List.mem_singleton] at hv
    subst hv
    exact Relation.ReflTransGen.refl

theorem visits_of_nodup_mem_iff (tr : List Nat) (P : Nat → Prop) (hnd : tr.Nodup)
    (hmem : ∀ v, v ∈ tr ↔ P v) :
    (∀ v, P v → tr.count v = 1) ∧ (∀ v, ¬ P v → tr.count v = 0) ∧
      tr.length = Set.ncard {v | P v} := by
  refine ⟨fun v hv => List.count_eq_one_of_mem hnd ((hmem v).mpr hv),
    fun v hv => List.count_eq_zero_of_not_mem (fun h => hv ((hmem v).mp h)), ?_⟩
  have hset : {v | P v} = ↑tr.toFinset := by
    ext v
    simp [hmem v]
  rw [hset, Set.ncard_coe_Finset, List.toFinset_card_of_nodup hnd]

/-- C7. For every graph and every start vertex in range, `MatrixGraph_DFS` and
`MatrixGraph_BFS` both return, and each of them calls the visitor exactly once on every
vertex reachable from the start along directed edges and never on a vertex that is not
reachable; so the number of visitor calls is the number of reachable vertices, the
start included. -/
theorem MatrixGraph_traversal_visits_reachable_once (INF : Int) (g : MatrixGraph)
    (startV : Int) (hs : g.inRange startV) :
    ∃ dfs bfs, MatrixGraph_DFS INF g startV = .ok dfs ∧
      MatrixGraph_BFS INF g startV = .ok bfs ∧
      (∀ v, g.Reachable INF startV.toNat v → dfs.count v = 1 ∧ bfs.count v = 1) ∧
      (∀ v, ¬ g.Reachable INF startV.toNat v → dfs.count v = 0 ∧ bfs.count v = 0) ∧
      dfs.length = Set.ncard {v | g.Reachable INF startV.toNat v} ∧
      bfs.length = Set.ncard {v | g.Reachable INF startV.toNat v} := by
  obtain ⟨d, hd, hdn, hdm⟩ := MatrixGraph_DFS_spec INF g startV hs
  obtain ⟨b, hb, hbn, hbm⟩ := MatrixGraph_BFS_spec INF g startV hs
  obtain ⟨d1, d0, dl⟩ := visits_of_nodup_mem_iff d _ hdn hdm
  obtain ⟨b1, b0, bl⟩ := visits_of_nodup_mem_iff b _ hbn hbm
  exact ⟨d, b, hd, hb, fun v hv => ⟨d1 v hv, b1 v hv⟩, fun v hv => ⟨d0 v hv, b0 v hv⟩, dl, bl⟩

/-- Witness for C7: `traversal_graph` (edges 0 → 1, 0 → 2, 1 → 3, 2 → 3, 3 → 0 and the
isolated vertex 4) traversed from vertex 0; the visitor is called on 0, 2, 3, 1 by the
depth-first and on 0, 1, 2, 3 by the breadth-first traversal, never on 4. -/
theorem MatrixGraph_traversal_visits_reachable_once_witness :
    (∃ dfs bfs, MatrixGraph_DFS 9 traversal_graph 0 = .ok dfs ∧
      MatrixGraph_BFS 9 traversal_graph 0 = .ok bfs ∧
      (∀ v, traversal_graph.Reachable 9 (Int.toNat 0) v → dfs.count v = 1 ∧ bfs.count v = 1) ∧
      (∀ v, ¬ traversal_graph.Reachable 9 (Int.toNat 0) v →
        dfs.count v = 0 ∧ bfs.count v = 0) ∧
      dfs.length = Set.ncard {v | traversal_graph.Reachable 9 (Int.toNat 0) v} ∧
      bfs.length = Set.ncard {v | traversal_graph.Reachable 9 (Int.toNat 0) v}) ∧
    MatrixGraph_DFS 9 traversal_graph 0 = .ok [0, 2, 3, 1] ∧
    MatrixGraph_BFS 9 traversal_graph 0 = .ok [0, 1, 2, 3] :=
  ⟨MatrixGraph_traversal_visits_reachable_once 9 traversal_graph 0 (by decide),
    by decide, by decide⟩

/-! ### MatrixGraph: Dijkstra -/

theorem MatrixGraph.dijkstra_select_spec (INF : Int) (dist : List Int) (finalized : List Bool) :
    ∀ (l : List Nat) (best : Option Nat),
    (∀ b, best = some b → finalized.getD b false = false) →
    (MatrixGraph.dijkstra_select INF dist finalized l best = none →
      best = none ∧ ∀ v ∈ l, finalized.getD v false = true) ∧
    (∀ u, MatrixGraph.dijkstra_select INF dist finalized l best = some u →
      finalized.getD u false = false ∧ (u ∈ l ∨ best = some u) ∧
      ∀ v, (v ∈ l ∨ best = some v) → finalized.getD v false = false →
        dist.getD u INF ≤ dist.getD v INF) := by
  intro l
  induction l with
  | nil =>
    intro best hb
    simp only [MatrixGraph.dijkstra_select]
    refine ⟨fun h => ⟨h, by simp⟩, fun u hu => ?_⟩
    refine ⟨hb u hu, Or.inr hu, ?_⟩
    intro v hv _
    rcases hv with hv | hv
    · simp at hv
    · rw [hu] at hv
      rw [Option.some.inj hv]
  | cons a l ih =>
    intro best hb
    by_cases hfa : finalized.getD a false = true
    · simp only [MatrixGraph.dijkstra_select, hfa, if_true]
      obtain ⟨h1, h2⟩ := ih best hb
      refine ⟨fun h => ⟨(h1 h).1, ?_⟩, fun u hu => ?_⟩
      · intro v hv
        rcases List.mem_cons.mp hv with rfl | hv
        · exact hfa
        · exact (h1 h).2 v hv
      · obtain ⟨h3, h4, h5⟩ := h2 u hu
        refine ⟨h3, ?_, ?_⟩
        · rcases h4 with h4 | h4
          · exact Or.inl (List.mem_cons_of_mem _ h4)
          · exact Or.inr h4
        · intro v hv hfv
          rcases hv with hv | hv
          · rcases List.mem_cons.mp hv with rfl | hv
            · rw [hfa] at hfv; exact absurd hfv (by simp)
            · exact h5 v (Or.inl hv) hfv
          · exact h5 v (Or.inr hv) hfv
    · have hfa' : finalized.getD a false = false := by simpa using hfa
      cases best with
      | none =>
        simp only [MatrixGraph.dijkstra_select, hfa', Bool.false_eq_true, if_false]
        obtain ⟨h1, h2⟩ := ih (some a) (fun b hb' => by rw [← Option.some.inj hb']; exact hfa')
        refine ⟨fun h => absurd (h1 h).1 (by simp), fun u hu => ?_⟩
        obtain ⟨h3, h4, h5⟩ := h2 u hu
        refine ⟨h3, ?_, ?_⟩
        · rcases h4 with h4 | h4
          · exact Or.inl (List.mem_cons_of_mem _ h4)
          · exact Or.inl (by rw [Option.some.inj h4]; exact List.mem_cons_self _ _)
        · intro v hv hfv
          rcases hv with hv | hv
          · rcases List.mem_cons.mp hv with rfl | hv
            · exact h5 v (Or.inr rfl) hfv
            · exact h5 v (Or.inl hv) hfv
          · simp at hv
      | some b =>
        have hfb := hb b rfl
        by_cases hlt : dist.getD a INF < dist.getD b INF
        · simp only [MatrixGraph.dijkstra_select, hfa', Bool.false_eq_true, if_false, hlt,
            if_true]
          obtain ⟨h1, h2⟩ := ih (some a)
            (fun b' hb' => by rw [← Option.some.inj hb']; exact hfa')
          refine ⟨fun h => absurd (h1 h).1 (by simp), fun u hu => ?_⟩
          obtain ⟨h3, h4, h5⟩ := h2 u hu
          refine ⟨h3, ?_, ?_⟩
          · rcases h4 with h4 | h4
            · exact Or.inl (List.mem_cons_of_mem _ h4)
            · exact Or.inl (by rw [Option.some.inj h4]; exact List.mem_cons_self _ _)
          · intro v hv hfv
            rcases hv with hv | hv
            · rcases List.mem_cons.mp hv with rfl | hv
              · exact h5 v (Or.inr rfl) hfv
              · exact h5 v (Or.inl hv) hfv
            · rw [Option.some.inj hv] at hlt
              exact le_trans (h5 a (Or.inr rfl) hfa') (le_of_lt hlt)
        · simp only [MatrixGraph.dijkstra_select, hfa', Bool.false_eq_true, if_false, hlt]
          obtain ⟨h1, h2⟩ := ih (some b) hb
          refine ⟨fun h => absurd (h1 h).1 (by simp), fun u hu => ?_⟩
          obtain ⟨h3, h4, h5⟩ := h2 u hu
          refine ⟨h3, ?_, ?_⟩
          · rcases h4 with h4 | h4
            · exact Or.inl (List.mem_cons_of_mem _ h4)
            · exact Or.inr h4
          · intro v hv hfv
            rcases hv with hv | hv
            · rcases List.mem_cons.mp hv with rfl | hv
              · exact le_trans (h5 b (Or.inr rfl) hfb) (not_lt.mp hlt)
              · exact h5 v (Or.inl hv) hfv
            · exact h5 v (Or.inr hv) hfv

theorem getD_set_int (l : List Int) (d : Int) (i j : Nat) (x : Int) (hi : i < l.length) :
    (l.set i x).getD j d = if j = i then x else l.getD j d := by
  simp only [List.getD_eq_getElem?_getD, List.getElem?_set]
  by_cases h : i = j
  · subst h; simp [hi]
  · have h' : ¬ j = i := fun e => h e.symm
    simp [h, h']

theorem MatrixGraph.DijkstraInv.mono_rel {INF : Int} {g : MatrixGraph} {start : Nat}
    {ord : List Nat} {rel rel' : Nat → Nat → Prop} {dist path : List Int}
    (h : g.DijkstraInv INF start ord rel dist path)
    (hord : ∀ x y, rel' x y → x ∈ ord)
    (hrel : ∀ x y, rel' x y → g.Adj INF x y → rel x y) :
    g.DijkstraInv INF start ord rel' dist path :=
  { h with
    rel_ord := hord
    relaxed := fun x y hxy hadj => h.relaxed x y (hrel x y hxy hadj) hadj }

/-- One relaxation that improves `dist[v]` keeps the invariant and adds the edge
from `u` to `v` to the relaxed edges. -/
theorem MatrixGraph.DijkstraInv.relax_update {INF : Int} {g : MatrixGraph} {start : Nat}
    {ord : List Nat} {rel : Nat → Nat → Prop} {dist path : List Int} {u v : Nat}
    (h : g.DijkstraInv INF start ord rel dist path) (hnn : g.NonNeg INF)
    (hu : u ∈ ord) (hmax : ∀ x ∈ ord, dist.getD x INF ≤ dist.getD u INF)
    (hadj : g.Adj INF u v)
    (hlt : dist.getD u INF + g.cell INF u v < dist.getD v INF) :
    g.DijkstraInv INF start ord (fun x y => rel x y ∨ (x = u ∧ y = v))
      (dist.set v (dist.getD u INF + g.cell INF u v)) (path.set v (u : Int)) ∧
    ∀ x ∈ ord, (dist.set v (dist.getD u INF + g.cell INF u v)).getD x INF =
      dist.getD x INF := by
  have hc : 0 ≤ g.cell INF u v := hnn u v hadj.1 hadj.2.1 hadj.2.2
  have hvn : v < g.vertex_count := hadj.2.1
  have hvord : v ∉ ord := by
    intro hv
    have := hmax v hv
    omega
  have hvs : v ≠ start := by
    intro e
    have h0 := h.nonneg u
    have h1 := h.d_start
    rw [← e] at h1
    omega
  have huv : u ≠ v := fun e => hvord (e ▸ hu)
  have hd : ∀ y, (dist.set v (dist.getD u INF + g.cell INF u v)).getD y INF =
      if y = v then dist.getD u INF + g.cell INF u v else dist.getD y INF :=
    fun y => getD_set_int dist INF v y _ (by rw [h.len_d]; exact hvn)
  have hp : ∀ y, (path.set v (u : Int)).getD y NO_VERTEX =
      if y = v then (u : Int) else path.getD y NO_VERTEX :=
    fun y => getD_set_int path NO_VERTEX v y _ (by rw [h.len_p]; exact hvn)
  have hdo : ∀ x ∈ ord, (dist.set v (dist.getD u INF + g.cell INF u v)).getD x INF =
      dist.getD x INF := by
    intro x hx
    rw [hd x, if_neg (fun e : x = v => hvord (e ▸ hx))]
  have hdle : ∀ y, (dist.set v (dist.getD u INF + g.cell INF u v)).getD y INF ≤
      dist.getD y INF := by
    intro y
    rw [hd y]
    split_ifs with e
    · rw [e]; exact le_of_lt hlt
    · exact le_refl _
  refine ⟨⟨by rw [List.length_set]; exact h.len_d, by rw [List.length_set]; exact h.len_p,
    h.ord_nodup, h.ord_lt, h.start_lt, ?_, ?_, ?_, ?_, ?_, ?_, ?_, ?_, ?_, ?_, ?_⟩, hdo⟩
  · rw [hd, if_neg (Ne.symm hvs)]; exact h.d_start
  · rw [hp, if_neg (Ne.symm hvs)]; exact h.p_start
  · intro y; exact le_trans (hdle y) (h.le_inf y)
  · intro y
    rw [hd y]
    split_ifs
    · have := h.nonneg u; omega
    · exact h.nonneg y
  · intro x hx; rw [hdo x hx]; exact h.fin_finite x hx
  · intro x hx y hy
    rw [hdo x hx, hd y]
    split_ifs
    · have := hmax x hx; omega
    · exact h.fin_le x hx y hy
  · intro x y hxy
    rcases hxy with hxy | ⟨rfl, rfl⟩
    · exact h.rel_ord x y hxy
    · exact hu
  · intro x y hxy hadj'
    rcases hxy with hxy | ⟨rfl, rfl⟩
    · rw [hdo x (h.rel_ord x y hxy)]
      exact le_trans (hdle y) (h.relaxed x y hxy hadj')
    · rw [hd x, if_neg huv, hd y, if_pos rfl]
  · intro y hys hy
    by_cases e : y = v
    · subst e
      refine ⟨u, by rw [hp, if_pos rfl], hu, hadj, ?_, fun hv => absurd hv hvord⟩
      rw [hd y, if_pos rfl, hd u, if_neg huv]
    · rw [hd y, if_neg e] at hy
      obtain ⟨a, ha1, ha2, ha3, ha4, ha5⟩ := h.pred y hys hy
      refine ⟨a, by rw [hp, if_neg e]; exact ha1, ha2, ha3, ?_, ha5⟩
      rw [hd y, if_neg e, hdo a ha2]; exact ha4
  · intro y hy
    have e : y ≠ v := by
      intro e
      rw [hd y, if_pos e] at hy
      have := h.le_inf v
      omega
    rw [hd y, if_neg e] at hy
    rw [hp, if_neg e]
    exact h.unreached y hy
  · exact Or.inl (by
      rcases h.start_first with h1 | h1
      · exact h1
      · rw [h1.1] at hu; simp at hu)

theorem MatrixGraph.dijkstra_relax_spec {INF : Int} {g : MatrixGraph} {start : Nat}
    {ord : List Nat} {u : Nat} (hnn : g.NonNeg INF) (hu : u ∈ ord) :
    ∀ (l : List Nat) (rel : Nat → Nat → Prop) (dist path : List Int),
    g.DijkstraInv INF start ord rel dist path →
    (∀ x ∈ ord, dist.getD x INF ≤ dist.getD u INF) →
    (∀ v ∈ l, g.Adj INF u v) →
    g.DijkstraInv INF start ord (fun x y => rel x y ∨ (x = u ∧ y ∈ l))
      (g.dijkstra_relax INF u l (dist, path)).1 (g.dijkstra_relax INF u l (dist, path)).2 ∧
    ∀ x ∈ ord, (g.dijkstra_relax INF u l (dist, path)).1.getD x INF = dist.getD x INF := by
  intro l
  induction l with
  | nil =>
    intro rel dist path h _ _
    rw [MatrixGraph.dijkstra_relax]
    exact ⟨h.mono_rel
      (fun x y hxy => by
        rcases hxy with hxy | ⟨_, hy⟩
        · exact h.rel_ord x y hxy
        · simp at hy)
      (fun x y hxy _ => by
        rcases hxy with hxy | ⟨_, hy⟩
        · exact hxy
        · simp at hy), fun x _ => rfl⟩
  | cons v l ih =>
    intro rel dist path h hmax hl
    have hadj := hl v (List.mem_cons_self _ _)
    have hl' : ∀ v ∈ l, g.Adj INF u v := fun y hy => hl y (List.mem_cons_of_mem _ hy)
    rw [MatrixGraph.dijkstra_relax]
    by_cases hlt : dist.getD u INF + g.cell INF u v < dist.getD v INF
    · rw [if_pos hlt]
      obtain ⟨h1, hfro⟩ := h.relax_update hnn hu hmax hadj hlt
      have hmax1 : ∀ x ∈ ord,
          (dist.set v (dist.getD u INF + g.cell INF u v)).getD x INF ≤
          (dist.set v (dist.getD u INF + g.cell INF u v)).getD u INF := by
        intro x hx
        rw [hfro x hx, hfro u hu]
        exact hmax x hx
      obtain ⟨h2, hfro2⟩ := ih _ _ _ h1 hmax1 hl'
      refine ⟨h2.mono_rel ?_ ?_, fun x hx => by rw [hfro2 x hx, hfro x hx]⟩
      · intro x y hxy
        rcases hxy with hxy | ⟨hx, _⟩
        · exact h.rel_ord x y hxy
        · exact hx ▸ hu
      intro x y hxy _
      rcases hxy with hxy | ⟨hx, hy⟩
      · exact Or.inl (Or.inl hxy)
      · rcases List.mem_cons.mp hy with hy | hy
        · exact Or.inl (Or.inr ⟨hx, hy⟩)
        · exact Or.inr ⟨hx, hy⟩
    · rw [if_neg hlt]
      have h1 : g.DijkstraInv INF start ord (fun x y => rel x y ∨ (x = u ∧ y = v)) dist path :=
        { h with
          rel_ord := fun x y hxy => by
            rcases hxy with hxy | ⟨rfl, _⟩
            · exact h.rel_ord x y hxy
            · exact hu
          relaxed := fun x y hxy hadj' => by
            rcases hxy with hxy | ⟨rfl, rfl⟩
            · exact h.relaxed x y hxy hadj'
            · exact not_lt.mp hlt }
      obtain ⟨h2, hfro2⟩ := ih _ _ _ h1 hmax hl'
      refine ⟨h2.mono_rel ?_ ?_, hfro2⟩
      · intro x y hxy
        rcases hxy with hxy | ⟨hx, _⟩
        · exact h.rel_ord x y hxy
        · exact hx ▸ hu
      intro x y hxy _
      rcases hxy with hxy | ⟨hx, hy⟩
      · exact Or.inl (Or.inl hxy)
      · rcases List.mem_cons.mp hy with hy | hy
        · exact Or.inl (Or.inr ⟨hx, hy⟩)
        · exact Or.inr ⟨hx, hy⟩

/-- Finalizing the selected vertex `u` (minimal among the vertices not yet finalized,
with a finite distance) keeps the invariant; its own edges are not relaxed yet. -/
theorem MatrixGraph.DijkstraInv.finalize {INF : Int} {g : MatrixGraph} {start : Nat}
    {ord : List Nat} {dist path : List Int} {u : Nat}
    (h : g.DijkstraInv INF start ord (fun x _ => x ∈ ord) dist path)
    (hun : u < g.vertex_count) (huo : u ∉ ord) (hfin : dist.getD u INF < INF)
    (hmin : ∀ v, v < g.vertex_count → v ∉ ord → dist.getD u INF ≤ dist.getD v INF) :
    g.DijkstraInv INF start (ord ++ [u]) (fun x _ => x ∈ ord) dist path ∧
    ∀ x ∈ ord ++ [u], dist.getD x INF ≤ dist.getD u INF := by
  have hmax : ∀ x ∈ ord ++ [u], dist.getD x INF ≤ dist.getD u INF := by
    intro x hx
    rcases List.mem_append.mp hx with hx | hx
    · exact h.fin_le x hx u huo
    · rw [List.mem_singleton] at hx; rw [hx]
  refine ⟨⟨h.len_d, h.len_p, ?_, ?_, h.start_lt, h.d_start, h.p_start, h.le_inf, h.nonneg,
    ?_, ?_, ?_, ?_, ?_, h.unreached, ?_⟩, hmax⟩
  · refine List.Nodup.append h.ord_nodup (List.nodup_singleton u) ?_
    intro a ha hb
    rw [List.mem_singleton] at hb
    exact huo (hb ▸ ha)
  · intro x hx
    rcases List.mem_append.mp hx with hx | hx
    · exact h.ord_lt x hx
    · rw [List.mem_singleton] at hx; rw [hx]; exact hun
  · intro x hx
    rcases List.mem_append.mp hx with hx | hx
    · exact h.fin_finite x hx
    · rw [List.mem_singleton] at hx; rw [hx]; exact hfin
  · intro x hx v hv
    have hv1 : v ∉ ord := fun hm => hv (List.mem_append_left _ hm)
    rcases List.mem_append.mp hx with hx | hx
    · exact h.fin_le x hx v hv1
    · rw [List.mem_singleton] at hx
      rw [hx]
      by_cases hvn : v < g.vertex_count
      · exact hmin v hvn hv1
      · have hdv : dist.getD v INF = INF :=
          List.getD_eq_default _ _ (by rw [h.len_d]; omega)
        rw [hdv]
        exact h.le_inf u
  · intro x y hx; exact List.mem_append_left _ hx
  · intro x y hx hadj; exact h.relaxed x y hx hadj
  · intro v hvs hv
    obtain ⟨a, ha1, ha2, ha3, ha4, ha5⟩ := h.pred v hvs hv
    refine ⟨a, ha1, List.mem_append_left _ ha2, ha3, ha4, ?_⟩
    intro hvo
    rw [List.indexOf_append_of_mem ha2]
    rcases List.mem_append.mp hvo with hvo | hvo
    · rw [List.indexOf_append_of_mem hvo]; exact ha5 hvo
    · rw [List.mem_singleton] at hvo
      subst hvo
      rw [List.indexOf_append_of_not_mem huo]
      have := List.indexOf_lt_length.mpr ha2
      omega
  · left
    rcases h.start_first with h1 | ⟨h1, h2⟩
    · exact List.mem_append_left _ h1
    · by_cases e : u = start
      · rw [e]; simp
      · rw [h2 u e] at hfin; exact absurd hfin (lt_irrefl _)

theorem mem_of_nodup_length_ge (l : List Nat) (n : Nat) (hnd : l.Nodup)
    (hlt : ∀ v ∈ l, v < n) (hlen : n ≤ l.length) : ∀ v, v < n → v ∈ l := by
  intro v hv
  have h1 : l.toFinset ⊆ Finset.range n := by
    intro a ha
    rw [List.mem_toFinset] at ha
    exact Finset.mem_range.mpr (hlt a ha)
  have h2 : (Finset.range n).card ≤ l.toFinset.card := by
    rw [List.toFinset_card_of_nodup hnd, Finset.card_range]; exact hlen
  have h3 := Finset.eq_of_subset_of_card_le h1 h2
  have h4 : v ∈ l.toFinset := by rw [h3]; exact Finset.mem_range.mpr hv
  exact List.mem_toFinset.mp h4

theorem MatrixGraph.dijkstra_loop_spec {INF : Int} {g : MatrixGraph} {start : Nat}
    (hnn : g.NonNeg INF) (hINF : 0 < INF) :
    ∀ (k : Nat) (ord : List Nat) (dist path : List Int) (finalized : List Bool),
    g.DijkstraInv INF start ord (fun x _ => x ∈ ord) dist path →
    finalized.length = g.vertex_count →
    (∀ v, finalized.getD v false = true ↔ v ∈ ord) →
    g.vertex_count ≤ k + ord.length →
    (0 < k ∨ start ∈ ord) →
    g.DijkstraDone INF start (g.dijkstra_loop INF k (dist, path, finalized)).1
      (g.dijkstra_loop INF k (dist, path, finalized)).2 := by
  intro k
  induction k with
  | zero =>
    intro ord dist path finalized h _ _ hk hs
    rw [MatrixGraph.dijkstra_loop]
    have hs' : start ∈ ord := by
      rcases hs with hs | hs
      · exact absurd hs (lt_irrefl _)
      · exact hs
    refine ⟨ord, h, hs', ?_⟩
    intro v hv
    by_cases hvn : v < g.vertex_count
    · exact absurd (mem_of_nodup_length_ge ord _ h.ord_nodup h.ord_lt (by omega) v hvn) hv
    · exact List.getD_eq_default _ _ (by rw [h.len_d]; omega)
  | succ k ih =>
    intro ord dist path finalized h hflen hfin hk _
    obtain ⟨hnone, hsome⟩ := MatrixGraph.dijkstra_select_spec INF dist finalized
      (List.range g.vertex_count) none (fun b hb => by simp at hb)
    have hout : ∀ v, ¬ v < g.vertex_count → dist.getD v INF = INF := fun v hvn =>
      List.getD_eq_default _ _ (by rw [h.len_d]; omega)
    rw [MatrixGraph.dijkstra_loop]
    cases hsel : MatrixGraph.dijkstra_select INF dist finalized (List.range g.vertex_count) none with
    | none =>
      simp only []
      have hall := (hnone hsel).2
      have hmem : ∀ v, v < g.vertex_count → v ∈ ord := fun v hv =>
        (hfin v).mp (hall v (List.mem_range.mpr hv))
      refine ⟨ord, h, hmem start h.start_lt, ?_⟩
      intro v hv
      by_cases hvn : v < g.vertex_count
      · exact absurd (hmem v hvn) hv
      · exact hout v hvn
    | some u =>
      simp only []
      obtain ⟨hfu, hmemu, hmin⟩ := hsome u hsel
      have hun : u < g.vertex_count := by
        rcases hmemu with hm | hm
        · exact List.mem_range.mp hm
        · simp at hm
      have huo : u ∉ ord := by
        intro hm
        rw [(hfin u).mpr hm] at hfu
        simp at hfu
      have hmin' : ∀ v, v < g.vertex_count → v ∉ ord → dist.getD u INF ≤ dist.getD v INF := by
        intro v hvn hvo
        apply hmin v (Or.inl (List.mem_range.mpr hvn))
        by_contra hc
        exact hvo ((hfin v).mp (by simpa using hc))
      by_cases hinf : dist.getD u INF = INF
      · rw [if_pos hinf]
        have hs' : start ∈ ord := by
          by_contra hso
          have := hmin' start h.start_lt hso
          rw [h.d_start, hinf] at this
          omega
        refine ⟨ord, h, hs', ?_⟩
        intro v hv
        show dist.getD v INF = INF
        by_cases hvn : v < g.vertex_count
        · have h1 := hmin' v hvn hv
          have h2 := h.le_inf v
          omega
        · exact hout v hvn
      · rw [if_neg hinf]
        have hfinite : dist.getD u INF < INF := lt_of_le_of_ne (h.le_inf u) hinf
        obtain ⟨h1, hmax⟩ := h.finalize hun huo hfinite hmin'
        have hu' : u ∈ ord ++ [u] := List.mem_append_right _ (List.mem_singleton_self u)
        obtain ⟨h2, _⟩ := MatrixGraph.dijkstra_relax_spec hnn hu' (g.neighbours INF u)
          _ dist path h1 hmax
          (fun v hv => by
            rw [MatrixGraph.mem_neighbours] at hv
            exact ⟨hun, hv.1, hv.2⟩)
        have h3 : g.DijkstraInv INF start (ord ++ [u]) (fun x _ => x ∈ ord ++ [u])
            (g.dijkstra_relax INF u (g.neighbours INF u) (dist, path)).1
            (g.dijkstra_relax INF u (g.neighbours INF u) (dist, path)).2 := by
          refine h2.mono_rel (fun x _ hx => hx) ?_
          intro x y hx hadj
          rcases List.mem_append.mp hx with hx | hx
          · exact Or.inl hx
          · rw [List.mem_singleton] at hx
            exact Or.inr ⟨hx, (g.mem_neighbours INF u y).mpr ⟨hadj.2.1, hx ▸ hadj.2.2⟩⟩
        refine ih (ord ++ [u]) _ _ (finalized.set u true) h3
          (by rw [List.length_set]; exact hflen) ?_
          (by rw [List.length_append, List.length_singleton]; omega) ?_
        · intro v
          rw [getD_set_true finalized u v (by rw [hflen]; exact hun), hfin v, List.mem_append,
            List.mem_singleton]
          exact or_comm
        · right
          rcases h1.start_first with hs1 | ⟨hs1, _⟩
          · exact hs1
          · simp at hs1

theorem MatrixGraph.WalkVia.weight_nonneg {INF : Int} {g : MatrixGraph} {K u v : Nat} {w : Int}
    (hnn : g.NonNeg INF) (h : g.WalkVia INF K u v w) : 0 ≤ w := by
  induction h with
  | single hadj => exact hnn _ _ hadj.1 hadj.2.1 hadj.2.2
  | cons hadj _ _ ih =>
    have := hnn _ _ hadj.1 hadj.2.1 hadj.2.2
    omega

theorem MatrixGraph.isChain_cons (INF : Int) (g : MatrixGraph) (a b : Nat) (rest : List Nat) :
    g.isChain INF (a :: b :: rest) = true ↔ g.Adj INF a b ∧ g.isChain INF (b :: rest) = true := by
  rw [MatrixGraph.isChain, Bool.and_eq_true, decide_eq_true_eq]

theorem MatrixGraph.walkWeight_nonneg {INF : Int} {g : MatrixGraph} (hnn : g.NonNeg INF) :
    ∀ p : List Nat, g.isChain INF p = true → 0 ≤ g.walkWeight INF p
  | [], _ => by simp [MatrixGraph.walkWeight]
  | [_], _ => by simp [MatrixGraph.walkWeight]
  | a :: b :: rest, h => by
    rw [MatrixGraph.isChain_cons] at h
    rw [MatrixGraph.walkWeight]
    have h1 := hnn a b h.1.1 h.1.2.1 h.1.2.2
    have h2 := MatrixGraph.walkWeight_nonneg hnn (b :: rest) h.2
    omega

/-- A path given as a vertex list is the path without edges or a path with edges of
the same weight. -/
theorem MatrixGraph.IsWalk.walkVia {INF : Int} {g : MatrixGraph} :
    ∀ (p : List Nat) (s t : Nat), g.IsWalk INF s t p →
      (p = [s] ∧ s = t) ∨ g.WalkVia INF g.vertex_count s t (g.walkWeight INF p)
  | [], s, t, h => by simp [MatrixGraph.IsWalk] at h
  | [a], s, t, h => by
    obtain ⟨h1, h2, _⟩ := h
    simp only [List.head?_cons, Option.some.injEq, List.getLast?_singleton] at h1 h2
    subst h1; subst h2
    exact Or.inl ⟨rfl, rfl⟩
  | a :: b :: rest, s, t, h => by
    obtain ⟨h1, h2, h3⟩ := h
    simp only [List.head?_cons, Option.some.injEq] at h1
    subst h1
    rw [MatrixGraph.isChain_cons] at h3
    have hbt : g.IsWalk INF b t (b :: rest) :=
      ⟨rfl, by rw [← h2, List.getLast?_cons_cons], h3.2⟩
    right
    rw [MatrixGraph.walkWeight]
    rcases MatrixGraph.IsWalk.walkVia (b :: rest) b t hbt with ⟨h4, h5⟩ | h4
    · rw [h4, ← h5]
      simp only [MatrixGraph.walkWeight, add_zero]
      exact .single h3.1
    · exact .cons h3.1 h3.1.2.1 h4

/-- At the end of Dijkstra's loop a distance is within every edge of the distance of a
finalized vertex, along any path. -/
theorem MatrixGraph.DijkstraDone.closure {INF : Int} {g : MatrixGraph} {start : Nat}
    {ord : List Nat} {dist path : List Int} (hnn : g.NonNeg INF)
    (h : g.DijkstraInv INF start ord (fun x _ => x ∈ ord) dist path)
    (hrest : ∀ v, v ∉ ord → dist.getD v INF = INF) {K x v : Nat} {w : Int}
    (hw : g.WalkVia INF K x v w) :
    x ∈ ord → dist.getD v INF ≤ dist.getD x INF + w := by
  induction hw with
  | single hadj => intro hx; exact h.relaxed _ _ hx hadj
  | @cons a b c w' hadj _ hrec ih =>
    intro hx
    have h1 := h.relaxed _ _ hx hadj
    by_cases hb : b ∈ ord
    · have := ih hb; omega
    · rw [hrest b hb] at h1
      have h2 := h.le_inf c
      have h3 := hrec.weight_nonneg hnn
      omega

theorem MatrixGraph.walkWeight_snoc (INF : Int) (g : MatrixGraph) :
    ∀ (r : List Nat) (u v : Nat), r.getLast? = some u →
      g.walkWeight INF (r ++ [v]) = g.walkWeight INF r + g.cell INF u v
  | [], u, v, h => by simp at h
  | [a], u, v, h => by
    simp only [List.getLast?_singleton, Option.some.injEq] at h
    subst h
    simp [MatrixGraph.walkWeight]
  | a :: b :: rest, u, v, h => by
    rw [List.getLast?_cons_cons] at h
    have := MatrixGraph.walkWeight_snoc INF g (b :: rest) u v h
    show g.cell INF a b + g.walkWeight INF ((b :: rest) ++ [v]) =
      g.cell INF a b + g.walkWeight INF (b :: rest) + g.cell INF u v
    rw [this]; ring

theorem MatrixGraph.isChain_snoc (INF : Int) (g : MatrixGraph) :
    ∀ (r : List Nat) (u v : Nat), g.isChain INF r = true → r.getLast? = some u →
      g.Adj INF u v → g.isChain INF (r ++ [v]) = true
  | [], u, v, _, h, _ => by simp at h
  | [a], u, v, _, h, hadj => by
    simp only [List.getLast?_singleton, Option.some.injEq] at h
    subst h
    show g.isChain INF [a, v] = true
    rw [MatrixGraph.isChain_cons]
    exact ⟨hadj, rfl⟩
  | a :: b :: rest, u, v, hc, h, hadj => by
    rw [List.getLast?_cons_cons] at h
    rw [MatrixGraph.isChain_cons] at hc
    show g.isChain INF (a :: b :: (rest ++ [v])) = true
    rw [MatrixGraph.isChain_cons]
    exact ⟨hc.1, MatrixGraph.isChain_snoc INF g (b :: rest) u v hc.2 h hadj⟩

theorem MatrixGraph.IsWalk.walk_snoc {INF : Int} {g : MatrixGraph} {s u v : Nat} {r : List Nat}
    (h : g.IsWalk INF s u r) (hadj : g.Adj INF u v) : g.IsWalk INF s v (r ++ [v]) := by
  obtain ⟨h1, h2, h3⟩ := h
  refine ⟨?_, by simp, g.isChain_snoc INF r u v h3 h2 hadj⟩
  cases r with
  | nil => simp at h1
  | cons a r => simpa using h1

/-- Following `path` backwards from a finalized vertex reaches the start vertex along a
route whose total weight is the distance. -/
theorem MatrixGraph.DijkstraInv.route {INF : Int} {g : MatrixGraph} {start : Nat}
    {ord : List Nat} {rel : Nat → Nat → Prop} {dist path : List Int}
    (h : g.DijkstraInv INF start ord rel dist path) :
    ∀ (fuel v : Nat), v ∈ ord → ord.indexOf v ≤ fuel →
    ∃ r, MatrixGraph.dijkstra_route path start fuel v = some r ∧ g.IsWalk INF start v r ∧
      g.walkWeight INF r = dist.getD v INF := by
  have hbase : ∀ fuel, ∃ r, MatrixGraph.dijkstra_route path start fuel start = some r ∧
      g.IsWalk INF start start r ∧ g.walkWeight INF r = dist.getD start INF := by
    intro fuel
    refine ⟨[start], ?_, ⟨rfl, rfl, rfl⟩, ?_⟩
    · cases fuel <;> simp [MatrixGraph.dijkstra_route]
    · rw [h.d_start]; simp [MatrixGraph.walkWeight]
  intro fuel
  induction fuel with
  | zero =>
    intro v hv hidx
    by_cases e : v = start
    · rw [e]; exact hbase 0
    · obtain ⟨u, _, _, _, _, hlt⟩ := h.pred v e (h.fin_finite v hv)
      have := hlt hv
      omega
  | succ fuel ih =>
    intro v hv hidx
    by_cases e : v = start
    · rw [e]; exact hbase _
    · obtain ⟨u, hp, huo, hadj, hd, hlt⟩ := h.pred v e (h.fin_finite v hv)
      obtain ⟨r, hr, hwalk, hw⟩ := ih u huo (by have := hlt hv; omega)
      refine ⟨r ++ [v], ?_, hwalk.walk_snoc hadj, ?_⟩
      · simp only [MatrixGraph.dijkstra_route, if_neg e, hp]
        have : ¬ ((u : Int) < 0) := by omega
        simp only [this, if_false, Int.toNat_ofNat, hr, Option.map_some']
      · rw [g.walkWeight_snoc INF r u v hwalk.2.1, hw, hd]

theorem getD_replicate_self (n : Nat) (x : Int) (v : Nat) :
    (List.replicate n x).getD v x = x := by
  simp only [List.getD_eq_getElem?_getD, List.getElem?_replicate]
  split_ifs <;> rfl

theorem MatrixGraph.dijkstra_init_inv (INF : Int) (g : MatrixGraph) (start : Nat)
    (hINF : 0 < INF) (hs : start < g.vertex_count) :
    g.DijkstraInv INF start [] (fun x _ => x ∈ ([] : List Nat))
      ((List.replicate g.vertex_count INF).set start 0)
      (List.replicate g.vertex_count NO_VERTEX) := by
  have hd : ∀ v, ((List.replicate g.vertex_count INF).set start 0).getD v INF =
      if v = start then 0 else INF := by
    intro v
    rw [getD_set_int _ _ _ _ _ (by simpa using hs), getD_replicate_self]
  refine ⟨by simp, by simp, List.nodup_nil, by simp, hs, by rw [hd, if_pos rfl],
    getD_replicate_self _ _ _, ?_, ?_, by simp, by simp, by simp, by simp, ?_,
    fun v _ => getD_replicate_self _ _ _, Or.inr ⟨rfl, fun v hv => by rw [hd, if_neg hv]⟩⟩
  · intro v; rw [hd]; split_ifs <;> omega
  · intro v; rw [hd]; split_ifs <;> omega
  · intro v hv hlt
    rw [hd, if_neg hv] at hlt
    exact absurd hlt (lt_irrefl _)

/-- What `MatrixGraph_Dijkstra` computes on a graph with non-negative weights, for a
positive sentinel and an in-range start vertex. -/
theorem MatrixGraph_Dijkstra_spec (INF : Int) (g : MatrixGraph) (startV : Int)
    (hINF : 0 < INF) (hnn : g.NonNeg INF) (hs : g.inRange startV) :
    ∃ dist path, MatrixGraph_Dijkstra INF g startV = ⟨true, dist, path⟩ ∧
      dist.length = g.vertex_count ∧ path.length = g.vertex_count ∧
      dist.getD startV.toNat INF = 0 ∧
      (∀ v, dist.getD v INF ≤ INF) ∧
      (∀ v p, g.IsWalk INF startV.toNat v p → dist.getD v INF ≤ g.walkWeight INF p) ∧
      (∀ v, dist.getD v INF < INF →
        ∃ r, MatrixGraph.dijkstra_route path startV.toNat g.vertex_count v = some r ∧
          g.IsWalk INF startV.toNat v r ∧ g.walkWeight INF r = dist.getD v INF) ∧
      (∀ v, dist.getD v INF = INF → path.getD v NO_VERTEX = NO_VERTEX) := by
  have hlt := MatrixGraph.inRange_toNat hs
  have hn0 : ¬ (g.vertex_count = 0 ∨ ¬ g.inRange startV) := by
    rintro (h | h)
    · omega
    · exact h hs
  obtain ⟨ord, hinv, hso, hrest⟩ := MatrixGraph.dijkstra_loop_spec hnn hINF g.vertex_count []
    _ _ (List.replicate g.vertex_count false)
    (g.dijkstra_init_inv INF startV.toNat hINF hlt) (by simp)
    (fun v => by
      simp only [List.getD_eq_getElem?_getD, List.getElem?_replicate, List.not_mem_nil,
        iff_false]
      split_ifs <;> simp)
    (by simp) (Or.inl (by omega))
  refine ⟨_, _, ?_, hinv.len_d, hinv.len_p, hinv.d_start, hinv.le_inf, ?_, ?_, hinv.unreached⟩
  · unfold MatrixGraph_Dijkstra
    rw [if_neg hn0]
  · intro v p hp
    rcases hp.walkVia with ⟨h1, h2⟩ | h1
    · rw [h1, ← h2, hinv.d_start]
      simp [MatrixGraph.walkWeight]
    · have := MatrixGraph.DijkstraDone.closure hnn hinv hrest h1 hso
      rw [hinv.d_start] at this
      omega
  · intro v hv
    have hvo : v ∈ ord := by
      by_contra hc
      rw [hrest v hc] at hv
      exact absurd hv (lt_irrefl _)
    refine hinv.route g.vertex_count v hvo ?_
    have h1 := List.indexOf_lt_length.mpr hvo
    have h2 := nodup_length_le_of_lt ord _ hinv.ord_nodup hinv.ord_lt
    omega

theorem MatrixGraph.dijkstra_relax_nonpos {INF : Int} {g : MatrixGraph} (hINF : INF ≤ 0)
    (hnn : g.NonNeg INF) (u : Nat) (hu : u < g.vertex_count) (dist path : List Int)
    (hdu : dist.getD u INF = 0) (hd : ∀ v, dist.getD v INF ≤ 0) :
    ∀ l : List Nat, (∀ v ∈ l, v < g.vertex_count ∧ g.cell INF u v ≠ INF) →
    g.dijkstra_relax INF u l (dist, path) = (dist, path)
  | [], _ => by simp only [MatrixGraph.dijkstra_relax]
  | v :: vs, hl => by
    have hv := hl v (List.mem_cons_self _ _)
    have hw := hnn u v hu hv.1 hv.2
    have hc : ¬ (dist.getD u INF + g.cell INF u v < dist.getD v INF) := by
      have := hd v
      omega
    simp only [MatrixGraph.dijkstra_relax, if_neg hc]
    exact MatrixGraph.dijkstra_relax_nonpos hINF hnn u hu dist path hdu hd vs
      (fun x hx => hl x (List.mem_cons_of_mem _ hx))

theorem MatrixGraph.dijkstra_loop_nonpos {INF : Int} {g : MatrixGraph} (hINF : INF ≤ 0)
    (hnn : g.NonNeg INF) (start : Nat) (hs : start < g.vertex_count) (dist path : List Int)
    (hd : ∀ v, dist.getD v INF = if v = start then 0 else INF) :
    ∀ (k : Nat) (finalized : List Bool),
    g.dijkstra_loop INF k (dist, path, finalized) = (dist, path)
  | 0, _ => by simp only [MatrixGraph.dijkstra_loop]
  | k + 1, finalized => by
    simp only [MatrixGraph.dijkstra_loop]
    split
    · rfl
    · rename_i u _
      split
      · rfl
      · rename_i hdu
        have hus : u = start := by
          by_contra hne
          exact hdu (by rw [hd, if_neg hne])
        subst hus
        have hrel := MatrixGraph.dijkstra_relax_nonpos hINF hnn u hs dist path
          (by rw [hd, if_pos rfl]) (fun v => by rw [hd]; split_ifs <;> omega)
          (g.neighbours INF u) (fun v hv => (g.mem_neighbours INF u v).mp hv)
        rw [hrel]
        exact MatrixGraph.dijkstra_loop_nonpos hINF hnn u hs dist path hd k _

/-- With a sentinel that is not positive, `MatrixGraph_Dijkstra` on a graph with
non-negative weights returns what the initialisation wrote. -/
theorem MatrixGraph_Dijkstra_nonpos (INF : Int) (g : MatrixGraph) (startV : Int)
    (hINF : INF ≤ 0) (hnn : g.NonNeg INF) (hs : g.inRange startV) :
    MatrixGraph_Dijkstra INF g startV =
      ⟨true, (List.replicate g.vertex_count INF).set startV.toNat 0,
        List.replicate g.vertex_count NO_VERTEX⟩ ∧
    ∀ v, ((List.replicate g.vertex_count INF).set startV.toNat 0).getD v INF =
      if v = startV.toNat then 0 else INF := by
  have hlt := MatrixGraph.inRange_toNat hs
  have hn0 : ¬ (g.vertex_count = 0 ∨ ¬ g.inRange startV) := by
    rintro (h | h)
    · omega
    · exact h hs
  have hd : ∀ v, ((List.replicate g.vertex_count INF).set startV.toNat 0).getD v INF =
      if v = startV.toNat then 0 else INF := by
    intro v
    rw [getD_set_int _ _ _ _ _ (by simpa using hlt), getD_replicate_self]
  refine ⟨?_, hd⟩
  unfold MatrixGraph_Dijkstra
  rw [if_neg hn0]
  simp only []
  rw [MatrixGraph.dijkstra_loop_nonpos hINF hnn startV.toNat hlt _ _ hd]

/-- Counterexample to C5 as stated. On `far_graph` (sentinel 99, edges 0 → 1 and 1 → 2
of weight 60 each, start vertex 0; no number that occurs exceeds 120) vertex 2 is
reachable, the minimum total weight over the paths from 0 to 2 is 120, but
`MatrixGraph_Dijkstra` writes `dist[2] = 99`, the sentinel, and leaves `path[2]` at the
no-predecessor sentinel, so following `path` backwards from 2 does not arrive at the
start. -/
theorem MatrixGraph_Dijkstra_far_vertex :
    far_graph.NonNeg 99 ∧ far_graph.inRange 0 ∧
    MatrixGraph_Dijkstra 99 far_graph 0 = ⟨true, [0, 60, 99], [-1, 0, -1]⟩ ∧
    far_graph.IsWalk 99 0 2 [0, 1, 2] ∧
    IsLeast {w | ∃ p, far_graph.IsWalk 99 0 2 p ∧ far_graph.walkWeight 99 p = w} 120 ∧
    ¬ IsLeast {w | ∃ p, far_graph.IsWalk 99 0 2 p ∧ far_graph.walkWeight 99 p = w}
      ((MatrixGraph_Dijkstra 99 far_graph 0).dist.getD 2 99) ∧
    MatrixGraph.dijkstra_route (MatrixGraph_Dijkstra 99 far_graph 0).path 0 3 2 = none := by
  have hadj : ∀ u v, far_graph.Adj 99 u v ↔ (u = 0 ∧ v = 1) ∨ (u = 1 ∧ v = 2) := by
    intro u v
    constructor
    · rintro ⟨hu, hv, hc⟩
      have hu' : u < 3 := hu
      have hv' : v < 3 := hv
      interval_cases u <;> interval_cases v <;> first | exact absurd rfl hc | simp
    · rintro (⟨rfl, rfl⟩ | ⟨rfl, rfl⟩) <;> decide
  have hall : ∀ p, far_graph.IsWalk 99 0 2 p → far_graph.walkWeight 99 p = 120 := by
    intro p hp
    obtain ⟨h1, h2, h3⟩ := hp
    match p, h1, h2, h3 with
    | [a], h1, h2, _ =>
      simp only [List.head?_cons, List.getLast?_singleton, Option.some.injEq] at h1 h2
      omega
    | [a, b], h1, h2, h3 =>
      simp only [List.head?_cons, Option.some.injEq] at h1
      have h2' : b = 2 := by simpa using h2
      rw [MatrixGraph.isChain_cons] at h3
      have := (hadj a b).mp h3.1
      omega
    | [a, b, c], h1, h2, h3 =>
      simp only [List.head?_cons, Option.some.injEq] at h1
      have h2' : c = 2 := by simpa using h2
      rw [MatrixGraph.isChain_cons, MatrixGraph.isChain_cons] at h3
      have e1 := (hadj a b).mp h3.1
      have e2 := (hadj b c).mp h3.2.1
      have ha : a = 0 := h1
      have hb : b = 1 := by omega
      subst ha; subst hb; subst h2'
      decide
    | a :: b :: c :: d :: rest, h1, h2, h3 =>
      simp only [List.head?_cons, Option.some.injEq] at h1
      rw [MatrixGraph.isChain_cons, MatrixGraph.isChain_cons, MatrixGraph.isChain_cons] at h3
      have e1 := (hadj a b).mp h3.1
      have e2 := (hadj b c).mp h3.2.1
      have e3 := (hadj c d).mp h3.2.2.1
      omega
  have hrun : MatrixGraph_Dijkstra 99 far_graph 0 = ⟨true, [0, 60, 99], [-1, 0, -1]⟩ := by
    decide
  refine ⟨?_, by decide, hrun, by decide, ?_, ?_, ?_⟩
  · intro u v hu hv hc
    have hu' : u < 3 := hu
    have hv' : v < 3 := hv
    interval_cases u <;> interval_cases v <;> first | exact absurd rfl hc | decide
  · exact ⟨⟨[0, 1, 2], by decide, by decide⟩, fun w ⟨p, hp, hw⟩ => by rw [← hw, hall p hp]⟩
  · rw [hrun]
    rintro ⟨⟨p, hp, hw⟩, _⟩
    rw [hall p hp] at hw
    exact absurd hw (by decide)
  · rw [hrun]
    decide

/-- C5, amended. For every graph whose stored edge weights are all non-negative and
every start vertex in `[0, vertex_count)`, `MatrixGraph_Dijkstra` returns true and fills
`dist` and `path` (both of length `vertex_count`) so that `dist[start] = 0` and for each
vertex `v`: if some directed path from `start` to `v` weighs at most the sentinel,
`dist[v]` is the minimum total weight over the directed paths from `start` to `v`; if
`v` is unreachable, `dist[v]` is the sentinel (and `path[v]` the no-predecessor
sentinel); and following `path` backwards from any `v` with `dist[v]` not the sentinel
arrives at `start` along a route of total weight `dist[v]`. Nothing is said about a
vertex that is reachable only along paths weighing more than the sentinel. -/
theorem MatrixGraph_Dijkstra_shortest (INF : Int) (g : MatrixGraph) (startV : Int)
    (hnn : g.NonNeg INF) (hs : g.inRange startV) :
    ∃ dist path, MatrixGraph_Dijkstra INF g startV = ⟨true, dist, path⟩ ∧
      dist.length = g.vertex_count ∧ path.length = g.vertex_count ∧
      dist.getD startV.toNat INF = 0 ∧
      ∀ v, v < g.vertex_count →
        ((∃ p, g.IsWalk INF startV.toNat v p ∧ g.walkWeight INF p ≤ INF) →
          IsLeast {w | ∃ p, g.IsWalk INF startV.toNat v p ∧ g.walkWeight INF p = w}
            (dist.getD v INF)) ∧
        ((¬ ∃ p, g.IsWalk INF startV.toNat v p) →
          dist.getD v INF = INF ∧ path.getD v NO_VERTEX = NO_VERTEX) ∧
        (dist.getD v INF ≠ INF →
          ∃ r, MatrixGraph.dijkstra_route path startV.toNat g.vertex_count v = some r ∧
            g.IsWalk INF startV.toNat v r ∧ g.walkWeight INF r = dist.getD v INF) := by
  by_cases hINF : 0 < INF
  · obtain ⟨dist, path, hrun, hld, hlp, hd0, hle, hmin, hroute, hnone⟩ :=
      MatrixGraph_Dijkstra_spec INF g startV hINF hnn hs
    refine ⟨dist, path, hrun, hld, hlp, hd0, fun v _ => ⟨?_, ?_, ?_⟩⟩
    · rintro ⟨p, hp, hw⟩
      refine ⟨?_, fun w ⟨q, hq, hqw⟩ => hqw ▸ hmin v q hq⟩
      by_cases hlt : dist.getD v INF < INF
      · obtain ⟨r, _, hr, hrw⟩ := hroute v hlt
        exact ⟨r, hr, hrw⟩
      · have h1 := hmin v p hp
        have h2 := hle v
        exact ⟨p, hp, by omega⟩
    · intro hno
      have heq : dist.getD v INF = INF := by
        by_contra hne
        obtain ⟨r, _, hr, _⟩ := hroute v (lt_of_le_of_ne (hle v) hne)
        exact hno ⟨r, hr⟩
      exact ⟨heq, hnone v heq⟩
    · intro hne
      exact hroute v (lt_of_le_of_ne (hle v) hne)
  · obtain ⟨hrun, hd⟩ := MatrixGraph_Dijkstra_nonpos INF g startV (by omega) hnn hs
    have hlt := MatrixGraph.inRange_toNat hs
    refine ⟨_, _, hrun, by simp, by simp, by rw [hd, if_pos rfl], fun v _ => ⟨?_, ?_, ?_⟩⟩
    · rintro ⟨p, hp, hw⟩
      have h0 := MatrixGraph.walkWeight_nonneg hnn p hp.2.2
      have hdv : ((List.replicate g.vertex_count INF).set startV.toNat 0).getD v INF = 0 := by
        rw [hd]
        split_ifs
        · rfl
        · omega
      rw [hdv]
      exact ⟨⟨p, hp, by omega⟩,
        fun w ⟨q, hq, hqw⟩ => hqw ▸ MatrixGraph.walkWeight_nonneg hnn q hq.2.2⟩
    · intro hno
      have hv : v ≠ startV.toNat := by
        rintro rfl
        exact hno ⟨[startV.toNat], rfl, rfl, rfl⟩
      exact ⟨by rw [hd, if_neg hv], getD_replicate_self _ _ _⟩
    · intro hne
      have hv : v = startV.toNat := by
        by_contra hv
        exact hne (by rw [hd, if_neg hv])
      subst hv
      refine ⟨[startV.toNat], ?_, ⟨rfl, rfl, rfl⟩, ?_⟩
      · unfold MatrixGraph.dijkstra_route
        rw [if_pos rfl]
      · rw [hd, if_pos rfl]
        simp [MatrixGraph.walkWeight]

/-- Witness for the amended C5, the example of the design document: on the graph with
the edges 0 → 1 (1), 1 → 2 (2), 0 → 2 (10) and start vertex 0 the call returns true
with `dist = [0, 1, 3]`, and the route to vertex 2 is 0 → 1 → 2. -/
theorem MatrixGraph_Dijkstra_shortest_witness :
    (∃ dist path, MatrixGraph_Dijkstra 99 example_graph 0 = ⟨true, dist, path⟩ ∧
      dist.length = 3 ∧ path.length = 3 ∧ dist.getD 0 99 = 0 ∧
      ∀ v, v < 3 →
        ((∃ p, example_graph.IsWalk 99 0 v p ∧ example_graph.walkWeight 99 p ≤ 99) →
          IsLeast {w | ∃ p, example_graph.IsWalk 99 0 v p ∧ example_graph.walkWeight 99 p = w}
            (dist.getD v 99)) ∧
        ((¬ ∃ p, example_graph.IsWalk 99 0 v p) →
          dist.getD v 99 = 99 ∧ path.getD v NO_VERTEX = NO_VERTEX) ∧
        (dist.getD v 99 ≠ 99 →
          ∃ r, MatrixGraph.dijkstra_route path 0 3 v = some r ∧
            example_graph.IsWalk 99 0 v r ∧ example_graph.walkWeight 99 r = dist.getD v 99)) ∧
    MatrixGraph_Dijkstra 99 example_graph 0 = ⟨true, [0, 1, 3], [-1, 0, 1]⟩ ∧
    MatrixGraph.dijkstra_route [-1, 0, 1] 0 3 2 = some [0, 1, 2] :=
  ⟨MatrixGraph_Dijkstra_shortest 99 example_graph 0
    (by
      intro u v hu hv hc
      have hu' : u < 3 := hu
      have hv' : v < 3 := hv
      interval_cases u <;> interval_cases v <;> first | exact absurd rfl hc | decide)
    (by decide), by decide, by decide⟩

/-! ### MatrixGraph: Floyd–Warshall -/

theorem mat_get_set (d : Int) (n : Nat) (m : List (List Int)) (hm : mat_square n m)
    (i j a b : Nat) (x : Int) (hi : i < n) (hj : j < n) :
    mat_get d (mat_set m i j x) a b = if a = i ∧ b = j then x else mat_get d m a b := by
  obtain ⟨hlen, hrows⟩ := hm
  have hil : i < m.length := by omega
  have hrow : (m.getD i []).length = n := by
    apply hrows
    rw [List.getD_eq_getElem _ _ hil]
    exact List.getElem_mem _
  unfold mat_get mat_set
  simp only [List.getD_eq_getElem?_getD, List.getElem?_set]
  by_cases h1 : a = i
  · subst h1
    simp only [if_true, hil, true_and]
    by_cases h2 : b = j
    · subst h2
      have hb : b < (m[a]?.getD []).length := by
        rw [← List.getD_eq_getElem?_getD, hrow]; exact hj
      simp [hb]
    · have h2' : ¬ j = b := fun e => h2 e.symm
      simp [h2, h2']
  · have h1' : ¬ i = a := fun e => h1 e.symm
    simp [h1, h1']

theorem mat_set_square (n : Nat) (m : List (List Int)) (hm : mat_square n m)
    (i j : Nat) (x : Int) : mat_square n (mat_set m i j x) := by
  obtain ⟨hlen, hrows⟩ := hm
  refine ⟨by simp [mat_set, hlen], ?_⟩
  intro row hrow
  simp only [mat_set] at hrow
  by_cases hu : i < m.length
  · rcases List.mem_or_eq_of_mem_set hrow with h | h
    · exact hrows row h
    · subst h
      rw [List.length_set]
      apply hrows
      rw [List.getD_eq_getElem _ _ hu]
      exact List.getElem_mem _
  · rw [List.set_eq_of_length_le (by omega)] at hrow
    exact hrows _ hrow

theorem MatrixGraph.WalkVia.mono {INF : Int} {g : MatrixGraph} {K K' u v : Nat} {w : Int}
    (hK : K ≤ K') (h : g.WalkVia INF K u v w) : g.WalkVia INF K' u v w := by
  induction h with
  | single hadj => exact .single hadj
  | cons hadj hx _ ih => exact .cons hadj (by omega) ih

theorem MatrixGraph.WalkVia.lt_left {INF : Int} {g : MatrixGraph} {K u v : Nat} {w : Int}
    (h : g.WalkVia INF K u v w) : u < g.vertex_count := by
  cases h with
  | single hadj => exact hadj.1
  | cons hadj _ _ => exact hadj.1

theorem MatrixGraph.WalkVia.lt_right {INF : Int} {g : MatrixGraph} {K u v : Nat} {w : Int}
    (h : g.WalkVia INF K u v w) : v < g.vertex_count := by
  induction h with
  | single hadj => exact hadj.2.1
  | cons _ _ _ ih => exact ih

theorem MatrixGraph.WalkVia.append {INF : Int} {g : MatrixGraph} {K i m j : Nat} {a b : Int}
    (h1 : g.WalkVia INF K i m a) (hm : m < K) (h2 : g.WalkVia INF K m j b) :
    g.WalkVia INF K i j (a + b) := by
  induction h1 with
  | single hadj => exact .cons hadj hm h2
  | cons hadj hx _ ih =>
    rw [add_assoc]
    exact .cons hadj hx (ih hm h2)

/-- A path whose intermediate vertices are at most `K` either avoids `K` or splits at
`K` into two paths that avoid it; with non-negative weights nothing is lost. -/
theorem MatrixGraph.WalkVia.split {INF : Int} {g : MatrixGraph} {K i j : Nat} {w : Int}
    (hnn : g.NonNeg INF) (h : g.WalkVia INF (K + 1) i j w) :
    (∃ w', g.WalkVia INF K i j w' ∧ w' ≤ w) ∨
    (∃ w1 w2, g.WalkVia INF K i K w1 ∧ g.WalkVia INF K K j w2 ∧ w1 + w2 ≤ w) := by
  induction h with
  | single hadj => exact Or.inl ⟨_, .single hadj, le_refl _⟩
  | @cons a x c w0 hadj hx hrec ih =>
    by_cases hxK : x < K
    · rcases ih with ⟨w', h1, h2⟩ | ⟨w1, w2, h1, h2, h3⟩
      · exact Or.inl ⟨_, .cons hadj hxK h1, by omega⟩
      · exact Or.inr ⟨_, w2, .cons hadj hxK h1, h2, by omega⟩
    · have hxe : x = K := by omega
      subst hxe
      rcases ih with ⟨w', h1, h2⟩ | ⟨w1, w2, h1, h2, h3⟩
      · exact Or.inr ⟨_, w', .single hadj, h1, by omega⟩
      · have := h1.weight_nonneg hnn
        exact Or.inr ⟨_, w2, .single hadj, h2, by omega⟩

theorem MatrixGraph.WalkVia.toList {INF : Int} {g : MatrixGraph} {K u v : Nat} {w : Int}
    (h : g.WalkVia INF K u v w) : ∃ p, g.IsWalk INF u v p ∧ g.walkWeight INF p = w := by
  induction h with
  | @single a b hadj =>
    refine ⟨[a, b], ⟨rfl, rfl, ?_⟩, by simp [MatrixGraph.walkWeight]⟩
    rw [MatrixGraph.isChain_cons]; exact ⟨hadj, rfl⟩
  | @cons a x c w0 hadj _ _ ih =>
    obtain ⟨p, ⟨h1, h2, h3⟩, hw⟩ := ih
    cases p with
    | nil => simp at h1
    | cons y rest =>
      simp only [List.head?_cons, Option.some.injEq] at h1
      subst h1
      refine ⟨a :: y :: rest, ⟨rfl, by rw [List.getLast?_cons_cons]; exact h2, ?_⟩, ?_⟩
      · rw [MatrixGraph.isChain_cons]; exact ⟨hadj, h3⟩
      · rw [MatrixGraph.walkWeight, hw]

theorem MatrixGraph.FloydInv.floyd_step_inv {INF : Int} {g : MatrixGraph} {K : Nat}
    {S : Nat → Nat → Prop} {dist : List (List Int)} {i j : Nat}
    (h : g.FloydInv INF K S dist) (path : List (List Int)) (hnn : g.NonNeg INF)
    (hK : K < g.vertex_count) (hi : i < g.vertex_count) (hj : j < g.vertex_count) :
    g.FloydInv INF K (fun a b => S a b ∨ (a = i ∧ b = j))
      (MatrixGraph.floyd_step INF K i j (dist, path)).1 := by
  unfold MatrixGraph.floyd_step
  simp only []
  by_cases hc : mat_get INF dist i K ≠ INF ∧ mat_get INF dist K j ≠ INF ∧
      mat_get INF dist i K + mat_get INF dist K j < mat_get INF dist i j
  · rw [if_pos hc]
    simp only []
    obtain ⟨hc1, hc2, hc3⟩ := hc
    have hik : mat_get INF dist i K < INF := lt_of_le_of_ne (h.le_inf i K) hc1
    have hkj : mat_get INF dist K j < INF := lt_of_le_of_ne (h.le_inf K j) hc2
    have hiK : i ≠ K := by
      intro e
      have := h.diag K hK
      rw [e] at hc3
      omega
    have hjK : K ≠ j := by
      intro e
      have := h.diag K hK
      rw [← e] at hc3
      omega
    have hget : ∀ a b, mat_get INF
        (mat_set dist i j (mat_get INF dist i K + mat_get INF dist K j)) a b =
        if a = i ∧ b = j then mat_get INF dist i K + mat_get INF dist K j
        else mat_get INF dist a b :=
      fun a b => mat_get_set INF _ dist h.shape i j a b _ hi hj
    have hle : ∀ a b, mat_get INF
        (mat_set dist i j (mat_get INF dist i K + mat_get INF dist K j)) a b ≤
        mat_get INF dist a b := by
      intro a b
      rw [hget]
      split_ifs with e
      · rw [e.1, e.2]; exact le_of_lt hc3
      · exact le_refl _
    refine ⟨mat_set_square _ _ h.shape _ _ _, fun a b => le_trans (hle a b) (h.le_inf a b),
      ?_, ?_, ?_, fun a b w hw => le_trans (hle a b) (h.via a b w hw), ?_⟩
    · intro a b
      rw [hget]
      split_ifs
      · have h1 := h.nonneg i K
        have h2 := h.nonneg K j
        omega
      · exact h.nonneg a b
    · intro a ha
      rw [hget]
      split_ifs with e
      · obtain ⟨e1, e2⟩ := e
        subst e1
        subst e2
        have h1 := h.nonneg a K
        have h2 := h.nonneg K a
        have h3 := h.diag a ha
        omega
      · exact h.diag a ha
    · intro a b ha hb hlt
      rw [hget] at hlt ⊢
      split_ifs at hlt ⊢ with e
      · right
        rw [e.1, e.2]
        rcases h.sound i K hi hK hik with h1 | h1
        · exact absurd h1 hiK
        · rcases h.sound K j hK hj hkj with h2 | h2
          · exact absurd h2 hjK
          · exact h1.append hK h2
      · exact h.sound a b ha hb hlt
    · intro a b w hS hw
      rcases hS with hS | ⟨rfl, rfl⟩
      · exact le_trans (hle a b) (h.done a b w hS hw)
      · rw [hget, if_pos ⟨rfl, rfl⟩]
        rcases hw.split hnn with ⟨w', h1, h2⟩ | ⟨w1, w2, h1, h2, h3⟩
        · have := h.via _ _ _ h1
          omega
        · have e1 := h.via _ _ _ h1
          have e2 := h.via _ _ _ h2
          omega
  · rw [if_neg hc]
    refine ⟨h.shape, h.le_inf, h.nonneg, h.diag, h.sound, h.via, ?_⟩
    intro a b w hS hw
    show mat_get INF dist a b ≤ w
    rcases hS with hS | ⟨rfl, rfl⟩
    · exact h.done a b w hS hw
    · rcases hw.split hnn with ⟨w', h1, h2⟩ | ⟨w1, w2, h1, h2, h3⟩
      · have := h.via _ _ _ h1
        omega
      · have e1 := h.via _ _ _ h1
        have e2 := h.via _ _ _ h2
        have n1 := h1.weight_nonneg hnn
        have n2 := h2.weight_nonneg hnn
        have l1 := h.le_inf a b
        by_cases c1 : mat_get INF dist a K = INF
        · omega
        · by_cases c2 : mat_get INF dist K b = INF
          · omega
          · have c3 : ¬ (mat_get INF dist a K + mat_get INF dist K b < mat_get INF dist a b) :=
              fun c3 => hc ⟨c1, c2, c3⟩
            omega

theorem MatrixGraph.FloydInv.weaken {INF : Int} {g : MatrixGraph} {K : Nat}
    {S S' : Nat → Nat → Prop} {dist : List (List Int)}
    (h : g.FloydInv INF K S dist) (hS : ∀ a b, S' a b → S a b) :
    g.FloydInv INF K S' dist :=
  ⟨h.shape, h.le_inf, h.nonneg, h.diag, h.sound, h.via,
    fun a b w hab hw => h.done a b w (hS a b hab) hw⟩

theorem MatrixGraph.FloydInv.row {INF : Int} {g : MatrixGraph} {K i : Nat}
    (hnn : g.NonNeg INF) (hK : K < g.vertex_count) (hi : i < g.vertex_count) :
    ∀ (js : List Nat) (S : Nat → Nat → Prop) (dist path : List (List Int)),
    (∀ j ∈ js, j < g.vertex_count) → g.FloydInv INF K S dist →
    g.FloydInv INF K (fun a b => S a b ∨ (a = i ∧ b ∈ js))
      (MatrixGraph.floyd_row INF K i js (dist, path)).1 := by
  intro js
  induction js with
  | nil =>
    intro S dist path _ h
    refine MatrixGraph.FloydInv.weaken (S := S) h ?_
    rintro a b (hS | ⟨_, hb⟩)
    · exact hS
    · simp at hb
  | cons j js ih =>
    intro S dist path hjs h
    have h1 := h.floyd_step_inv path hnn hK hi (hjs j (List.mem_cons_self _ _))
    have h2 := ih _ _ (MatrixGraph.floyd_step INF K i j (dist, path)).2
      (fun b hb => hjs b (List.mem_cons_of_mem _ hb)) h1
    unfold MatrixGraph.floyd_row at h2 ⊢
    rw [List.foldl_cons]
    refine h2.weaken ?_
    rintro a b (hS | ⟨ha, hb⟩)
    · exact Or.inl (Or.inl hS)
    · rcases List.mem_cons.mp hb with hb | hb
      · exact Or.inl (Or.inr ⟨ha, hb⟩)
      · exact Or.inr ⟨ha, hb⟩

theorem MatrixGraph.FloydInv.phase {INF : Int} {g : MatrixGraph} {K : Nat}
    (hnn : g.NonNeg INF) (hK : K < g.vertex_count) :
    ∀ (is : List Nat) (S : Nat → Nat → Prop) (dist path : List (List Int)),
    (∀ i ∈ is, i < g.vertex_count) → g.FloydInv INF K S dist →
    g.FloydInv INF K (fun a b => S a b ∨ (a ∈ is ∧ b < g.vertex_count))
      (MatrixGraph.floyd_phase INF g.vertex_count K is (dist, path)).1 := by
  intro is
  induction is with
  | nil =>
    intro S dist path _ h
    refine MatrixGraph.FloydInv.weaken (S := S) h ?_
    rintro a b (hS | ⟨ha, _⟩)
    · exact hS
    · simp at ha
  | cons i is ih =>
    intro S dist path his h
    have h1 := MatrixGraph.FloydInv.row hnn hK (his i (List.mem_cons_self _ _))
      (List.range g.vertex_count) S dist path (fun j hj => List.mem_range.mp hj) h
    have h2 := ih _ _ (MatrixGraph.floyd_row INF K i (List.range g.vertex_count) (dist, path)).2
      (fun b hb => his b (List.mem_cons_of_mem _ hb)) h1
    unfold MatrixGraph.floyd_phase at h2 ⊢
    rw [List.foldl_cons]
    refine h2.weaken ?_
    rintro a b (hS | ⟨ha, hb⟩)
    · exact Or.inl (Or.inl hS)
    · rcases List.mem_cons.mp ha with ha | ha
      · exact Or.inl (Or.inr ⟨ha, List.mem_range.mpr hb⟩)
      · exact Or.inr ⟨ha, hb⟩

theorem MatrixGraph.FloydInv.next {INF : Int} {g : MatrixGraph} {K : Nat}
    {dist : List (List Int)}
    (h : g.FloydInv INF K (fun a b => False ∨ (a ∈ List.range g.vertex_count ∧
      b < g.vertex_count)) dist) :
    g.FloydInv INF (K + 1) (fun _ _ => False) dist :=
  ⟨h.shape, h.le_inf, h.nonneg, h.diag, h.sound,
    fun a b w hw => h.done a b w (Or.inr ⟨List.mem_range.mpr hw.lt_left, hw.lt_right⟩) hw,
    fun _ _ _ hS _ => absurd hS not_false⟩

theorem MatrixGraph.FloydInv.loop {INF : Int} {g : MatrixGraph} (hnn : g.NonNeg INF) :
    ∀ (len K : Nat) (dist path : List (List Int)), K + len ≤ g.vertex_count →
    g.FloydInv INF K (fun _ _ => False) dist →
    g.FloydInv INF (K + len) (fun _ _ => False)
      (MatrixGraph.floyd_loop INF g.vertex_count (List.range' K len) (dist, path)).1 := by
  intro len
  induction len with
  | zero =>
    intro K dist path _ h
    exact h
  | succ len ih =>
    intro K dist path hK h
    have h1 := (MatrixGraph.FloydInv.phase hnn (by omega : K < g.vertex_count)
      (List.range g.vertex_count) _ dist path (fun i hi => List.mem_range.mp hi) h).next
    have h2 := ih (K + 1) _
      (MatrixGraph.floyd_phase INF g.vertex_count K (List.range g.vertex_count) (dist, path)).2
      (by omega) h1
    unfold MatrixGraph.floyd_loop at h2 ⊢
    rw [List.range'_succ, List.foldl_cons]
    have e : K + (len + 1) = K + 1 + len := by omega
    rw [e]
    exact h2

theorem MatrixGraph.floyd_init_get (INF : Int) (g : MatrixGraph) (i j : Nat) :
    mat_get INF (g.floyd_init_dist INF) i j =
      if i < g.vertex_count ∧ j < g.vertex_count then
        (if i = j then 0 else g.cell INF i j)
      else INF := by
  unfold mat_get MatrixGraph.floyd_init_dist
  by_cases hi : i < g.vertex_count
  · by_cases hj : j < g.vertex_count
    · rw [if_pos ⟨hi, hj⟩]
      simp only [List.getD_eq_getElem?_getD, List.getElem?_map, List.getElem?_range hi,
        List.getElem?_range hj, Option.map_some', Option.getD_some]
      by_cases e : i = j
      · rw [if_pos e, if_pos e]
      · rw [if_neg e, if_neg e]
        by_cases c : g.cell INF i j = INF
        · simp [c]
        · simp [c]
    · rw [if_neg (fun h => hj h.2)]
      have hr : (List.range g.vertex_count)[j]? = none :=
        List.getElem?_eq_none (by rw [List.length_range]; omega)
      simp only [List.getD_eq_getElem?_getD, List.getElem?_map, List.getElem?_range hi,
        Option.map_some', Option.getD_some, hr, Option.map_none', Option.getD_none]
  · rw [if_neg (fun h => hi h.1)]
    have hr : (List.range g.vertex_count)[i]? = none :=
      List.getElem?_eq_none (by rw [List.length_range]; omega)
    simp only [List.getD_eq_getElem?_getD, List.getElem?_map, hr, Option.map_none',
      Option.getD_none, List.getElem?_nil]

theorem MatrixGraph.floyd_init_inv (INF : Int) (g : MatrixGraph) (hINF : 0 < INF)
    (hnn : g.NonNeg INF) (hb : g.Bounded INF) :
    g.FloydInv INF 0 (fun _ _ => False) (g.floyd_init_dist INF) := by
  refine ⟨⟨by simp [MatrixGraph.floyd_init_dist], ?_⟩, ?_, ?_, ?_, ?_, ?_,
    fun _ _ _ hS _ => absurd hS not_false⟩
  · intro row hrow
    simp only [MatrixGraph.floyd_init_dist, List.mem_map] at hrow
    obtain ⟨i, _, rfl⟩ := hrow
    simp
  · intro i j
    rw [g.floyd_init_get]
    split_ifs
    · exact le_of_lt hINF
    · exact hb i j
    · exact le_refl _
  · intro i j
    rw [g.floyd_init_get]
    split_ifs with h1 h2
    · exact le_refl _
    · by_cases c : g.cell INF i j = INF
      · rw [c]; exact le_of_lt hINF
      · exact hnn i j h1.1 h1.2 c
    · exact le_of_lt hINF
  · intro i hi
    rw [g.floyd_init_get, if_pos ⟨hi, hi⟩, if_pos rfl]
  · intro i j hi hj hlt
    rw [g.floyd_init_get, if_pos ⟨hi, hj⟩] at hlt ⊢
    by_cases e : i = j
    · exact Or.inl e
    · rw [if_neg e] at hlt ⊢
      exact Or.inr (.single ⟨hi, hj, ne_of_lt hlt⟩)
  · intro i j w hw
    cases hw with
    | single hadj =>
      rw [g.floyd_init_get, if_pos ⟨hadj.1, hadj.2.1⟩]
      split_ifs
      · exact hnn i j hadj.1 hadj.2.1 hadj.2.2
      · exact le_refl _
    | cons _ hx _ => exact absurd hx (Nat.not_lt_zero _)

/-- What `MatrixGraph_Floyd` computes on a graph with non-negative weights bounded by
a positive sentinel: every entry is at most the sentinel and at most the weight of
each path, the diagonal is 0, and an entry below the sentinel is the weight of a
path. -/
theorem MatrixGraph_Floyd_spec (INF : Int) (g : MatrixGraph) (hINF : 0 < INF)
    (hnn : g.NonNeg INF) (hb : g.Bounded INF) (hn : g.vertex_count ≠ 0) :
    ∃ dist path, MatrixGraph_Floyd INF g = ⟨true, dist, path⟩ ∧
      mat_square g.vertex_count dist ∧
      (∀ i j, mat_get INF dist i j ≤ INF) ∧
      (∀ i, i < g.vertex_count → mat_get INF dist i i = 0) ∧
      (∀ i j p, g.IsWalk INF i j p → i < g.vertex_count →
        mat_get INF dist i j ≤ g.walkWeight INF p) ∧
      (∀ i j, i < g.vertex_count → j < g.vertex_count → mat_get INF dist i j < INF →
        ∃ p, g.IsWalk INF i j p ∧ g.walkWeight INF p = mat_get INF dist i j) := by
  have h := MatrixGraph.FloydInv.loop hnn g.vertex_count 0 (g.floyd_init_dist INF)
    g.floyd_init_path (by omega) (g.floyd_init_inv INF hINF hnn hb)
  rw [Nat.zero_add, ← List.range_eq_range'] at h
  refine ⟨_, (MatrixGraph.floyd_loop INF g.vertex_count (List.range g.vertex_count)
    (g.floyd_init_dist INF, g.floyd_init_path)).2, ?_, h.shape, h.le_inf, h.diag, ?_, ?_⟩
  · unfold MatrixGraph_Floyd
    rw [if_neg hn]
  · intro i j p hp hi
    rcases hp.walkVia with ⟨h1, h2⟩ | h1
    · rw [h1, ← h2, h.diag i hi]
      simp [MatrixGraph.walkWeight]
    · exact h.via i j _ h1
  · intro i j hi hj hlt
    rcases h.sound i j hi hj hlt with e | hw
    · subst e
      exact ⟨[i], ⟨rfl, rfl, rfl⟩, by rw [h.diag i hi]; simp [MatrixGraph.walkWeight]⟩
    · exact hw.toList

theorem MatrixGraph.cell_eq_or_mem (INF : Int) (g : MatrixGraph) (u v : Nat) :
    g.cell INF u v = INF ∨ ∃ row ∈ g.matrix, g.cell INF u v ∈ row := by
  unfold MatrixGraph.cell
  by_cases hu : u < g.matrix.length
  · by_cases hv : v < (g.matrix.getD u []).length
    · right
      refine ⟨g.matrix.getD u [], ?_, ?_⟩
      · rw [List.getD_eq_getElem _ _ hu]; exact List.getElem_mem _
      · rw [List.getD_eq_getElem _ _ hv]; exact List.getElem_mem _
    · left; exact List.getD_eq_default _ _ (by omega)
  · left
    rw [List.getD_eq_default g.matrix [] (by omega)]
    rfl

theorem MatrixGraph.nonNeg_of_entries (INF : Int) (g : MatrixGraph)
    (h : ∀ row ∈ g.matrix, ∀ x ∈ row, x ≠ INF → 0 ≤ x) : g.NonNeg INF := by
  intro u v _ _ hc
  rcases g.cell_eq_or_mem INF u v with h1 | ⟨row, hrow, hx⟩
  · exact absurd h1 hc
  · exact h row hrow _ hx hc

theorem MatrixGraph.bounded_of_entries (INF : Int) (g : MatrixGraph)
    (h : ∀ row ∈ g.matrix, ∀ x ∈ row, x ≤ INF) : g.Bounded INF := by
  intro u v
  rcases g.cell_eq_or_mem INF u v with h1 | ⟨row, hrow, hx⟩
  · rw [h1]
  · exact h row hrow _ hx

theorem foldl_fixed {α β : Type} (f : α → β → α) (s : α) (h : ∀ x, f s x = s) :
    ∀ l : List β, List.foldl f s l = s
  | [] => rfl
  | x :: l => by
    rw [List.foldl_cons, h x]
    exact foldl_fixed f s h l

/-- With a sentinel that is not positive, a graph whose weights are non-negative and
not above the sentinel has no edge. -/
theorem MatrixGraph.cell_eq_of_nonpos {INF : Int} {g : MatrixGraph} (hINF : INF ≤ 0)
    (hnn : g.NonNeg INF) (hb : g.Bounded INF) (u v : Nat) (hu : u < g.vertex_count)
    (hv : v < g.vertex_count) : g.cell INF u v = INF := by
  by_contra hc
  have h1 := hnn u v hu hv hc
  have h2 := hb u v
  omega

theorem MatrixGraph.floyd_init_get_nonpos {INF : Int} {g : MatrixGraph} (hINF : INF ≤ 0)
    (hnn : g.NonNeg INF) (hb : g.Bounded INF) (i j : Nat) :
    (mat_get INF (g.floyd_init_dist INF) i j = 0 ∧ i = j) ∨
      mat_get INF (g.floyd_init_dist INF) i j = INF := by
  rw [g.floyd_init_get]
  split_ifs with h1 h2
  · exact Or.inl ⟨rfl, h2⟩
  · exact Or.inr (MatrixGraph.cell_eq_of_nonpos hINF hnn hb i j h1.1 h1.2)
  · exact Or.inr rfl

theorem MatrixGraph.floyd_step_nonpos {INF : Int} {g : MatrixGraph} (hINF : INF ≤ 0)
    (hnn : g.NonNeg INF) (hb : g.Bounded INF) (k i j : Nat)
    (s : List (List Int) × List (List Int)) (hs : s.1 = g.floyd_init_dist INF) :
    MatrixGraph.floyd_step INF k i j s = s := by
  unfold MatrixGraph.floyd_step
  rw [if_neg]
  rw [hs]
  rintro ⟨c1, c2, c3⟩
  rcases MatrixGraph.floyd_init_get_nonpos hINF hnn hb i k with ⟨e1, _⟩ | e1
  · rcases MatrixGraph.floyd_init_get_nonpos hINF hnn hb k j with ⟨e2, _⟩ | e2
    · rcases MatrixGraph.floyd_init_get_nonpos hINF hnn hb i j with ⟨e3, _⟩ | e3
      · omega
      · omega
    · exact c2 e2
  · exact c1 e1

/-- With a sentinel that is not positive, `MatrixGraph_Floyd` on a graph whose weights
are non-negative and not above the sentinel returns what the initialisation wrote. -/
theorem MatrixGraph_Floyd_nonpos (INF : Int) (g : MatrixGraph) (hINF : INF ≤ 0)
    (hnn : g.NonNeg INF) (hb : g.Bounded INF) (hn : g.vertex_count ≠ 0) :
    MatrixGraph_Floyd INF g = ⟨true, g.floyd_init_dist INF, g.floyd_init_path⟩ := by
  have hrow : ∀ k i (js : List Nat) (s : List (List Int) × List (List Int)),
      s.1 = g.floyd_init_dist INF → MatrixGraph.floyd_row INF k i js s = s :=
    fun k i js s hs =>
      foldl_fixed _ s (fun j => MatrixGraph.floyd_step_nonpos hINF hnn hb k i j s hs) js
  have hphase : ∀ n k (is : List Nat) (s : List (List Int) × List (List Int)),
      s.1 = g.floyd_init_dist INF → MatrixGraph.floyd_phase INF n k is s = s :=
    fun n k is s hs => foldl_fixed _ s (fun i => hrow k i _ s hs) is
  have hloop : ∀ n (ks : List Nat) (s : List (List Int) × List (List Int)),
      s.1 = g.floyd_init_dist INF → MatrixGraph.floyd_loop INF n ks s = s :=
    fun n ks s hs => foldl_fixed _ s (fun k => hphase n k _ s hs) ks
  unfold MatrixGraph_Floyd
  rw [if_neg hn]
  simp only []
  rw [hloop _ _ _ rfl]

/-- Counterexample to C6 as stated. On `steep_graph` (sentinel 99, the single edge
0 → 1 of weight 150, so no weight is negative) `MatrixGraph_Floyd` writes
`dist[0][1] = 150`, the stored weight, while `MatrixGraph_Dijkstra` started at vertex 0
writes `dist[1] = 99`, the sentinel: the relaxation `0 + 150 < 99` does not hold. -/
theorem MatrixGraph_Floyd_steep_graph :
    steep_graph.NonNeg 99 ∧ 0 < steep_graph.vertex_count ∧ 1 < steep_graph.vertex_count ∧
    MatrixGraph_Floyd 99 steep_graph = ⟨true, [[0, 150], [99, 0]], [[-1, -1], [-1, -1]]⟩ ∧
    MatrixGraph_Dijkstra 99 steep_graph 0 = ⟨true, [0, 99], [-1, -1]⟩ ∧
    mat_get 99 (MatrixGraph_Floyd 99 steep_graph).dist 0 1 = 150 ∧
    (MatrixGraph_Dijkstra 99 steep_graph 0).dist.getD 1 99 = 99 ∧
    mat_get 99 (MatrixGraph_Floyd 99 steep_graph).dist 0 1 ≠
      (MatrixGraph_Dijkstra 99 steep_graph 0).dist.getD 1 99 := by
  refine ⟨MatrixGraph.nonNeg_of_entries 99 steep_graph (by decide), by decide, by decide,
    by decide, by decide, by decide, by decide, by decide⟩

/-- C6, amended. Cross-algorithm agreement: for every graph whose stored weights are
non-negative and not above the infinity sentinel, and every pair of vertices `i`, `j`
in range, `MatrixGraph_Floyd` and `MatrixGraph_Dijkstra` with start vertex `i` both
succeed, and the entry `dist[i][j]` written by the first equals the entry `dist[j]`
written by the second. -/
theorem MatrixGraph_Floyd_agrees_with_Dijkstra (INF : Int) (g : MatrixGraph) (i j : Nat)
    (hnn : g.NonNeg INF) (hb : g.Bounded INF)
    (hi : i < g.vertex_count) (hj : j < g.vertex_count) :
    ∃ fdist fpath ddist dpath,
      MatrixGraph_Floyd INF g = ⟨true, fdist, fpath⟩ ∧
      MatrixGraph_Dijkstra INF g (i : Int) = ⟨true, ddist, dpath⟩ ∧
      mat_square g.vertex_count fdist ∧ ddist.length = g.vertex_count ∧
      mat_get INF fdist i j = ddist.getD j INF := by
  by_cases hINF : 0 < INF
  · obtain ⟨fd, fp, hf, hshape, hfle, _, hfmin, hfwalk⟩ :=
      MatrixGraph_Floyd_spec INF g hINF hnn hb (by omega)
    obtain ⟨dd, dp, hd, hdlen, _, _, hdle, hdmin, hdroute, _⟩ :=
      MatrixGraph_Dijkstra_spec INF g (i : Int) hINF hnn ⟨by omega, by omega⟩
    rw [Int.toNat_ofNat] at hdmin hdroute
    refine ⟨fd, fp, dd, dp, hf, hd, hshape, hdlen, ?_⟩
    have h1 : dd.getD j INF < INF → mat_get INF fd i j ≤ dd.getD j INF := by
      intro hlt
      obtain ⟨r, _, hr, hrw⟩ := hdroute j hlt
      rw [← hrw]
      exact hfmin i j r hr hi
    have h2 : mat_get INF fd i j < INF → dd.getD j INF ≤ mat_get INF fd i j := by
      intro hlt
      obtain ⟨p, hp, hpw⟩ := hfwalk i j hi hj hlt
      rw [← hpw]
      exact hdmin j p hp
    have h3 := hfle i j
    have h4 := hdle j
    by_cases c1 : dd.getD j INF < INF
    · have := h1 c1
      have := h2 (by omega)
      omega
    · by_cases c2 : mat_get INF fd i j < INF
      · have := h2 c2
        omega
      · omega
  · have hINF' : INF ≤ 0 := by omega
    obtain ⟨hd, hdv⟩ := MatrixGraph_Dijkstra_nonpos INF g (i : Int) hINF' hnn
      ⟨by omega, by omega⟩
    rw [Int.toNat_ofNat] at hd hdv
    refine ⟨_, _, _, _, MatrixGraph_Floyd_nonpos INF g hINF' hnn hb (by omega), hd,
      ⟨by simp [MatrixGraph.floyd_init_dist], ?_⟩, by simp, ?_⟩
    · intro row hrow
      simp only [MatrixGraph.floyd_init_dist, List.mem_map] at hrow
      obtain ⟨a, _, rfl⟩ := hrow
      simp
    · rw [hdv, g.floyd_init_get, if_pos ⟨hi, hj⟩]
      by_cases e : i = j
      · rw [if_pos e, if_pos e.symm]
      · rw [if_neg e, if_neg (fun h => e h.symm)]
        exact MatrixGraph.cell_eq_of_nonpos hINF' hnn hb i j hi hj

set_option maxRecDepth 100000 in
/-- Witness for the amended C6, the example of the design document: on the graph with
the edges 0 → 1 (1), 1 → 2 (2), 0 → 2 (10), `MatrixGraph_Floyd` gives `dist[0][2] = 3`,
the entry `dist[2]` of `MatrixGraph_Dijkstra` started at vertex 0. -/
theorem MatrixGraph_Floyd_agrees_with_Dijkstra_witness :
    (∃ fdist fpath ddist dpath,
      MatrixGraph_Floyd 99 example_graph = ⟨true, fdist, fpath⟩ ∧
      MatrixGraph_Dijkstra 99 example_graph ((0 : Nat) : Int) = ⟨true, ddist, dpath⟩ ∧
      mat_square example_graph.vertex_count fdist ∧
      ddist.length = example_graph.vertex_count ∧
      mat_get 99 fdist 0 2 = ddist.getD 2 99) ∧
    mat_get 99 (MatrixGraph_Floyd 99 example_graph).dist 0 2 = 3 ∧
    (MatrixGraph_Dijkstra 99 example_graph 0).dist.getD 2 99 = 3 :=
  ⟨MatrixGraph_Floyd_agrees_with_Dijkstra 99 example_graph 0 2
      (MatrixGraph.nonNeg_of_entries 99 example_graph (by decide))
      (MatrixGraph.bounded_of_entries 99 example_graph (by decide))
      (by decide) (by decide),
    by decide, by decide⟩

/-! ### ArrayStack.c: the capacity -/

/-- On a well-formed stack the size is at most 256 and counts the stored items. -/
theorem ArrayStack.WF.stack_size_le {s : ArrayStack} (hwf : s.WF) :
    ArrayStack_Size s ≤ 256 := by
  obtain ⟨_, _, hhi⟩ := hwf
  unfold ArrayStack.MAX_CAPACITY at hhi
  unfold ArrayStack_Size
  omega

/-- A stack whose `top` is the last index of a 256-cell array is well formed. -/
theorem ArrayStack_full_wf (x : ArrayStackItem) :
    ArrayStack.WF { data := List.replicate 256 x, top := 255 } := by
  refine ⟨?_, by show (-1 : Int) ≤ 255; decide, by show (255 : Int) < 256; decide⟩
  show ((List.replicate 256 x).length : Int) = 256
  rw [List.length_replicate]; rfl

/-- C11. `ArrayStack` has the fixed capacity 256. For every well-formed stack `s` (its
size is the number of stored items) and every item `x`: `ArrayStack_Push` stops with
the full-container error exactly when the stack holds 256 items; no other failure
occurs, and a failing push leaves the stack as it was; and when the stack holds fewer
than 256 items the push succeeds, the size grows by exactly 1 and the items are the
old ones followed by `x`. -/
theorem ArrayStack_Push_capacity (s : ArrayStack) (x : ArrayStackItem) (hwf : s.WF) :
    ArrayStack_Size s = s.items.length ∧
    ((ArrayStack_Push s x).1 = .error .full ↔ ArrayStack_Size s = 256) ∧
    (∀ e, (ArrayStack_Push s x).1 = .error e → e = .full ∧ (ArrayStack_Push s x).2 = s) ∧
    (ArrayStack_Size s < 256 →
      (ArrayStack_Push s x).1 = .ok () ∧
      ArrayStack_Size (ArrayStack_Push s x).2 = ArrayStack_Size s + 1 ∧
      (ArrayStack_Push s x).2.items = s.items ++ [x] ∧
      (ArrayStack_Push s x).2.WF) := by
  have hle := hwf.stack_size_le
  have hfull : ArrayStack_Size s = 256 →
      ArrayStack_Push s x = (.error .full, s) := by
    intro h
    unfold ArrayStack_Push check_full ArrayStack.MAX_CAPACITY
    have h1 : ArrayStack_Size s ≥ 256 := by omega
    simp only [h1, if_true]
  refine ⟨hwf.stack_size_eq, ?_, ?_, ?_⟩
  · constructor
    · intro h
      by_contra hne
      have hlt : ArrayStack_Size s < 256 := by omega
      rw [(ArrayStack_Push_spec s x hwf hlt).1] at h
      exact absurd h (by simp)
    · intro h
      rw [hfull h]
  · intro e he
    by_cases hlt : ArrayStack_Size s < 256
    · rw [(ArrayStack_Push_spec s x hwf hlt).1] at he
      exact absurd he (by simp)
    · have h : ArrayStack_Size s = 256 := by omega
      rw [hfull h] at he ⊢
      simp only [Except.error.injEq] at he
      exact ⟨he.symm, rfl⟩
  · intro hlt
    obtain ⟨hpush, hwf1, hitems1⟩ := ArrayStack_Push_spec s x hwf hlt
    rw [hpush]
    refine ⟨rfl, ?_, hitems1, hwf1⟩
    show s.top + 1 + 1 = s.top + 1 + 1
    rfl

/-- Witness for C11: a push on the stack holding 256 items fails with the
full-container error and changes nothing; a push on the fresh stack succeeds and makes
the size 1. -/
theorem ArrayStack_Push_capacity_witness :
    ((ArrayStack_Push { data := List.replicate 256 0, top := 255 } 7).1 = .error .full ∧
      (ArrayStack_Push { data := List.replicate 256 0, top := 255 } 7).2 =
        { data := List.replicate 256 0, top := 255 }) ∧
    ((ArrayStack_Push ArrayStack_Create 7).1 = .ok () ∧
      ArrayStack_Size (ArrayStack_Push ArrayStack_Create 7).2 = 1) :=
  have hf := ArrayStack_Push_capacity { data := List.replicate 256 0, top := 255 } 7
    (ArrayStack_full_wf 0)
  have he := ArrayStack_Push_capacity ArrayStack_Create 7 ArrayStack_Create_wf
  have h1 := hf.2.1.2 (by decide)
  have h2 := he.2.2.2 (by decide)
  ⟨⟨h1, (hf.2.2.1 _ h1).2⟩, h2.1, h2.2.1⟩

/-! ### LinkedQueue.c: `LinkedQueue_Front` -/

/-- C19. `LinkedQueue_Front` peeks without removing. For every well-formed queue that
stores `x :: items` (oldest first, so the queue is not empty and `x` is its oldest
item), `LinkedQueue_Front` returns `x` and leaves the queue exactly as it was: the same
items and the same size; and `LinkedQueue_Dequeue` called right after it returns the
same `x`. -/
theorem LinkedQueue_Front_peeks (q : LinkedQueue) (items : List LinkedQueueItem)
    (x : LinkedQueueItem) (hrep : q.Rep (x :: items)) :
    (LinkedQueue_Front q).1 = .ok x ∧
    (LinkedQueue_Front q).2 = q ∧
    (LinkedQueue_Front q).2.Rep (x :: items) ∧
    LinkedQueue_Size (LinkedQueue_Front q).2 = LinkedQueue_Size q ∧
    LinkedQueue_Size (LinkedQueue_Front q).2 = (x :: items).length ∧
    (LinkedQueue_Dequeue (LinkedQueue_Front q).2).1 = .ok x := by
  obtain ⟨q', hq, _⟩ := LinkedQueue_Dequeue_rep q items x hrep
  rw [LinkedQueue_Front_rep q items x hrep]
  exact ⟨rfl, rfl, hrep, rfl, hrep.queue_size_eq, by rw [hq]⟩

/-- Witness for C19: the queue obtained by enqueuing 1, 2, 3, 4, 5 on a fresh queue has
front 1 and still has size 5 after the call. -/
theorem LinkedQueue_Front_peeks_witness :
    (LinkedQueue_Front (LinkedQueue_EnqueueAll LinkedQueue_Create [1, 2, 3, 4, 5]).2).1
      = .ok 1 ∧
    LinkedQueue_Size
      (LinkedQueue_Front (LinkedQueue_EnqueueAll LinkedQueue_Create [1, 2, 3, 4, 5]).2).2
      = 5 := by
  obtain ⟨q', hq, hrep⟩ := LinkedQueue_EnqueueAll_rep [1, 2, 3, 4, 5] LinkedQueue_Create []
    LinkedQueue_Create_rep (by decide)
  rw [hq]
  have h := LinkedQueue_Front_peeks q' [2, 3, 4, 5] 1 (by simpa using hrep)
  exact ⟨h.1, by rw [h.2.2.2.2.1]; rfl⟩

/-! ### MatrixGraph: the result flag of Dijkstra -/

theorem ArrayList.reverse_loop_spec {T : Type} : ∀ (fuel i k : Nat) (data : List T),
    i + k ≤ data.length → k ≤ 2 * fuel →
    ∃ r, ArrayList.reverse_loop fuel (i : Int) (((i + k : Nat) : Int) - 1) data = .ok r ∧
      r.length = data.length ∧
      ∀ m, r[m]? = if i ≤ m ∧ m < i + k then data[2 * i + k - 1 - m]? else data[m]?
  | 0, i, k, data, _, hk => by
    have hk0 : k = 0 := by omega
    subst hk0
    refine ⟨data, ?_, rfl, fun m => ?_⟩
    · have hn : ¬ ((i : Int) < ((i + 0 : Nat) : Int) - 1) := by push_cast; omega
      rw [ArrayList.reverse_loop, if_neg hn]
    · have : ¬ (i ≤ m ∧ m < i + 0) := by omega
      rw [if_neg this]
  | fuel + 1, i, k, data, hlen, hk => by
    by_cases hk1 : k ≤ 1
    · refine ⟨data, ?_, rfl, fun m => ?_⟩
      · have hn : ¬ ((i : Int) < ((i + k : Nat) : Int) - 1) := by push_cast; omega
        rw [ArrayList.reverse_loop, if_neg hn]
      · by_cases hm : i ≤ m ∧ m < i + k
        · have : 2 * i + k - 1 - m = m := by omega
          rw [if_pos hm, this]
        · rw [if_neg hm]
    · have hlt : (i : Int) < ((i + k : Nat) : Int) - 1 := by push_cast; omega
      have hj : ((i + k : Nat) : Int) - 1 = ((i + k - 1 : Nat) : Int) := by omega
      have hi1 : (i : Int) + 1 = ((i + 1 : Nat) : Int) := by push_cast; rfl
      have hj1 : ((i + k - 1 : Nat) : Int) - 1 = (((i + 1) + (k - 2) : Nat) : Int) - 1 := by
        omega
      have hil : i < data.length := by omega
      have hjl : i + k - 1 < data.length := by omega
      obtain ⟨r, hrun, hlen', hget⟩ := ArrayList.reverse_loop_spec fuel (i + 1) (k - 2)
        ((data.set i data[i + k - 1]).set (i + k - 1) data[i])
        (by rw [List.length_set, List.length_set]; omega) (by omega)
      refine ⟨r, ?_, by rw [hlen', List.length_set, List.length_set], fun m => ?_⟩
      · rw [ArrayList.reverse_loop, if_pos hlt, hj, arr_get_of_lt data i hil]
        simp only []
        rw [arr_get_of_lt data (i + k - 1) hjl]
        simp only []
        rw [arr_set_of_lt data i _ hil]
        simp only []
        rw [arr_set_of_lt _ (i + k - 1) _ (by rw [List.length_set]; exact hjl)]
        simp only []
        rw [hi1, hj1]
        exact hrun
      · rw [hget m]
        simp only [List.getElem?_set, List.length_set]
        by_cases h1 : i + 1 ≤ m ∧ m < i + 1 + (k - 2)
        · have h2 : i ≤ m ∧ m < i + k := by omega
          have h3 : ¬ (i + k - 1 = 2 * (i + 1) + (k - 2) - 1 - m) := by omega
          have h4 : ¬ (i = 2 * (i + 1) + (k - 2) - 1 - m) := by omega
          have h5 : 2 * (i + 1) + (k - 2) - 1 - m = 2 * i + k - 1 - m := by omega
          rw [if_pos h1, if_pos h2, if_neg h3, if_neg h4, h5]
        · rw [if_neg h1]
          by_cases h6 : m = i + k - 1
          · subst h6
            have h2 : i ≤ i + k - 1 ∧ i + k - 1 < i + k := by omega
            have h5 : 2 * i + k - 1 - (i + k - 1) = i := by omega
            rw [if_pos rfl, if_pos hjl, if_pos h2, h5, List.getElem?_eq_getElem hil]
          · have h3 : ¬ (i + k - 1 = m) := fun e => h6 e.symm
            rw [if_neg h3]
            by_cases h7 : m = i
            · subst h7
              have h2 : m ≤ m ∧ m < m + k := by omega
              have h5 : 2 * m + k - 1 - m = m + k - 1 := by omega
              rw [if_pos rfl, if_pos hil, if_pos h2, h5, List.getElem?_eq_getElem hjl]
            · have h4 : ¬ (i = m) := fun e => h7 e.symm
              have h2 : ¬ (i ≤ m ∧ m < i + k) := by omega
              rw [if_neg h4, if_neg h2]

theorem reverse_contents {T : Type} (data r : List T) (size : Nat) (hsize : size ≤ data.length)
    (hlen : r.length = data.length)
    (hget : ∀ m, r[m]? = if 0 ≤ m ∧ m < 0 + size then data[2 * 0 + size - 1 - m]? else data[m]?) :
    r.take size = (data.take size).reverse := by
  apply List.ext_getElem?
  intro m
  rw [List.getElem?_take, hget m]
  by_cases h : m < size
  · have h1 : 0 ≤ m ∧ m < 0 + size := by omega
    have h2 : m < (data.take size).length := by rw [List.length_take]; omega
    rw [if_pos h, if_pos h1, List.getElem?_reverse h2, List.length_take, List.getElem?_take]
    have h3 : min size data.length - 1 - m < size := by omega
    have h4 : 2 * 0 + size - 1 - m = min size data.length - 1 - m := by omega
    rw [if_pos h3, h4]
  · have h2 : (data.take size).reverse.length ≤ m := by
      rw [List.length_reverse, List.length_take]; omega
    rw [if_neg h, List.getElem?_eq_none h2]

/-- The effect of `ArrayList::reverse` on a well-formed list. -/
theorem ArrayList.reverse_spec {T : Type} (self : ArrayList T) (hwf : self.WF) :
    ∃ self', self.reverse = (.ok (), self') ∧ self'.WF ∧
      self'.contents = self.contents.reverse ∧ self'.size_ = self.size_ ∧
      self'.capacity_ = self.capacity_ := by
  obtain ⟨h0, hle, hpos, hlen⟩ := hwf
  obtain ⟨size, hsize⟩ : ∃ size : Nat, self.size_ = size := ⟨self.size_.toNat, by omega⟩
  obtain ⟨r, hrun, hlen', hget⟩ :=
    ArrayList.reverse_loop_spec size 0 size self.data_ (by omega) (by omega)
  refine ⟨{ self with data_ := r }, ?_, ⟨h0, hle, hpos, ?_⟩, ?_, rfl, rfl⟩
  · unfold ArrayList.reverse
    have e1 : self.size_.toNat = size := by omega
    have e2 : self.size_ - 1 = ((0 + size : Nat) : Int) - 1 := by omega
    rw [e1, e2]
    have e3 : (0 : Int) = ((0 : Nat) : Int) := rfl
    rw [e3, hrun]
  · show ((r.length : Nat) : Int) = self.capacity_
    rw [hlen', hlen]
  · unfold ArrayList.contents
    show List.take self.size_.toNat r = _
    have e1 : self.size_.toNat = size := by omega
    rw [e1]
    exact reverse_contents self.data_ r size (by omega) hlen' hget

/-! ### ArrayList.hpp: access, examination, comparison -/

/-- The index characterised as "no occurrence before it, and an occurrence at it unless
it is the length" is `List.indexOf`. -/
theorem first_index_eq_indexOf {T : Type} [DecidableEq T] (e : T) : ∀ (xs : List T) (r : Nat),
    r ≤ xs.length → (∀ j, j < r → xs[j]? ≠ some e) → (r < xs.length → xs[r]? = some e) →
    r = xs.indexOf e
  | [], r, hr, _, _ => by simpa using hr
  | x :: xs, r, hr, hbefore, hat => by
    by_cases hx : x = e
    · subst hx
      rw [List.indexOf_cons_self]
      by_contra hne
      exact hbefore 0 (by omega) (List.getElem?_cons_zero)
    · rw [List.indexOf_cons_ne _ hx]
      cases r with
      | zero =>
        have := hat (by simp)
        simp only [List.getElem?_cons_zero, Option.some.injEq] at this
        exact absurd this hx
      | succ r =>
        have := first_index_eq_indexOf e xs r (by simpa using hr)
          (fun j hj => by simpa using hbefore (j + 1) (by omega))
          (fun h => by simpa using hat (by simpa using h))
        rw [this]

/-- The effect of `ArrayList::operator[]` on a well-formed list. -/
theorem ArrayList.operator_subscript_spec {T : Type} (self : ArrayList T) (index : Int)
    (hwf : self.WF) :
    ((index < 0 ∨ index ≥ self.size_) → self.operator_subscript index = (.error .bounds, self)) ∧
    (¬ (index < 0 ∨ index ≥ self.size_) →
      ∃ x, self.operator_subscript index = (.ok x, self) ∧
        self.contents[index.toNat]? = some x) := by
  obtain ⟨h0, hle, hpos, hlen⟩ := hwf
  constructor
  · intro h
    unfold ArrayList.operator_subscript check_bounds
    simp only [h, if_true]
  · intro h
    obtain ⟨n, rfl⟩ : ∃ n : Nat, index = n := ⟨index.toNat, by omega⟩
    have hn : n < self.data_.length := by omega
    refine ⟨self.data_[n], ?_, ?_⟩
    · unfold ArrayList.operator_subscript check_bounds
      simp only [h, if_false]
      rw [arr_get_of_lt self.data_ n hn]
    · unfold ArrayList.contents
      rw [Int.toNat_ofNat, List.getElem?_take, if_pos (by omega), List.getElem?_eq_getElem hn]

theorem std_find_spec {T : Type} [DecidableEq T] (data : List T) (n : Nat) (e : T)
    (hn : n ≤ data.length) : ∀ (fuel k : Nat), k + fuel = n →
    ∃ r : Nat, std_find data ⟨(n : Int)⟩ e fuel ⟨(k : Int)⟩ = .ok ⟨(r : Int)⟩ ∧ k ≤ r ∧ r ≤ n ∧
      (∀ j, k ≤ j → j < r → data[j]? ≠ some e) ∧ (r < n → data[r]? = some e)
  | 0, k, hk => by
    have hkn : k = n := by omega
    subst hkn
    refine ⟨k, ?_, le_refl _, le_refl _, fun j h1 h2 => by omega, fun h => by omega⟩
    rw [std_find, if_neg (by simp)]
  | fuel + 1, k, hk => by
    have hne : (⟨(k : Int)⟩ : ArrayList.Iterator) ≠ ⟨(n : Int)⟩ := by
      simp only [ne_eq, ArrayList.Iterator.mk.injEq, Nat.cast_inj]
      omega
    have hkl : k < data.length := by omega
    by_cases hx : data[k] = e
    · refine ⟨k, ?_, le_refl _, by omega, fun j h1 h2 => by omega, fun _ => ?_⟩
      · rw [std_find, if_pos hne]
        simp only []
        rw [arr_get_of_lt data k hkl]
        simp only [hx, if_true]
      · rw [List.getElem?_eq_getElem hkl, hx]
    · obtain ⟨r, hrun, h1, h2, h3, h4⟩ := std_find_spec data n e hn fuel (k + 1) (by omega)
      refine ⟨r, ?_, by omega, h2, fun j hj1 hj2 => ?_, h4⟩
      · rw [std_find, if_pos hne]
        simp only []
        rw [arr_get_of_lt data k hkl]
        simp only [hx, if_false]
        have e1 : (k : Int) + 1 = ((k + 1 : Nat) : Int) := by push_cast; rfl
        rw [e1]
        exact hrun
      · by_cases hjk : j = k
        · subst hjk
          rw [List.getElem?_eq_getElem hkl]
          simpa using hx
        · exact h3 j (by omega) hj2

/-- The effect of `ArrayList::find` on a well-formed list: the iterator returned sits at
the offset of the first occurrence, or at the size when there is none. -/
theorem ArrayList.find_spec {T : Type} [DecidableEq T] (self : ArrayList T) (e : T)
    (hwf : self.WF) :
    self.find e = (.ok ⟨(self.contents.indexOf e : Nat)⟩, self) := by
  obtain ⟨h0, hle, hpos, hlen⟩ := hwf
  obtain ⟨size, hsize⟩ : ∃ size : Nat, self.size_ = size := ⟨self.size_.toNat, by omega⟩
  have hsl : size ≤ self.data_.length := by omega
  obtain ⟨r, hrun, _, h2, h3, h4⟩ := std_find_spec self.data_ size e hsl size 0 (by omega)
  have hclen : self.contents.length = size := by
    unfold ArrayList.contents
    rw [List.length_take]; omega
  have hc : ∀ j, j < size → self.contents[j]? = self.data_[j]? := by
    intro j hj
    unfold ArrayList.contents
    rw [List.getElem?_take, if_pos (by omega)]
  have hr : r = self.contents.indexOf e := by
    apply first_index_eq_indexOf e self.contents r (by omega)
    · intro j hj
      rw [hc j (by omega)]
      exact h3 j (by omega) hj
    · intro h
      rw [hclen] at h
      rw [hc r h]
      exact h4 h
  unfold ArrayList.find ArrayList.begin ArrayList.end_
  have e1 : self.size_.toNat = size := by omega
  rw [e1, hsize]
  have e3 : (0 : Int) = ((0 : Nat) : Int) := rfl
  rw [e3, hrun, hr]

theorem ArrayList.operator_eq_loop_spec {T : Type} [DecidableEq T] (size : Nat) (a b : List T)
    (ha : size ≤ a.length) (hb : size ≤ b.length) : ∀ (fuel i : Nat), i + fuel = size →
    ∃ r, ArrayList.operator_eq_loop (size : Int) a b fuel (i : Int) = .ok r ∧
      (r = true ↔ ∀ m, i ≤ m → m < size → a[m]? = b[m]?)
  | 0, i, hi => by
    refine ⟨true, ?_, by simp only [true_iff]; intro m h1 h2; omega⟩
    have hn : ¬ ((i : Int) < (size : Int)) := by omega
    rw [ArrayList.operator_eq_loop, if_neg hn]
  | fuel + 1, i, hi => by
    have hlt : (i : Int) < (size : Int) := by omega
    have hia : i < a.length := by omega
    have hib : i < b.length := by omega
    have e1 : (i : Int) + 1 = ((i + 1 : Nat) : Int) := by push_cast; rfl
    by_cases hx : a[i] = b[i]
    · obtain ⟨r, hrun, hr⟩ := ArrayList.operator_eq_loop_spec size a b ha hb fuel (i + 1) (by omega)
      refine ⟨r, ?_, ?_⟩
      · rw [ArrayList.operator_eq_loop, if_pos hlt, arr_get_of_lt a i hia]
        simp only []
        rw [arr_get_of_lt b i hib]
        simp only [ne_eq, hx, not_true_eq_false, if_false]
        rw [e1]
        exact hrun
      · rw [hr]
        constructor
        · intro h m h1 h2
          by_cases hm : m = i
          · subst hm
            rw [List.getElem?_eq_getElem hia, List.getElem?_eq_getElem hib, hx]
          · exact h m (by omega) h2
        · intro h m h1 h2
          exact h m (by omega) h2
    · refine ⟨false, ?_, ?_⟩
      · rw [ArrayList.operator_eq_loop, if_pos hlt, arr_get_of_lt a i hia]
        simp only []
        rw [arr_get_of_lt b i hib]
        simp only [ne_eq, hx, not_false_eq_true, if_true]
      · simp only [Bool.false_eq_true, false_iff]
        intro h
        have := h i (le_refl _) (by omega)
        rw [List.getElem?_eq_getElem hia, List.getElem?_eq_getElem hib] at this
        exact hx (Option.some.inj this)

/-- The effect of `ArrayList::operator==` and `operator!=` on well-formed lists. -/
theorem ArrayList.operator_eq_spec {T : Type} [DecidableEq T] (a b : ArrayList T)
    (ha : a.WF) (hb : b.WF) :
    ∃ r, a.operator_eq b = .ok r ∧ a.operator_ne b = .ok (!r) ∧
      (r = true ↔ a.contents = b.contents) ∧
      (r = true ↔ a.size_ = b.size_ ∧
        ∀ m : Nat, (m : Int) < a.size_ → a.data_[m]? = b.data_[m]?) := by
  obtain ⟨ha0, hale, _, halen⟩ := ha
  obtain ⟨hb0, hble, _, hblen⟩ := hb
  obtain ⟨sa, hsa⟩ : ∃ sa : Nat, a.size_ = sa := ⟨a.size_.toNat, by omega⟩
  obtain ⟨sb, hsb⟩ : ∃ sb : Nat, b.size_ = sb := ⟨b.size_.toNat, by omega⟩
  have hca : a.contents = a.data_.take sa := by
    unfold ArrayList.contents; rw [hsa, Int.toNat_ofNat]
  have hcb : b.contents = b.data_.take sb := by
    unfold ArrayList.contents; rw [hsb, Int.toNat_ofNat]
  by_cases hs : a.size_ = b.size_
  · have hsab : sa = sb := by omega
    subst hsab
    obtain ⟨r, hrun, hr⟩ :=
      ArrayList.operator_eq_loop_spec sa a.data_ b.data_ (by omega) (by omega) sa 0 (by omega)
    have hrun' : a.operator_eq b = .ok r := by
      unfold ArrayList.operator_eq
      rw [if_neg (by simpa using hs)]
      have e1 : a.size_.toNat = sa := by omega
      have e3 : (0 : Int) = ((0 : Nat) : Int) := rfl
      rw [e1, hsa, e3, hrun]
    refine ⟨r, hrun', ?_, ?_, ?_⟩
    · unfold ArrayList.operator_ne
      rw [hrun']
    · rw [hr, hca, hcb]
      constructor
      · intro h
        apply List.ext_getElem?
        intro m
        rw [List.getElem?_take, List.getElem?_take]
        by_cases hm : m < sa
        · rw [if_pos hm, if_pos hm, h m (by omega) hm]
        · rw [if_neg hm, if_neg hm]
      · intro h m _ hm
        have := congrArg (fun l => l[m]?) h
        simp only [List.getElem?_take, if_pos hm] at this
        exact this
    · rw [hr]
      constructor
      · intro h
        exact ⟨hs, fun m hm => h m (by omega) (by omega)⟩
      · intro h m _ hm
        exact h.2 m (by omega)
  · refine ⟨false, ?_, ?_, ?_, ?_⟩
    · unfold ArrayList.operator_eq
      rw [if_pos (by simpa using hs)]
    · unfold ArrayList.operator_ne ArrayList.operator_eq
      rw [if_pos (by simpa using hs)]
    · simp only [Bool.false_eq_true, false_iff]
      intro h
      have := congrArg List.length h
      rw [hca, hcb, List.length_take, List.length_take] at this
      omega
    · simp only [Bool.false_eq_true, false_iff]
      intro h
      exact hs h.1

/-! ### SinglyLinkedList.hpp: chains of nodes -/

theorem NodeHeap.load_of_get {T : Type} {h : NodeHeap T} {a : Nat}
    {nd : SinglyLinkedList.Node T} (hget : h[a]? = some (some nd)) : h.load a = .ok nd := by
  unfold NodeHeap.load
  rw [hget]

theorem SinglyLinkedList.Seg.seg_congr {T : Type} {h h' : NodeHeap T} :
    ∀ {cells : List (Nat × T)} {p q : Option Nat},
    (∀ a ∈ cells.map Prod.fst, h'[a]? = h[a]?) →
    SinglyLinkedList.Seg h p cells q → SinglyLinkedList.Seg h' p cells q
  | [], _, _, _, hs => hs
  | (a, x) :: rest, _, _, hag, ⟨hp, nxt, hget, hrest⟩ =>
    ⟨hp, nxt, by rw [hag a (by simp)]; exact hget,
      SinglyLinkedList.Seg.seg_congr (fun b hb => hag b (by simp [List.mem_map] at hb ⊢; right; exact hb))
        hrest⟩

theorem SinglyLinkedList.Seg.seg_append {T : Type} {h : NodeHeap T} :
    ∀ {l1 l2 : List (Nat × T)} {p q : Option Nat},
    SinglyLinkedList.Seg h p (l1 ++ l2) q ↔
      ∃ m, SinglyLinkedList.Seg h p l1 m ∧ SinglyLinkedList.Seg h m l2 q
  | [], l2, p, q => by
    constructor
    · intro hs
      exact ⟨p, rfl, hs⟩
    · rintro ⟨m, hm, hs⟩
      have : p = m := hm
      subst this
      exact hs
  | (a, x) :: l1, l2, p, q => by
    constructor
    · rintro ⟨hp, nxt, hget, hrest⟩
      obtain ⟨m, h1, h2⟩ := SinglyLinkedList.Seg.seg_append.mp hrest
      exact ⟨m, ⟨hp, nxt, hget, h1⟩, h2⟩
    · rintro ⟨m, ⟨hp, nxt, hget, h1⟩, h2⟩
      exact ⟨hp, nxt, hget, SinglyLinkedList.Seg.seg_append.mpr ⟨m, h1, h2⟩⟩

theorem SinglyLinkedList.Seg.seg_lt_length {T : Type} {h : NodeHeap T} :
    ∀ {cells : List (Nat × T)} {p q : Option Nat},
    SinglyLinkedList.Seg h p cells q → ∀ a ∈ cells.map Prod.fst, a < h.length
  | [], _, _, _, a, ha => by simp at ha
  | (b, x) :: rest, _, _, ⟨_, nxt, hget, hrest⟩, a, ha => by
    simp only [List.map_cons, List.mem_cons] at ha
    rcases ha with rfl | ha
    · by_contra hn
      rw [List.getElem?_eq_none (by omega)] at hget
      exact absurd hget (by simp)
    · exact SinglyLinkedList.Seg.seg_lt_length hrest a ha

theorem SinglyLinkedList.advance_seg {T : Type} {h : NodeHeap T} :
    ∀ {l1 : List (Nat × T)} {p m : Option Nat},
    SinglyLinkedList.Seg h p l1 m → SinglyLinkedList.advance h l1.length p = .ok m
  | [], p, m, hs => by
    have : p = m := hs
    simp only [List.length_nil, SinglyLinkedList.advance, this]
  | (a, x) :: l1, p, m, ⟨hp, nxt, hget, hrest⟩ => by
    simp only [List.length_cons, SinglyLinkedList.advance, hp, NodeHeap.load_of_get hget]
    exact SinglyLinkedList.advance_seg hrest

/-- The memory of a well-formed list has more cells than the list has data nodes. -/
theorem SinglyLinkedList.RepCells.cells_length_lt {T : Type} {l : SinglyLinkedList T} {d : T}
    {cells : List (Nat × T)} (hrep : l.RepCells d cells) : cells.length < l.heap.length := by
  obtain ⟨hseg, hnd, _⟩ := hrep
  have := nodup_length_le_of_lt (l.header_ :: cells.map Prod.fst) l.heap.length hnd
    (fun v hv => SinglyLinkedList.Seg.seg_lt_length hseg v (by simpa using hv))
  simp only [List.length_cons, List.length_map] at this
  omega

theorem SinglyLinkedList.Rep.list_size_eq {T : Type} {l : SinglyLinkedList T} {xs : List T}
    (hrep : l.Rep xs) : l.size_ = xs.length := by
  obtain ⟨d, cells, rfl, hc⟩ := hrep
  rw [hc.2.2, List.length_map]

theorem split_at_index {α : Type} (l : List α) (n : Nat) (hn : n < l.length) :
    l = l.take n ++ l[n] :: l.drop (n + 1) ∧ (l.take n).length = n := by
  refine ⟨?_, by rw [List.length_take]; omega⟩
  rw [List.getElem_cons_drop, List.take_append_drop]

/-! ### SinglyLinkedList.hpp: access -/

/-- The effect of `SinglyLinkedList::access` on a well-formed list. -/
theorem SinglyLinkedList.access_spec {T : Type} (l : SinglyLinkedList T) (xs : List T)
    (index : Int) (hrep : l.Rep xs) :
    ((index < 0 ∨ index ≥ l.size_) → l.access index = (.error .bounds, l)) ∧
    (¬ (index < 0 ∨ index ≥ l.size_) →
      ∃ x, l.access index = (.ok x, l) ∧ xs[index.toNat]? = some x) := by
  constructor
  · intro h
    unfold SinglyLinkedList.access check_bounds
    simp only [h, if_true]
  · intro h
    obtain ⟨d, cells, rfl, hseg, hnd, hsize⟩ := hrep
    obtain ⟨n, rfl⟩ : ∃ n : Nat, index = n := ⟨index.toNat, by omega⟩
    have hn : n < cells.length := by omega
    obtain ⟨hsplit, hlen1⟩ := split_at_index cells n hn
    obtain ⟨_, nxt, hhd, hrest⟩ := hseg
    rw [hsplit] at hrest
    obtain ⟨m, h1, h2⟩ := SinglyLinkedList.Seg.seg_append.mp hrest
    obtain ⟨hm, nxt2, hget, _⟩ := h2
    have hadv := SinglyLinkedList.advance_seg h1
    rw [hlen1, hm] at hadv
    refine ⟨cells[n].2, ?_, ?_⟩
    · unfold SinglyLinkedList.access check_bounds
      simp only [h, if_false]
      rw [NodeHeap.load_of_get hhd]
      simp only [Int.toNat_ofNat]
      rw [hadv]
      simp only []
      rw [NodeHeap.load_of_get hget]
      rfl
    · rw [Int.toNat_ofNat, List.getElem?_map, List.getElem?_eq_getElem hn]
      rfl

/-! ### SinglyLinkedList.hpp: `insert` and `remove` -/

theorem NodeHeap.get_lt {T : Type} {h : NodeHeap T} {a : Nat} {nd : SinglyLinkedList.Node T}
    (hget : h[a]? = some (some nd)) : a < h.length := by
  by_contra hn
  rw [List.getElem?_eq_none (by omega)] at hget
  exact absurd hget (by simp)

theorem SinglyLinkedList.Seg.seg_insert {T : Type} {h : NodeHeap T} {l1 l2 : List (Nat × T)}
    {c : Nat} {cx e : T} {p : Option Nat}
    (hseg : SinglyLinkedList.Seg h p (l1 ++ (c, cx) :: l2) none)
    (hnd : ((l1 ++ (c, cx) :: l2).map Prod.fst).Nodup) :
    ∃ nxt, h[c]? = some (some (SinglyLinkedList.Node.mk cx nxt)) ∧
      SinglyLinkedList.advance h l1.length p = .ok (some c) ∧
      SinglyLinkedList.Seg
        ((h ++ [some (SinglyLinkedList.Node.mk e nxt)]).set c
          (some (SinglyLinkedList.Node.mk cx (some h.length)))) p
        (l1 ++ (c, cx) :: (h.length, e) :: l2) none ∧
      ((l1 ++ (c, cx) :: (h.length, e) :: l2).map Prod.fst).Nodup := by
  have hall := SinglyLinkedList.Seg.seg_lt_length hseg
  obtain ⟨m, h1, hm, nxt, hget, h3⟩ := SinglyLinkedList.Seg.seg_append.mp hseg
  subst hm
  have hc : c < h.length := NodeHeap.get_lt hget
  rw [List.map_append, List.map_cons] at hnd hall
  obtain ⟨hnd1, hcB, hdis⟩ := List.nodup_append.mp hnd
  obtain ⟨hc2, hnd2⟩ := List.nodup_cons.mp hcB
  have hA : ∀ a ∈ l1.map Prod.fst, a < h.length ∧ a ≠ c := fun a ha =>
    ⟨hall a (List.mem_append_left _ ha), fun heq => hdis ha (heq ▸ List.mem_cons_self _ _)⟩
  have hB : ∀ a ∈ l2.map Prod.fst, a < h.length ∧ a ≠ c := fun a ha =>
    ⟨hall a (List.mem_append_right _ (List.mem_cons_of_mem _ ha)), fun heq => hc2 (heq ▸ ha)⟩
  have F1 : ∀ a, a ≠ c → a < h.length →
      ((h ++ [some (SinglyLinkedList.Node.mk e nxt)]).set c
        (some (SinglyLinkedList.Node.mk cx (some h.length))))[a]? = h[a]? := by
    intro a hac hal
    rw [List.getElem?_set, if_neg (fun e => hac e.symm), List.getElem?_append_left hal]
  have F2 : ((h ++ [some (SinglyLinkedList.Node.mk e nxt)]).set c
        (some (SinglyLinkedList.Node.mk cx (some h.length))))[c]? =
      some (some (SinglyLinkedList.Node.mk cx (some h.length))) := by
    rw [List.getElem?_set, if_pos rfl, if_pos (by rw [List.length_append]; simp; omega)]
  have F3 : ((h ++ [some (SinglyLinkedList.Node.mk e nxt)]).set c
        (some (SinglyLinkedList.Node.mk cx (some h.length))))[h.length]? =
      some (some (SinglyLinkedList.Node.mk e nxt)) := by
    rw [List.getElem?_set, if_neg (by omega), List.getElem?_append_right (le_refl _)]
    simp
  refine ⟨nxt, hget, SinglyLinkedList.advance_seg h1, ?_, ?_⟩
  · refine SinglyLinkedList.Seg.seg_append.mpr
      ⟨some c, ?_, rfl, some h.length, F2, rfl, nxt, F3, ?_⟩
    · exact SinglyLinkedList.Seg.seg_congr (fun a ha => F1 a (hA a ha).2 (hA a ha).1) h1
    · exact SinglyLinkedList.Seg.seg_congr (fun a ha => F1 a (hB a ha).2 (hB a ha).1) h3
  · rw [List.map_append, List.map_cons, List.map_cons]
    refine List.nodup_append.mpr ⟨hnd1, List.nodup_cons.mpr ⟨?_, List.nodup_cons.mpr ⟨?_, hnd2⟩⟩, ?_⟩
    · intro hmem
      rcases List.mem_cons.mp hmem with heq | hmem
      · exact absurd heq (by simp only []; omega)
      · exact hc2 hmem
    · intro hmem
      have := (hB _ hmem).1
      simp only [lt_self_iff_false] at this
    · intro a ha hb
      rcases List.mem_cons.mp hb with heq | hb
      · exact (hA a ha).2 heq
      · rcases List.mem_cons.mp hb with heq | hb
        · have := (hA a ha).1
          simp only [heq, lt_self_iff_false] at this
        · exact hdis ha (List.mem_cons_of_mem _ hb)

theorem SinglyLinkedList.Seg.seg_remove {T : Type} {h : NodeHeap T} {l1 l2 : List (Nat × T)}
    {c a : Nat} {cx x : T} {p : Option Nat}
    (hseg : SinglyLinkedList.Seg h p (l1 ++ (c, cx) :: (a, x) :: l2) none)
    (hnd : ((l1 ++ (c, cx) :: (a, x) :: l2).map Prod.fst).Nodup) :
    ∃ nxt, h[c]? = some (some (SinglyLinkedList.Node.mk cx (some a))) ∧
      h[a]? = some (some (SinglyLinkedList.Node.mk x nxt)) ∧
      SinglyLinkedList.advance h l1.length p = .ok (some c) ∧
      SinglyLinkedList.Seg
        ((h.set c (some (SinglyLinkedList.Node.mk cx nxt))).set a none) p
        (l1 ++ (c, cx) :: l2) none ∧
      ((l1 ++ (c, cx) :: l2).map Prod.fst).Nodup := by
  obtain ⟨m, h1, hm, nxtc, hgetc, hnc, nxt, hgeta, h3⟩ := SinglyLinkedList.Seg.seg_append.mp hseg
  subst hm
  subst hnc
  have hc : c < h.length := NodeHeap.get_lt hgetc
  rw [List.map_append, List.map_cons, List.map_cons] at hnd
  obtain ⟨hnd1, hcB, hdis⟩ := List.nodup_append.mp hnd
  obtain ⟨hc2, haB⟩ := List.nodup_cons.mp hcB
  obtain ⟨ha2, hnd2⟩ := List.nodup_cons.mp haB
  have hca : c ≠ a := fun heq => hc2 (heq ▸ List.mem_cons_self _ _)
  have hA : ∀ b ∈ l1.map Prod.fst, b ≠ c ∧ b ≠ a := fun b hb =>
    ⟨fun heq => hdis hb (heq ▸ List.mem_cons_self _ _),
     fun heq => hdis hb (heq ▸ List.mem_cons_of_mem _ (List.mem_cons_self _ _))⟩
  have hB : ∀ b ∈ l2.map Prod.fst, b ≠ c ∧ b ≠ a := fun b hb =>
    ⟨fun heq => hc2 (heq ▸ List.mem_cons_of_mem _ hb), fun heq => ha2 (heq ▸ hb)⟩
  have F1 : ∀ b, b ≠ c → b ≠ a →
      ((h.set c (some (SinglyLinkedList.Node.mk cx nxt))).set a none)[b]? = h[b]? := by
    intro b hbc hba
    rw [List.getElem?_set, if_neg (fun e => hba e.symm), List.getElem?_set,
      if_neg (fun e => hbc e.symm)]
  have F2 : ((h.set c (some (SinglyLinkedList.Node.mk cx nxt))).set a none)[c]? =
      some (some (SinglyLinkedList.Node.mk cx nxt)) := by
    rw [List.getElem?_set, if_neg (fun e => hca e.symm), List.getElem?_set, if_pos rfl,
      if_pos hc]
  refine ⟨nxt, hgetc, hgeta, SinglyLinkedList.advance_seg h1, ?_, ?_⟩
  · refine SinglyLinkedList.Seg.seg_append.mpr ⟨some c, ?_, rfl, nxt, F2, ?_⟩
    · exact SinglyLinkedList.Seg.seg_congr (fun b hb => F1 b (hA b hb).1 (hA b hb).2) h1
    · exact SinglyLinkedList.Seg.seg_congr (fun b hb => F1 b (hB b hb).1 (hB b hb).2) h3
  · rw [List.map_append, List.map_cons]
    refine List.nodup_append.mpr ⟨hnd1, List.nodup_cons.mpr ⟨?_, hnd2⟩, ?_⟩
    · exact fun hmem => hc2 (List.mem_cons_of_mem _ hmem)
    · intro b hb hb2
      rcases List.mem_cons.mp hb2 with heq | hb2
      · exact (hA b hb).1 heq
      · exact hdis hb (List.mem_cons_of_mem _ (List.mem_cons_of_mem _ hb2))

theorem exists_split_at {α : Type} (l : List α) (n : Nat) (hn : n < l.length) :
    ∃ l1 x l2, l = l1 ++ x :: l2 ∧ l1.length = n ∧ l1 ++ [x] = l.take (n + 1) ∧
      l2 = l.drop (n + 1) ∧ l[n]? = some x := by
  refine ⟨l.take n, l[n], l.drop (n + 1), (split_at_index l n hn).1, (split_at_index l n hn).2,
    ?_, rfl, List.getElem?_eq_getElem hn⟩
  rw [List.take_succ, List.getElem?_eq_getElem hn]
  rfl

/-- The effect of `SinglyLinkedList::insert` on a well-formed list that is not full, for
an index between 0 and the size: the new node is linked in at that position. -/
theorem SinglyLinkedList.linked_insert_spec {T : Type} (MAX_CAPACITY : Int) (l : SinglyLinkedList T)
    (d : T) (cells : List (Nat × T)) (index : Int) (e : T) (hrep : l.RepCells d cells)
    (hfull : l.size_ < MAX_CAPACITY) (hlo : 0 ≤ index) (hhi : index ≤ l.size_) :
    ∃ l', l.insert MAX_CAPACITY index e = (.ok (), l') ∧
      l'.RepCells d (cells.take index.toNat ++ (l.heap.length, e) :: cells.drop index.toNat) := by
  obtain ⟨hseg, hnd, hsize⟩ := hrep
  obtain ⟨n, rfl⟩ : ∃ n : Nat, index = n := ⟨index.toNat, by omega⟩
  have hn : n < ((l.header_, d) :: cells).length := by
    rw [List.length_cons]; omega
  obtain ⟨l1, ⟨c, cx⟩, l2, hsplit, hlen1, htake, hdrop, _⟩ :=
    exists_split_at ((l.header_, d) :: cells) n hn
  rw [List.take_succ_cons] at htake
  rw [List.drop_succ_cons] at hdrop
  have hnd' : (((l.header_, d) :: cells).map Prod.fst).Nodup := by
    rw [List.map_cons]; exact hnd
  rw [hsplit] at hseg hnd'
  obtain ⟨nxt, hget, hadv, hseg', hndn⟩ := SinglyLinkedList.Seg.seg_insert (e := e) hseg hnd'
  have hnew : (l.header_, d) :: (cells.take n ++ (l.heap.length, e) :: cells.drop n) =
      l1 ++ (c, cx) :: (l.heap.length, e) :: l2 := by
    rw [← List.cons_append, ← htake, hdrop, List.append_assoc]
    rfl
  refine ⟨{ l with
      heap := (l.heap ++ [some (SinglyLinkedList.Node.mk e nxt)]).set c
        (some (SinglyLinkedList.Node.mk cx (some l.heap.length))),
      size_ := l.size_ + 1 }, ?_, ?_, ?_, ?_⟩
  · unfold SinglyLinkedList.insert check_full check_bounds
    have c1 : ¬ (l.size_ ≥ MAX_CAPACITY) := by omega
    have c2 : ¬ ((n : Int) < 0 ∨ (n : Int) ≥ l.size_ + 1) := by omega
    simp only [c1, c2, if_false, Int.toNat_ofNat]
    rw [← hlen1, hadv]
    simp only []
    rw [NodeHeap.load_of_get hget]
    rfl
  · rw [Int.toNat_ofNat]
    show SinglyLinkedList.Seg _ (some l.header_) _ none
    rw [hnew]
    exact hseg'
  · rw [Int.toNat_ofNat]
    show (l.header_ :: List.map Prod.fst _).Nodup
    rw [← List.map_cons (f := Prod.fst) (a := (l.header_, d)), hnew]
    exact hndn
  · rw [Int.toNat_ofNat]
    show l.size_ + 1 = _
    rw [List.length_append, List.length_cons, List.length_take, List.length_drop, hsize]
    have : n ≤ cells.length := by omega
    push_cast
    omega

/-- The effect of `SinglyLinkedList::remove` on a well-formed list, for the index of the
data node `(a, x)`: the node is unlinked and its element returned. -/
theorem SinglyLinkedList.remove_spec {T : Type} (l : SinglyLinkedList T) (d : T)
    (c1 c2 : List (Nat × T)) (a : Nat) (x : T) (hrep : l.RepCells d (c1 ++ (a, x) :: c2)) :
    ∃ l', l.remove (c1.length : Int) = (.ok x, l') ∧ l'.RepCells d (c1 ++ c2) := by
  obtain ⟨hseg, hnd, hsize⟩ := hrep
  obtain ⟨L, ⟨c, cx⟩, hL⟩ : ∃ L b, (l.header_, d) :: c1 = L ++ [b] := by
    rcases List.eq_nil_or_concat ((l.header_, d) :: c1) with h | h
    · exact absurd h (by simp)
    · obtain ⟨L, b, hLb⟩ := h
      exact ⟨L, b, by rw [hLb, List.concat_eq_append]⟩
  have hLlen : L.length = c1.length := by
    have := congrArg List.length hL
    simp only [List.length_cons, List.length_append, List.length_nil] at this
    omega
  have hfull : (l.header_, d) :: (c1 ++ (a, x) :: c2) = L ++ (c, cx) :: (a, x) :: c2 := by
    rw [← List.cons_append, hL, List.append_assoc]
    rfl
  have hres : (l.header_, d) :: (c1 ++ c2) = L ++ (c, cx) :: c2 := by
    rw [← List.cons_append, hL, List.append_assoc]
    rfl
  have hnd' : (((l.header_, d) :: (c1 ++ (a, x) :: c2)).map Prod.fst).Nodup := by
    rw [List.map_cons]; exact hnd
  rw [hfull] at hseg hnd'
  obtain ⟨nxt, hgetc, hgeta, hadv, hseg', hndn⟩ := SinglyLinkedList.Seg.seg_remove hseg hnd'
  have hlen : l.size_ = ((c1.length + (c2.length + 1) : Nat) : Int) := by
    rw [hsize, List.length_append, List.length_cons]
  refine ⟨{ l with
      heap := (l.heap.set c (some (SinglyLinkedList.Node.mk cx nxt))).set a none,
      size_ := l.size_ - 1 }, ?_, ?_, ?_, ?_⟩
  · unfold SinglyLinkedList.remove check_empty check_bounds
    have k1 : ¬ (l.size_ = 0) := by omega
    have k2 : ¬ ((c1.length : Int) < 0 ∨ (c1.length : Int) ≥ l.size_) := by omega
    simp only [k1, k2, if_false, Int.toNat_ofNat]
    rw [← hLlen, hadv]
    simp only []
    rw [NodeHeap.load_of_get hgetc]
    simp only []
    rw [NodeHeap.load_of_get hgeta]
    rfl
  · show SinglyLinkedList.Seg _ (some l.header_) _ none
    rw [hres]
    exact hseg'
  · show (l.header_ :: List.map Prod.fst _).Nodup
    rw [← List.map_cons (f := Prod.fst) (a := (l.header_, d)), hres]
    exact hndn
  · show l.size_ - 1 = _
    rw [hlen, List.length_append]
    push_cast
    omega

theorem SinglyLinkedList.ctor_repCells {T : Type} [Inhabited T] :
    (SinglyLinkedList.ctor : SinglyLinkedList T).RepCells default [] := by
  refine ⟨⟨rfl, none, rfl, rfl⟩, ?_, rfl⟩
  simp [SinglyLinkedList.ctor, NodeHeap.new_node]

theorem SinglyLinkedList.ctor_rep {T : Type} [Inhabited T] :
    (SinglyLinkedList.ctor : SinglyLinkedList T).Rep [] :=
  ⟨default, [], rfl, SinglyLinkedList.ctor_repCells⟩

/-- `insert` at the end, as a statement on contents. -/
theorem SinglyLinkedList.insert_rep {T : Type} (MAX_CAPACITY : Int) (l : SinglyLinkedList T)
    (xs : List T) (index : Int) (e : T) (hrep : l.Rep xs)
    (hfull : l.size_ < MAX_CAPACITY) (hlo : 0 ≤ index) (hhi : index ≤ l.size_) :
    ∃ l', l.insert MAX_CAPACITY index e = (.ok (), l') ∧
      l'.Rep (xs.take index.toNat ++ e :: xs.drop index.toNat) := by
  obtain ⟨d, cells, rfl, hc⟩ := hrep
  obtain ⟨l', hl', hc'⟩ := SinglyLinkedList.linked_insert_spec MAX_CAPACITY l d cells index e hc hfull
    hlo hhi
  refine ⟨l', hl', d, _, ?_, hc'⟩
  rw [List.map_append, List.map_cons, List.map_take, List.map_drop]

/-- The constructor from an initializer list builds a well-formed list with the
contents of the initializer list. -/
theorem SinglyLinkedList.ctor_il_rep {T : Type} (MAX_CAPACITY : Int) :
    ∀ (il : List T) (l : SinglyLinkedList T) (xs : List T), l.Rep xs →
    ((xs.length + il.length : Nat) : Int) ≤ MAX_CAPACITY →
    ∃ l', SinglyLinkedList.ctor_il MAX_CAPACITY l il = (.ok (), l') ∧ l'.Rep (xs ++ il)
  | [], l, xs, hrep, _ => ⟨l, rfl, by simpa using hrep⟩
  | x :: il, l, xs, hrep, hlen => by
    have hsz := hrep.list_size_eq
    simp only [List.length_cons] at hlen
    obtain ⟨l1, hl1, hrep1⟩ := SinglyLinkedList.insert_rep MAX_CAPACITY l xs l.size_ x hrep
      (by omega) (by omega) (le_refl _)
    have hx : xs.take l.size_.toNat ++ x :: xs.drop l.size_.toNat = xs ++ [x] := by
      rw [hsz, Int.toNat_ofNat, List.take_length, List.drop_length]
    rw [hx] at hrep1
    obtain ⟨l2, hl2, hrep2⟩ := SinglyLinkedList.ctor_il_rep MAX_CAPACITY il l1 (xs ++ [x]) hrep1
      (by rw [List.length_append, List.length_singleton]; omega)
    refine ⟨l2, ?_, by simpa using hrep2⟩
    rw [SinglyLinkedList.ctor_il, hl1]
    exact hl2

/-! ### SinglyLinkedList.hpp: `find` and the comparison -/

theorem SinglyLinkedList.find_loop_spec {T : Type} [DecidableEq T] {h : NodeHeap T} (e : T) :
    ∀ (cells : List (Nat × T)) (fuel : Nat) (p : Option Nat) (i : Int),
    SinglyLinkedList.Seg h p cells none → cells.length ≤ fuel →
    ∃ cur, SinglyLinkedList.find_loop h e fuel p i =
        .ok (cur, i + ((cells.map Prod.snd).indexOf e : Nat)) ∧
      (cur ≠ none ↔ e ∈ cells.map Prod.snd)
  | [], fuel, p, i, hseg, _ => by
    have hp : p = none := hseg
    subst hp
    refine ⟨none, ?_, by simp⟩
    cases fuel <;> simp [SinglyLinkedList.find_loop]
  | (a, x) :: rest, fuel, p, i, ⟨hp, nxt, hget, hrest⟩, hfuel => by
    subst hp
    by_cases hx : x = e
    · subst hx
      refine ⟨some a, ?_, by simp⟩
      cases fuel <;>
        simp [SinglyLinkedList.find_loop, NodeHeap.load_of_get hget]
    · obtain ⟨f, rfl⟩ : ∃ f, fuel = f + 1 := ⟨fuel - 1, by
        simp only [List.length_cons] at hfuel; omega⟩
      obtain ⟨cur, hrun, hcur⟩ := SinglyLinkedList.find_loop_spec e rest f nxt (i + 1) hrest
        (by simp only [List.length_cons] at hfuel; omega)
      refine ⟨cur, ?_, ?_⟩
      · rw [SinglyLinkedList.find_loop]
        simp only [NodeHeap.load_of_get hget, ne_eq, hx, not_false_eq_true, if_true]
        rw [hrun, List.map_cons, List.indexOf_cons_ne _ hx]
        simp only [Nat.succ_eq_add_one, Nat.cast_add, Nat.cast_one]
        rw [add_assoc, add_comm 1]
      · rw [hcur, List.map_cons, List.mem_cons]
        constructor
        · exact Or.inr
        · rintro (h1 | h1)
          · exact absurd h1.symm hx
          · exact h1

/-- The effect of `SinglyLinkedList::find` on a well-formed list. -/
theorem SinglyLinkedList.linked_find_spec {T : Type} [DecidableEq T] (l : SinglyLinkedList T)
    (xs : List T) (e : T) (hrep : l.Rep xs) :
    l.find e = (.ok (if e ∈ xs then ((xs.indexOf e : Nat) : Int) else -1), l) := by
  obtain ⟨d, cells, rfl, hc⟩ := hrep
  have hfuel := hc.cells_length_lt
  obtain ⟨⟨_, nxt, hhd, hrest⟩, _, _⟩ := hc
  obtain ⟨cur, hrun, hcur⟩ := SinglyLinkedList.find_loop_spec e cells l.heap.length nxt 0 hrest
    (by omega)
  unfold SinglyLinkedList.find
  rw [NodeHeap.load_of_get hhd]
  simp only []
  rw [hrun]
  simp only [zero_add]
  by_cases hmem : e ∈ cells.map Prod.snd
  · rw [if_pos (hcur.mpr hmem), if_pos hmem]
  · rw [if_neg (fun hne => hmem (hcur.mp hne)), if_neg hmem]

theorem SinglyLinkedList.linked_operator_eq_loop_spec {T : Type} [DecidableEq T] {h1 h2 : NodeHeap T} :
    ∀ (c1 c2 : List (Nat × T)) (fuel : Nat) (p1 p2 : Option Nat),
    SinglyLinkedList.Seg h1 p1 c1 none → SinglyLinkedList.Seg h2 p2 c2 none →
    c1.length = c2.length → c1.length ≤ fuel →
    SinglyLinkedList.operator_eq_loop h1 h2 fuel p1 p2 =
      .ok (decide (c1.map Prod.snd = c2.map Prod.snd))
  | [], c2, fuel, p1, p2, hs1, _, hlen, _ => by
    have hp : p1 = none := hs1
    subst hp
    have hc2 : c2 = [] := List.length_eq_zero.mp hlen.symm
    subst hc2
    cases fuel <;> simp [SinglyLinkedList.operator_eq_loop]
  | (a1, x1) :: r1, [], _, _, _, _, _, hlen, _ => by simp at hlen
  | (a1, x1) :: r1, (a2, x2) :: r2, fuel, p1, p2, ⟨hp1, n1, hg1, hr1⟩, ⟨hp2, n2, hg2, hr2⟩,
      hlen, hfuel => by
    subst hp1
    subst hp2
    obtain ⟨f, rfl⟩ : ∃ f, fuel = f + 1 := ⟨fuel - 1, by
      simp only [List.length_cons] at hfuel; omega⟩
    rw [SinglyLinkedList.operator_eq_loop]
    simp only [NodeHeap.load_of_get hg1, NodeHeap.load_of_get hg2]
    by_cases hx : x1 = x2
    · subst hx
      simp only [ne_eq, not_true_eq_false, if_false]
      rw [SinglyLinkedList.linked_operator_eq_loop_spec r1 r2 f n1 n2 hr1 hr2
        (by simpa using hlen) (by simp only [List.length_cons] at hfuel; omega)]
      simp
    · simp [hx]

/-- The effect of `SinglyLinkedList::operator==` and `operator!=` on well-formed lists. -/
theorem SinglyLinkedList.linked_operator_eq_spec {T : Type} [DecidableEq T] (a b : SinglyLinkedList T)
    (xs ys : List T) (ha : a.Rep xs) (hb : b.Rep ys) :
    a.operator_eq b = .ok (decide (xs = ys)) ∧ a.operator_ne b = .ok (!decide (xs = ys)) := by
  have hsa := ha.list_size_eq
  have hsb := hb.list_size_eq
  obtain ⟨d1, c1, rfl, hc1⟩ := ha
  obtain ⟨d2, c2, rfl, hc2⟩ := hb
  have hfuel := hc1.cells_length_lt
  obtain ⟨⟨_, n1, hhd1, hr1⟩, _, _⟩ := hc1
  obtain ⟨⟨_, n2, hhd2, hr2⟩, _, _⟩ := hc2
  have hmain : a.operator_eq b = .ok (decide (c1.map Prod.snd = c2.map Prod.snd)) := by
    unfold SinglyLinkedList.operator_eq
    by_cases hs : a.size_ = b.size_
    · rw [if_neg (by simpa using hs), NodeHeap.load_of_get hhd1]
      simp only []
      rw [NodeHeap.load_of_get hhd2]
      simp only []
      simp only [List.length_map] at hsa hsb
      exact SinglyLinkedList.linked_operator_eq_loop_spec c1 c2 _ n1 n2 hr1 hr2 (by omega) (by omega)
    · rw [if_pos (by simpa using hs)]
      have hne : ¬ (c1.map Prod.snd = c2.map Prod.snd) := by
        intro heq
        apply hs
        rw [hsa, hsb, heq]
      simp [hne]
  refine ⟨hmain, ?_⟩
  unfold SinglyLinkedList.operator_ne
  rw [hmain]

/-! ### SinglyLinkedList.hpp: `reverse` and `clear` -/

theorem SinglyLinkedList.linked_reverse_loop_spec {T : Type} (header : Nat) (d : T) :
    ∀ (rest done : List (Nat × T)) (fuel : Nat) (pre hs : Option Nat) (h : NodeHeap T),
    h[header]? = some (some (SinglyLinkedList.Node.mk d hs)) →
    SinglyLinkedList.Seg h hs done none → SinglyLinkedList.Seg h pre rest none →
    (header :: (rest.reverse ++ done).map Prod.fst).Nodup → rest.length ≤ fuel →
    ∃ h' hs', SinglyLinkedList.reverse_loop header fuel pre h = .ok h' ∧
      h'[header]? = some (some (SinglyLinkedList.Node.mk d hs')) ∧
      SinglyLinkedList.Seg h' hs' (rest.reverse ++ done) none
  | [], done, fuel, pre, hs, h, hhd, hdone, hrest, _, _ => by
    have hp : pre = none := hrest
    subst hp
    refine ⟨h, hs, ?_, hhd, by simpa using hdone⟩
    cases fuel <;> simp [SinglyLinkedList.reverse_loop]
  | (a, x) :: rest, done, fuel, pre, hs, h, hhd, hdone, ⟨hp, nxt, hget, hrest⟩, hnd, hfuel => by
    subst hp
    obtain ⟨f, rfl⟩ : ∃ f, fuel = f + 1 := ⟨fuel - 1, by
      simp only [List.length_cons] at hfuel; omega⟩
    have hnd0 := hnd
    rw [List.reverse_cons, List.append_assoc, List.singleton_append, List.map_append,
      List.map_cons] at hnd
    obtain ⟨hh, hbig⟩ := List.nodup_cons.mp hnd
    obtain ⟨ha', _⟩ := List.nodup_cons.mp (List.nodup_middle.mp hbig)
    have hah : a ≠ header := fun heq =>
      hh (List.mem_append_right _ (heq ▸ List.mem_cons_self _ _))
    have hD : ∀ b ∈ done.map Prod.fst, b ≠ a ∧ b ≠ header := fun b hb =>
      ⟨fun heq => ha' (List.mem_append_right _ (heq ▸ hb)),
       fun heq => hh (List.mem_append_right _ (List.mem_cons_of_mem _ (heq ▸ hb)))⟩
    have hR : ∀ b ∈ rest.map Prod.fst, b ≠ a ∧ b ≠ header := fun b hb => by
      have hb' : b ∈ rest.reverse.map Prod.fst := by
        rw [List.map_reverse]; exact List.mem_reverse.mpr hb
      exact ⟨fun heq => ha' (List.mem_append_left _ (heq ▸ hb')),
        fun heq => hh (List.mem_append_left _ (heq ▸ hb'))⟩
    have hal : a < h.length := NodeHeap.get_lt hget
    have hhl : header < h.length := NodeHeap.get_lt hhd
    have G1 : (h.set a (some (SinglyLinkedList.Node.mk x hs)))[header]? =
        some (some (SinglyLinkedList.Node.mk d hs)) := by
      rw [List.getElem?_set, if_neg hah, hhd]
    have F1 : ∀ b, b ≠ a → b ≠ header →
        ((h.set a (some (SinglyLinkedList.Node.mk x hs))).set header
          (some (SinglyLinkedList.Node.mk d (some a))))[b]? = h[b]? := by
      intro b hba hbh
      rw [List.getElem?_set, if_neg (fun e => hbh e.symm), List.getElem?_set,
        if_neg (fun e => hba e.symm)]
    have F2 : ((h.set a (some (SinglyLinkedList.Node.mk x hs))).set header
          (some (SinglyLinkedList.Node.mk d (some a))))[header]? =
        some (some (SinglyLinkedList.Node.mk d (some a))) := by
      rw [List.getElem?_set, if_pos rfl, if_pos (by rw [List.length_set]; exact hhl)]
    have F3 : ((h.set a (some (SinglyLinkedList.Node.mk x hs))).set header
          (some (SinglyLinkedList.Node.mk d (some a))))[a]? =
        some (some (SinglyLinkedList.Node.mk x hs)) := by
      rw [List.getElem?_set, if_neg (fun e => hah e.symm), List.getElem?_set, if_pos rfl,
        if_pos hal]
    obtain ⟨h', hs', hrun, hhd', hseg'⟩ := SinglyLinkedList.linked_reverse_loop_spec header d rest
      ((a, x) :: done) f nxt (some a) _ F2
      ⟨rfl, hs, F3, SinglyLinkedList.Seg.seg_congr (fun b hb => F1 b (hD b hb).1 (hD b hb).2) hdone⟩
      (SinglyLinkedList.Seg.seg_congr (fun b hb => F1 b (hR b hb).1 (hR b hb).2) hrest)
      (by
        rw [List.reverse_cons, List.append_assoc, List.singleton_append] at hnd0
        exact hnd0)
      (by simp only [List.length_cons] at hfuel; omega)
    refine ⟨h', hs', ?_, hhd', ?_⟩
    · rw [SinglyLinkedList.reverse_loop]
      simp only [NodeHeap.load_of_get hget, NodeHeap.load_of_get hhd, NodeHeap.store,
        NodeHeap.load_of_get G1]
      exact hrun
    · rw [List.reverse_cons, List.append_assoc, List.singleton_append]
      exact hseg'

/-- The effect of `SinglyLinkedList::reverse` on a well-formed list: the same nodes, linked
in the opposite order. -/
theorem SinglyLinkedList.linked_reverse_spec {T : Type} (l : SinglyLinkedList T) (d : T)
    (cells : List (Nat × T)) (hrep : l.RepCells d cells) :
    ∃ l', l.reverse = (.ok (), l') ∧ l'.RepCells d cells.reverse ∧ l'.size_ = l.size_ := by
  have hfuel := hrep.cells_length_lt
  obtain ⟨⟨_, nxt, hhd, hrest⟩, hnd, hsize⟩ := hrep
  obtain ⟨hh, hnd1⟩ := List.nodup_cons.mp hnd
  have hhl : l.header_ < l.heap.length := NodeHeap.get_lt hhd
  have F2 : (l.heap.set l.header_ (some (SinglyLinkedList.Node.mk d none)))[l.header_]? =
      some (some (SinglyLinkedList.Node.mk d none)) := by
    rw [List.getElem?_set, if_pos rfl, if_pos hhl]
  have hnd' : (l.header_ :: (cells.reverse ++ []).map Prod.fst).Nodup := by
    rw [List.append_nil, List.map_reverse]
    exact List.nodup_cons.mpr ⟨fun hm => hh (List.mem_reverse.mp hm),
      List.nodup_reverse.mpr hnd1⟩
  obtain ⟨h', hs', hrun, hhd', hseg'⟩ := SinglyLinkedList.linked_reverse_loop_spec l.header_ d cells []
    (l.heap.set l.header_ (some (SinglyLinkedList.Node.mk d none))).length nxt none _ F2 rfl
    (SinglyLinkedList.Seg.seg_congr (fun b hb => by
      rw [List.getElem?_set, if_neg (fun e : l.header_ = b => hh (e ▸ hb))]) hrest)
    hnd' (by rw [List.length_set]; omega)
  rw [List.append_nil] at hseg'
  refine ⟨{ l with heap := h' }, ?_, ⟨⟨rfl, hs', hhd', hseg'⟩, ?_, ?_⟩, rfl⟩
  · unfold SinglyLinkedList.reverse
    rw [NodeHeap.load_of_get hhd]
    simp only [NodeHeap.store]
    rw [hrun]
  · rw [List.append_nil] at hnd'
    exact hnd'
  · show l.size_ = _
    rw [hsize, List.length_reverse]

theorem SinglyLinkedList.reverse_rep {T : Type} (l : SinglyLinkedList T) (xs : List T)
    (hrep : l.Rep xs) :
    ∃ l', l.reverse = (.ok (), l') ∧ l'.Rep xs.reverse ∧ l'.size_ = l.size_ := by
  obtain ⟨d, cells, rfl, hc⟩ := hrep
  obtain ⟨l', hl', hc', hs'⟩ := SinglyLinkedList.linked_reverse_spec l d cells hc
  exact ⟨l', hl', ⟨d, cells.reverse, by rw [List.map_reverse], hc'⟩, hs'⟩

theorem SinglyLinkedList.clear_data_loop_spec {T : Type} (header : Nat) (d : T) :
    ∀ (cells : List (Nat × T)) (fuel : Nat) (hs : Option Nat) (h : NodeHeap T),
    h[header]? = some (some (SinglyLinkedList.Node.mk d hs)) →
    SinglyLinkedList.Seg h hs cells none →
    (header :: cells.map Prod.fst).Nodup → cells.length ≤ fuel →
    ∃ h', SinglyLinkedList.clear_data_loop header fuel h = .ok h' ∧
      h'[header]? = some (some (SinglyLinkedList.Node.mk d none))
  | [], fuel, hs, h, hhd, hseg, _, _ => by
    have hp : hs = none := hseg
    subst hp
    refine ⟨h, ?_, hhd⟩
    cases fuel <;> simp [SinglyLinkedList.clear_data_loop, NodeHeap.load_of_get hhd]
  | (a, x) :: rest, fuel, hs, h, hhd, ⟨hp, nxt, hget, hrest⟩, hnd, hfuel => by
    subst hp
    obtain ⟨f, rfl⟩ : ∃ f, fuel = f + 1 := ⟨fuel - 1, by
      simp only [List.length_cons] at hfuel; omega⟩
    rw [List.map_cons] at hnd
    obtain ⟨hh, hnd1⟩ := List.nodup_cons.mp hnd
    obtain ⟨ha, hnd2⟩ := List.nodup_cons.mp hnd1
    have hah : a ≠ header := fun heq => hh (heq ▸ List.mem_cons_self _ _)
    have hhl : header < h.length := NodeHeap.get_lt hhd
    have F2 : ((h.set a none).set header (some (SinglyLinkedList.Node.mk d nxt)))[header]? =
        some (some (SinglyLinkedList.Node.mk d nxt)) := by
      rw [List.getElem?_set, if_pos rfl, if_pos (by rw [List.length_set]; exact hhl)]
    obtain ⟨h', hrun, hhd'⟩ := SinglyLinkedList.clear_data_loop_spec header d rest f nxt _ F2
      (SinglyLinkedList.Seg.seg_congr (fun b hb => by
        rw [List.getElem?_set, if_neg (fun e : header = b => hh (e ▸ List.mem_cons_of_mem _ hb)),
          List.getElem?_set, if_neg (fun e : a = b => ha (e ▸ hb))]) hrest)
      (List.nodup_cons.mpr ⟨fun hm => hh (List.mem_cons_of_mem _ hm), hnd2⟩)
      (by simp only [List.length_cons] at hfuel; omega)
    refine ⟨h', ?_, hhd'⟩
    rw [SinglyLinkedList.clear_data_loop]
    simp only [NodeHeap.load_of_get hhd, NodeHeap.load_of_get hget, NodeHeap.store,
      NodeHeap.delete]
    exact hrun

/-- The effect of `SinglyLinkedList::clear` on a well-formed list: the list afterwards is
well formed and empty, a second `clear` returns it as it is, and it compares equal to
the freshly constructed list. -/
theorem SinglyLinkedList.clear_spec {T : Type} (l : SinglyLinkedList T) (xs : List T)
    (hrep : l.Rep xs) :
    ∃ l', l.clear = (.ok (), l') ∧ l'.Rep [] ∧ l'.size_ = 0 ∧ l'.clear = (.ok (), l') := by
  have hsz := hrep.list_size_eq
  obtain ⟨d, cells, rfl, hc⟩ := hrep
  have hfuel := hc.cells_length_lt
  by_cases h0 : l.size_ = 0
  · have hcells : cells = [] := by
      apply List.length_eq_zero.mp
      rw [List.length_map] at hsz
      omega
    subst hcells
    have hcl : l.clear = (.ok (), l) := by
      unfold SinglyLinkedList.clear
      rw [if_neg (by simpa using h0)]
    exact ⟨l, hcl, ⟨d, [], rfl, hc⟩, h0, hcl⟩
  · obtain ⟨⟨_, nxt, hhd, hrest⟩, hnd, hsize⟩ := hc
    obtain ⟨h', hrun, hhd'⟩ := SinglyLinkedList.clear_data_loop_spec l.header_ d cells
      l.heap.length nxt l.heap hhd hrest hnd (by omega)
    have hhl : l.header_ < h'.length := NodeHeap.get_lt hhd'
    have F2 : (h'.set l.header_ (some (SinglyLinkedList.Node.mk d none)))[l.header_]? =
        some (some (SinglyLinkedList.Node.mk d none)) := by
      rw [List.getElem?_set, if_pos rfl, if_pos hhl]
    refine ⟨{ l with heap := h'.set l.header_ (some (SinglyLinkedList.Node.mk d none)),
                     size_ := 0 }, ?_, ⟨d, [], rfl, ⟨rfl, none, F2, rfl⟩, ?_, rfl⟩, rfl, ?_⟩
    · unfold SinglyLinkedList.clear SinglyLinkedList.clear_data
      rw [if_pos (by simpa using h0), hrun]
      simp only [NodeHeap.load_of_get hhd', NodeHeap.store]
    · simp
    · unfold SinglyLinkedList.clear
      rw [if_neg (by simp)]

/-! ### The lists: access and examination -/

theorem ArrayList.WF.contents_length {T : Type} {a : ArrayList T} (hwf : a.WF) :
    (a.contents.length : Int) = a.size_ := by
  obtain ⟨h0, hle, _, hlen⟩ := hwf
  unfold ArrayList.contents
  rw [List.length_take]
  omega

/-- The list built by the initializer-list constructor from the fresh list is well formed
and has the contents of the initializer list. -/
theorem SinglyLinkedList.ctor_il_snd_rep {T : Type} [Inhabited T] (MAX_CAPACITY : Int)
    (il : List T) (hlen : (il.length : Int) ≤ MAX_CAPACITY) :
    (SinglyLinkedList.ctor_il MAX_CAPACITY SinglyLinkedList.ctor il).2.Rep il := by
  obtain ⟨l', hl', hrep⟩ := SinglyLinkedList.ctor_il_rep MAX_CAPACITY il SinglyLinkedList.ctor []
    SinglyLinkedList.ctor_rep (by simpa using hlen)
  rw [hl']
  simpa using hrep

theorem not_before_indexOf {T : Type} [DecidableEq T] (e : T) : ∀ (xs : List T) (j : Nat),
    j < xs.indexOf e → xs[j]? ≠ some e
  | [], j, hj => by simp at hj
  | x :: xs, j, hj => by
    by_cases hx : x = e
    · subst hx
      rw [List.indexOf_cons_self] at hj
      omega
    · rw [List.indexOf_cons_ne _ hx] at hj
      cases j with
      | zero =>
        rw [List.getElem?_cons_zero]
        exact fun h => hx (Option.some.inj h)
      | succ j =>
        rw [List.getElem?_cons_succ]
        exact not_before_indexOf e xs j (by omega)

/-- C13. Indexed access is bounds-checked, for `ArrayList` and for `SinglyLinkedList`.
On every well-formed list with contents `xs` (of length `size_`), `operator[](index)`
raises the bounds error if and only if `index < 0` or `index ≥ size_` (so a negative
index is never taken as a position from the end) and raises no other error; for every
other index it returns the element of `xs` at position `index` counted from 0; and in
all cases the list after the call is the list before it. -/
theorem operator_subscript_bounds_checked {T : Type} :
    (∀ (a : ArrayList T) (index : Int), a.WF →
      (a.contents.length : Int) = a.size_ ∧
      ((a.operator_subscript index).1 = .error .bounds ↔ (index < 0 ∨ index ≥ a.size_)) ∧
      (∀ e, (a.operator_subscript index).1 = .error e → e = .bounds) ∧
      (¬ (index < 0 ∨ index ≥ a.size_) →
        ∃ x, (a.operator_subscript index).1 = .ok x ∧ a.contents[index.toNat]? = some x) ∧
      (a.operator_subscript index).2 = a) ∧
    (∀ (l : SinglyLinkedList T) (xs : List T) (index : Int), l.Rep xs →
      (xs.length : Int) = l.size_ ∧
      ((l.operator_subscript index).1 = .error .bounds ↔ (index < 0 ∨ index ≥ l.size_)) ∧
      (∀ e, (l.operator_subscript index).1 = .error e → e = .bounds) ∧
      (¬ (index < 0 ∨ index ≥ l.size_) →
        ∃ x, (l.operator_subscript index).1 = .ok x ∧ xs[index.toNat]? = some x) ∧
      (l.operator_subscript index).2 = l) := by
  constructor
  · intro a index hwf
    obtain ⟨hout, hin⟩ := ArrayList.operator_subscript_spec a index hwf
    refine ⟨hwf.contents_length, ?_⟩
    by_cases h : index < 0 ∨ index ≥ a.size_
    · rw [hout h]
      exact ⟨by simp [h], fun e he => by simpa using he.symm, fun hn => absurd h hn, rfl⟩
    · obtain ⟨x, hx, hget⟩ := hin h
      rw [hx]
      exact ⟨by simp [h], fun e he => by simp at he, fun _ => ⟨x, rfl, hget⟩, rfl⟩
  · intro l xs index hrep
    obtain ⟨hout, hin⟩ := SinglyLinkedList.access_spec l xs index hrep
    refine ⟨hrep.list_size_eq.symm, ?_⟩
    unfold SinglyLinkedList.operator_subscript
    by_cases h : index < 0 ∨ index ≥ l.size_
    · rw [hout h]
      exact ⟨by simp [h], fun e he => by simpa using he.symm, fun hn => absurd h hn, rfl⟩
    · obtain ⟨x, hx, hget⟩ := hin h
      rw [hx]
      exact ⟨by simp [h], fun e he => by simp at he, fun _ => ⟨x, rfl, hget⟩, rfl⟩

/-- Witness for C13: on the array list and on the linked list with contents 1, 2, 3 the
index 1 gives 2, and the indices -1 and 3 raise the bounds error. -/
theorem operator_subscript_bounds_checked_witness :
    ((ArrayList.operator_subscript (⟨3, 4, [1, 2, 3, 0]⟩ : ArrayList Int) 1).1 = .ok 2 ∧
      (ArrayList.operator_subscript (⟨3, 4, [1, 2, 3, 0]⟩ : ArrayList Int) (-1)).1
        = .error .bounds ∧
      (ArrayList.operator_subscript (⟨3, 4, [1, 2, 3, 0]⟩ : ArrayList Int) 3).1
        = .error .bounds) ∧
    (((SinglyLinkedList.ctor_il 100 SinglyLinkedList.ctor [(1 : Int), 2, 3]).2.operator_subscript
        1).1 = .ok 2 ∧
      ((SinglyLinkedList.ctor_il 100 SinglyLinkedList.ctor [(1 : Int), 2, 3]).2.operator_subscript
        (-1)).1 = .error .bounds ∧
      ((SinglyLinkedList.ctor_il 100 SinglyLinkedList.ctor [(1 : Int), 2, 3]).2.operator_subscript
        3).1 = .error .bounds) := by
  have hrep := SinglyLinkedList.ctor_il_snd_rep 100 [(1 : Int), 2, 3] (by decide)
  have hsz := hrep.list_size_eq
  have ha := fun index => (operator_subscript_bounds_checked (T := Int)).1
    ⟨3, 4, [1, 2, 3, 0]⟩ index (by decide)
  have hl := fun index => (operator_subscript_bounds_checked (T := Int)).2 _ _ index hrep
  refine ⟨⟨?_, (ha (-1)).2.1.mpr (by decide), (ha 3).2.1.mpr (by decide)⟩,
    ?_, (hl (-1)).2.1.mpr (by rw [hsz]; decide), (hl 3).2.1.mpr (by rw [hsz]; decide)⟩
  · obtain ⟨x, hx, hget⟩ := (ha 1).2.2.2.1 (by decide)
    rw [hx]
    have : x = 2 := by
      have h2 : (ArrayList.contents (⟨3, 4, [1, 2, 3, 0]⟩ : ArrayList Int))[Int.toNat 1]? = some 2 := by
        decide
      exact (Option.some.inj (hget.symm.trans h2))
    rw [this]
  · obtain ⟨x, hx, hget⟩ := (hl 1).2.2.2.1 (by rw [hsz]; decide)
    rw [hx]
    have : x = 2 := by
      have h2 : ([(1 : Int), 2, 3])[Int.toNat 1]? = some 2 := by decide
      exact (Option.some.inj (hget.symm.trans h2))
    rw [this]

/-- C14. `find` returns the first occurrence. For every well-formed `SinglyLinkedList`
with contents `xs` and every `e`: if `e` occurs in `xs`, `find(e)` returns the least
index `i` with `xs[i] = e` (this is `xs.indexOf e`), otherwise it returns `-1`. For every
well-formed `ArrayList` with contents `xs`: `find(e)` returns the iterator at offset
`xs.indexOf e` from `begin()`, which is that same least index when `e` occurs and is
`end()`, at offset `size_`, when it does not. Neither call changes the list. -/
theorem find_first_occurrence {T : Type} [DecidableEq T] :
    (∀ (l : SinglyLinkedList T) (xs : List T) (e : T), l.Rep xs →
      (e ∈ xs → l.find e = (.ok ((xs.indexOf e : Nat) : Int), l) ∧
        xs[xs.indexOf e]? = some e ∧ ∀ j, j < xs.indexOf e → xs[j]? ≠ some e) ∧
      (e ∉ xs → l.find e = (.ok (-1), l))) ∧
    (∀ (a : ArrayList T) (xs : List T) (e : T), a.WF → a.contents = xs →
      a.find e = (.ok ⟨a.begin.current_ + (xs.indexOf e : Nat)⟩, a) ∧
      (e ∈ xs → xs[xs.indexOf e]? = some e ∧ ∀ j, j < xs.indexOf e → xs[j]? ≠ some e) ∧
      (e ∉ xs → ((xs.indexOf e : Nat) : Int) = a.size_ ∧
        a.find e = (.ok a.end_, a))) := by
  constructor
  · intro l xs e hrep
    have h := SinglyLinkedList.linked_find_spec l xs e hrep
    constructor
    · intro hmem
      rw [if_pos hmem] at h
      exact ⟨h, List.getElem?_indexOf hmem, not_before_indexOf e xs⟩
    · intro hmem
      rw [if_neg hmem] at h
      exact h
  · intro a xs e hwf hxs
    have h := ArrayList.find_spec a e hwf
    rw [hxs] at h
    have hb : a.begin.current_ + ((xs.indexOf e : Nat) : Int) = ((xs.indexOf e : Nat) : Int) := by
      show (0 : Int) + _ = _
      rw [zero_add]
    rw [hb]
    refine ⟨h, fun hmem => ⟨List.getElem?_indexOf hmem, not_before_indexOf e xs⟩, ?_⟩
    intro hmem
    have hlen : ((xs.indexOf e : Nat) : Int) = a.size_ := by
      rw [List.indexOf_eq_length.mpr hmem, ← hxs, hwf.contents_length]
    refine ⟨hlen, ?_⟩
    rw [h, hlen]
    rfl

/-- Witness for C14: in the lists with contents 1, 2, 3, 2 the element 2 is found at
position 1 (its first occurrence) and 7 is not found: `-1` for the linked list, `end()`
at offset 4 for the array list. -/
theorem find_first_occurrence_witness :
    (((SinglyLinkedList.ctor_il 100 SinglyLinkedList.ctor [(1 : Int), 2, 3, 2]).2.find 2).1
        = .ok 1 ∧
      ((SinglyLinkedList.ctor_il 100 SinglyLinkedList.ctor [(1 : Int), 2, 3, 2]).2.find 7).1
        = .ok (-1)) ∧
    ((ArrayList.find (⟨4, 6, [1, 2, 3, 2, 0, 0]⟩ : ArrayList Int) 2).1 = .ok ⟨1⟩ ∧
      (ArrayList.find (⟨4, 6, [1, 2, 3, 2, 0, 0]⟩ : ArrayList Int) 7).1 = .ok ⟨4⟩) := by
  have hrep := SinglyLinkedList.ctor_il_snd_rep 100 [(1 : Int), 2, 3, 2] (by decide)
  have hl := fun e => (find_first_occurrence (T := Int)).1 _ _ e hrep
  have ha := fun e => (find_first_occurrence (T := Int)).2
    ⟨4, 6, [1, 2, 3, 2, 0, 0]⟩ [1, 2, 3, 2] e (by decide) rfl
  refine ⟨⟨?_, ?_⟩, ?_, ?_⟩
  · rw [((hl 2).1 (by decide)).1]
    rfl
  · rw [(hl 7).2 (by decide)]
  · rw [(ha 2).1]
    rfl
  · rw [((ha 7).2.2 (by decide)).2]
    rfl

/-- C15. `reverse` reverses the list in place, for `ArrayList` and for
`SinglyLinkedList`. For every well-formed list with contents `xs`, of any length,
`reverse()` succeeds; afterwards the contents are `xs` in reverse order and the size is
unchanged; hence a second `reverse()` restores the contents `xs`. -/
theorem reverse_in_place {T : Type} :
    (∀ (a : ArrayList T) (xs : List T), a.WF → a.contents = xs →
      ∃ a1 a2, a.reverse = (.ok (), a1) ∧ a1.contents = xs.reverse ∧ a1.size_ = a.size_ ∧
        a1.WF ∧ a1.reverse = (.ok (), a2) ∧ a2.contents = xs ∧ a2.size_ = a.size_) ∧
    (∀ (l : SinglyLinkedList T) (xs : List T), l.Rep xs →
      ∃ l1 l2, l.reverse = (.ok (), l1) ∧ l1.Rep xs.reverse ∧ l1.size_ = l.size_ ∧
        l1.reverse = (.ok (), l2) ∧ l2.Rep xs ∧ l2.size_ = l.size_) := by
  constructor
  · intro a xs hwf hxs
    obtain ⟨a1, h1, hwf1, hc1, hs1, _⟩ := ArrayList.reverse_spec a hwf
    obtain ⟨a2, h2, _, hc2, hs2, _⟩ := ArrayList.reverse_spec a1 hwf1
    refine ⟨a1, a2, h1, by rw [hc1, hxs], hs1, hwf1, h2, ?_, by rw [hs2, hs1]⟩
    rw [hc2, hc1, List.reverse_reverse, hxs]
  · intro l xs hrep
    obtain ⟨l1, h1, hrep1, hs1⟩ := SinglyLinkedList.reverse_rep l xs hrep
    obtain ⟨l2, h2, hrep2, hs2⟩ := SinglyLinkedList.reverse_rep l1 xs.reverse hrep1
    rw [List.reverse_reverse] at hrep2
    exact ⟨l1, l2, h1, hrep1, hs1, h2, hrep2, by rw [hs2, hs1]⟩

/-- Witness for C15: array lists of the lengths 0, 1, 4 and 5 and the linked list with
contents 1, 2, 3. -/
theorem reverse_in_place_witness :
    (∃ a1 a2, ArrayList.reverse (⟨0, 2, [7, 7]⟩ : ArrayList Int) = (.ok (), a1) ∧
      a1.contents = [] ∧ a1.size_ = 0 ∧ a1.WF ∧ a1.reverse = (.ok (), a2) ∧
      a2.contents = [] ∧ a2.size_ = 0) ∧
    (∃ a1 a2, ArrayList.reverse (⟨1, 2, [1, 7]⟩ : ArrayList Int) = (.ok (), a1) ∧
      a1.contents = [1] ∧ a1.size_ = 1 ∧ a1.WF ∧ a1.reverse = (.ok (), a2) ∧
      a2.contents = [1] ∧ a2.size_ = 1) ∧
    (∃ a1 a2, ArrayList.reverse (⟨4, 4, [1, 2, 3, 4]⟩ : ArrayList Int) = (.ok (), a1) ∧
      a1.contents = [4, 3, 2, 1] ∧ a1.size_ = 4 ∧ a1.WF ∧ a1.reverse = (.ok (), a2) ∧
      a2.contents = [1, 2, 3, 4] ∧ a2.size_ = 4) ∧
    (∃ a1 a2, ArrayList.reverse (⟨5, 6, [1, 2, 3, 4, 5, 7]⟩ : ArrayList Int) = (.ok (), a1) ∧
      a1.contents = [5, 4, 3, 2, 1] ∧ a1.size_ = 5 ∧ a1.WF ∧ a1.reverse = (.ok (), a2) ∧
      a2.contents = [1, 2, 3, 4, 5] ∧ a2.size_ = 5) ∧
    (∃ l1 l2, (SinglyLinkedList.ctor_il 100 SinglyLinkedList.ctor [(1 : Int), 2, 3]).2.reverse
        = (.ok (), l1) ∧
      l1.Rep [3, 2, 1] ∧
      l1.size_ = (SinglyLinkedList.ctor_il 100 SinglyLinkedList.ctor [(1 : Int), 2, 3]).2.size_ ∧
      l1.reverse = (.ok (), l2) ∧ l2.Rep [1, 2, 3] ∧
      l2.size_ = (SinglyLinkedList.ctor_il 100 SinglyLinkedList.ctor [(1 : Int), 2, 3]).2.size_) :=
  ⟨(reverse_in_place (T := Int)).1 ⟨0, 2, [7, 7]⟩ [] (by decide) rfl,
   (reverse_in_place (T := Int)).1 ⟨1, 2, [1, 7]⟩ [1] (by decide) rfl,
   (reverse_in_place (T := Int)).1 ⟨4, 4, [1, 2, 3, 4]⟩ [1, 2, 3, 4] (by decide) rfl,
   (reverse_in_place (T := Int)).1 ⟨5, 6, [1, 2, 3, 4, 5, 7]⟩ [1, 2, 3, 4, 5] (by decide) rfl,
   (reverse_in_place (T := Int)).2 _ [1, 2, 3]
     (SinglyLinkedList.ctor_il_snd_rep 100 [(1 : Int), 2, 3] (by decide))⟩

/-! ### The lists: comparison, `clear`, and the round trip -/

theorem list_eq_iff_getElem? {T : Type} (xs ys : List T) (sa sb : Int)
    (ha : (xs.length : Int) = sa) (hb : (ys.length : Int) = sb) :
    xs = ys ↔ (sa = sb ∧ ∀ i : Nat, (i : Int) < sa → xs[i]? = ys[i]?) := by
  constructor
  · intro h
    subst h
    exact ⟨by omega, fun _ _ => rfl⟩
  · rintro ⟨hs, hget⟩
    apply List.ext_getElem?
    intro i
    by_cases hi : (i : Int) < sa
    · exact hget i hi
    · rw [List.getElem?_eq_none (by omega), List.getElem?_eq_none (by omega)]

/-- C16. List equality is equality of contents. For every two well-formed `ArrayList`s,
and for every two well-formed `SinglyLinkedList`s, with contents `xs` and `ys`:
`a == b` returns a value, and it is true if and only if the sizes are equal and the
elements at every index below the size are equal, that is, if and only if `xs = ys`;
the capacity and the cells of the array from `size_` on (stale after `remove` or
`clear`) have no influence, since they are not part of the contents. `a != b` returns
the negation of `a == b`. -/
theorem list_equality_is_contents_equality {T : Type} [DecidableEq T] :
    (∀ (a b : ArrayList T), a.WF → b.WF →
      ∃ r, a.operator_eq b = .ok r ∧ a.operator_ne b = .ok (!r) ∧
        (r = true ↔ (a.size_ = b.size_ ∧
          ∀ i : Nat, (i : Int) < a.size_ → a.contents[i]? = b.contents[i]?)) ∧
        (r = true ↔ a.contents = b.contents)) ∧
    (∀ (a b : SinglyLinkedList T) (xs ys : List T), a.Rep xs → b.Rep ys →
      ∃ r, a.operator_eq b = .ok r ∧ a.operator_ne b = .ok (!r) ∧
        (r = true ↔ (a.size_ = b.size_ ∧ ∀ i : Nat, (i : Int) < a.size_ → xs[i]? = ys[i]?)) ∧
        (r = true ↔ xs = ys)) := by
  constructor
  · intro a b ha hb
    obtain ⟨r, hr, hne, hc, _⟩ := ArrayList.operator_eq_spec a b ha hb
    refine ⟨r, hr, hne, ?_, hc⟩
    rw [hc]
    exact list_eq_iff_getElem? _ _ _ _ ha.contents_length hb.contents_length
  · intro a b xs ys ha hb
    obtain ⟨hr, hne⟩ := SinglyLinkedList.linked_operator_eq_spec a b xs ys ha hb
    refine ⟨decide (xs = ys), hr, hne, ?_, by simp⟩
    rw [decide_eq_true_iff]
    exact list_eq_iff_getElem? _ _ _ _ ha.list_size_eq.symm hb.list_size_eq.symm

/-- Witness for C16: two array lists with the contents 1, 2 but different capacities and
different stale cells are equal, and differ from one with the contents 1, 3; the linked
list built from 1, 2, 3 equals the reversal of the one built from 3, 2, 1, whose nodes
lie elsewhere in memory. -/
theorem list_equality_is_contents_equality_witness :
    (ArrayList.operator_eq (⟨2, 4, [1, 2, 9, 9]⟩ : ArrayList Int)
        ⟨2, 8, [1, 2, 0, 0, 0, 0, 0, 0]⟩ = .ok true ∧
      ArrayList.operator_ne (⟨2, 4, [1, 2, 9, 9]⟩ : ArrayList Int)
        ⟨2, 8, [1, 2, 0, 0, 0, 0, 0, 0]⟩ = .ok false ∧
      ArrayList.operator_eq (⟨2, 4, [1, 2, 9, 9]⟩ : ArrayList Int) ⟨2, 4, [1, 3, 9, 9]⟩
        = .ok false) ∧
    (∃ l, (SinglyLinkedList.ctor_il 100 SinglyLinkedList.ctor [(3 : Int), 2, 1]).2.reverse
        = (.ok (), l) ∧
      (SinglyLinkedList.ctor_il 100 SinglyLinkedList.ctor [(1 : Int), 2, 3]).2.operator_eq l
        = .ok true ∧
      l ≠ (SinglyLinkedList.ctor_il 100 SinglyLinkedList.ctor [(1 : Int), 2, 3]).2) := by
  refine ⟨⟨?_, ?_, ?_⟩, ?_⟩
  · obtain ⟨r, hr, _, _, hc⟩ := (list_equality_is_contents_equality (T := Int)).1
      ⟨2, 4, [1, 2, 9, 9]⟩ ⟨2, 8, [1, 2, 0, 0, 0, 0, 0, 0]⟩ (by decide) (by decide)
    rw [hr, hc.mpr (by decide)]
  · obtain ⟨r, _, hne, _, hc⟩ := (list_equality_is_contents_equality (T := Int)).1
      ⟨2, 4, [1, 2, 9, 9]⟩ ⟨2, 8, [1, 2, 0, 0, 0, 0, 0, 0]⟩ (by decide) (by decide)
    rw [hne, hc.mpr (by decide)]
    rfl
  · obtain ⟨r, hr, _, _, hc⟩ := (list_equality_is_contents_equality (T := Int)).1
      ⟨2, 4, [1, 2, 9, 9]⟩ ⟨2, 4, [1, 3, 9, 9]⟩ (by decide) (by decide)
    have : r = false := by
      cases r with
      | false => rfl
      | true => exact absurd (hc.mp rfl) (by decide)
    rw [hr, this]
  · obtain ⟨l, hl, hrep, _⟩ := SinglyLinkedList.reverse_rep _ _
      (SinglyLinkedList.ctor_il_snd_rep 100 [(3 : Int), 2, 1] (by decide))
    obtain ⟨r, hr, _, _, hc⟩ := (list_equality_is_contents_equality (T := Int)).2 _ l _ _
      (SinglyLinkedList.ctor_il_snd_rep 100 [(1 : Int), 2, 3] (by decide)) hrep
    refine ⟨l, hl, by rw [hr, hc.mpr (by decide)], ?_⟩
    intro heq
    rw [heq] at hl
    revert hl
    decide

/-- C17. `clear` empties the container and is idempotent. For every `ArrayList`: after
`clear()` the size is 0 and there are no contents, the list compares equal to the list
that `ArrayList()` constructs (for any non-negative `INIT_CAPACITY`), and a second
`clear()` leaves it in the same state. For every well-formed `SinglyLinkedList`:
`clear()` succeeds; afterwards the size is 0 and the list is well formed with no
contents, it compares equal to the list that `SinglyLinkedList()` constructs, and a
second `clear()` succeeds and leaves it in the same state. -/
theorem clear_empties_and_is_idempotent {T : Type} [DecidableEq T] [Inhabited T] :
    (∀ (a : ArrayList T) (INIT_CAPACITY : Int), 0 ≤ INIT_CAPACITY →
      ∃ fresh, ArrayList.ctor INIT_CAPACITY = .ok fresh ∧ fresh.size_ = 0 ∧
        a.clear.size_ = 0 ∧ a.clear.contents = [] ∧
        a.clear.operator_eq fresh = .ok true ∧ a.clear.clear = a.clear) ∧
    (∀ (l : SinglyLinkedList T) (xs : List T), l.Rep xs →
      ∃ l1, l.clear = (.ok (), l1) ∧ l1.size_ = 0 ∧ l1.Rep [] ∧
        l1.operator_eq SinglyLinkedList.ctor = .ok true ∧ l1.clear = (.ok (), l1)) := by
  constructor
  · intro a INIT_CAPACITY hinit
    refine ⟨⟨0, INIT_CAPACITY, List.replicate INIT_CAPACITY.toNat default⟩, ?_, rfl, rfl, ?_, ?_,
      rfl⟩
    · unfold ArrayList.ctor new_array
      rw [if_pos hinit]
    · unfold ArrayList.contents ArrayList.clear
      simp
    · unfold ArrayList.operator_eq ArrayList.clear
      simp [ArrayList.operator_eq_loop]
  · intro l xs hrep
    obtain ⟨l1, h1, hrep1, hs1, h2⟩ := SinglyLinkedList.clear_spec l xs hrep
    refine ⟨l1, h1, hs1, hrep1, ?_, h2⟩
    have := (SinglyLinkedList.linked_operator_eq_spec l1 SinglyLinkedList.ctor [] [] hrep1
      SinglyLinkedList.ctor_rep).1
    rw [this]
    rfl

/-- Witness for C17: the array list and the linked list with contents 1, 2, 3. -/
theorem clear_empties_and_is_idempotent_witness :
    (∃ fresh, ArrayList.ctor 4 = .ok fresh ∧ fresh.size_ = 0 ∧
      (ArrayList.clear (⟨3, 4, [1, 2, 3, 0]⟩ : ArrayList Int)).size_ = 0 ∧
      (ArrayList.clear (⟨3, 4, [1, 2, 3, 0]⟩ : ArrayList Int)).contents = [] ∧
      (ArrayList.clear (⟨3, 4, [1, 2, 3, 0]⟩ : ArrayList Int)).operator_eq fresh = .ok true ∧
      (ArrayList.clear (⟨3, 4, [1, 2, 3, 0]⟩ : ArrayList Int)).clear =
        ArrayList.clear (⟨3, 4, [1, 2, 3, 0]⟩ : ArrayList Int)) ∧
    (∃ l1, (SinglyLinkedList.ctor_il 100 SinglyLinkedList.ctor [(1 : Int), 2, 3]).2.clear
        = (.ok (), l1) ∧
      l1.size_ = 0 ∧ l1.Rep [] ∧ l1.operator_eq SinglyLinkedList.ctor = .ok true ∧
      l1.clear = (.ok (), l1)) :=
  ⟨(clear_empties_and_is_idempotent (T := Int)).1 ⟨3, 4, [1, 2, 3, 0]⟩ 4 (by decide),
   (clear_empties_and_is_idempotent (T := Int)).2 _ [1, 2, 3]
     (SinglyLinkedList.ctor_il_snd_rep 100 [(1 : Int), 2, 3] (by decide))⟩

/-- C18. Insert/remove round trip on `SinglyLinkedList`. For every well-formed list with
contents `xs` and `size_ < MAX_CAPACITY`, every index with `0 ≤ index ≤ size_` and every
element `e`: `insert(index, e)` succeeds, the following `remove(index)` succeeds and
returns `e`, and the list is then well formed with the contents `xs` and the size it
had at the start. -/
theorem SinglyLinkedList_insert_remove_round_trip {T : Type} (MAX_CAPACITY : Int)
    (l : SinglyLinkedList T) (xs : List T) (index : Int) (e : T) (hrep : l.Rep xs)
    (hfull : l.size_ < MAX_CAPACITY) (hlo : 0 ≤ index) (hhi : index ≤ l.size_) :
    ∃ l1 l2, l.insert MAX_CAPACITY index e = (.ok (), l1) ∧
      l1.Rep (xs.take index.toNat ++ e :: xs.drop index.toNat) ∧
      l1.remove index = (.ok e, l2) ∧ l2.Rep xs ∧ l2.size_ = l.size_ := by
  have hsz := hrep.list_size_eq
  obtain ⟨d, cells, rfl, hc⟩ := hrep
  obtain ⟨l1, hl1, hc1⟩ :=
    SinglyLinkedList.linked_insert_spec MAX_CAPACITY l d cells index e hc hfull hlo hhi
  obtain ⟨l2, hl2, hc2⟩ := SinglyLinkedList.remove_spec l1 d _ _ _ _ hc1
  rw [List.length_map] at hsz
  have hidx : (((cells.take index.toNat).length : Nat) : Int) = index := by
    rw [List.length_take]
    omega
  rw [hidx] at hl2
  rw [List.take_append_drop] at hc2
  refine ⟨l1, l2, hl1, ⟨d, _, ?_, hc1⟩, hl2, ⟨d, cells, rfl, hc2⟩, ?_⟩
  · rw [List.map_append, List.map_cons, List.map_take, List.map_drop]
  · rw [hc2.2.2, hsz]

/-- Witness for C18: inserting 9 at index 1 of the list 1, 2, 3 and removing index 1 again
returns 9 and leaves 1, 2, 3. -/
theorem SinglyLinkedList_insert_remove_round_trip_witness :
    ∃ l1 l2, (SinglyLinkedList.ctor_il 100 SinglyLinkedList.ctor [(1 : Int), 2, 3]).2.insert
        100 1 9 = (.ok (), l1) ∧
      l1.Rep [1, 9, 2, 3] ∧ l1.remove 1 = (.ok 9, l2) ∧ l2.Rep [1, 2, 3] ∧
      l2.size_ = (SinglyLinkedList.ctor_il 100 SinglyLinkedList.ctor [(1 : Int), 2, 3]).2.size_ :=
  SinglyLinkedList_insert_remove_round_trip 100 _ [1, 2, 3] 1 9
    (SinglyLinkedList.ctor_il_snd_rep 100 [(1 : Int), 2, 3] (by decide)) (by decide) (by decide)
    (by decide)

/-! ### LinkedQueue.c: the representation invariant -/

theorem LinkedQueue.walk_chain {h : Heap} : ∀ (cells : List (Nat × LinkedQueueItem))
    (fuel : Nat) (p : Option Nat), IsChain h p cells → cells.length ≤ fuel →
    LinkedQueue.walk h fuel p = .ok (cells.map Prod.fst)
  | [], fuel, p, hc, _ => by
    have hp : p = none := hc
    subst hp
    cases fuel <;> simp [LinkedQueue.walk]
  | (a, x) :: rest, fuel, p, ⟨hp, nxt, hget, hrest⟩, hfuel => by
    subst hp
    obtain ⟨f, rfl⟩ : ∃ f, fuel = f + 1 := ⟨fuel - 1, by
      simp only [List.length_cons] at hfuel; omega⟩
    have hload : Heap.load h a = .ok ⟨x, nxt⟩ := by
      unfold Heap.load; rw [hget]
    rw [LinkedQueue.walk, hload]
    simp only []
    rw [LinkedQueue.walk_chain rest f nxt hrest
      (by simp only [List.length_cons] at hfuel; omega)]
    rfl

/-- On a well-formed queue the walk from the header finds exactly the data nodes of the
representation. -/
theorem LinkedQueue.RepCells.data_nodes_eq {q : LinkedQueue}
    {cells : List (Nat × LinkedQueueItem)} (hrep : q.RepCells cells) :
    q.data_nodes = .ok (cells.map Prod.fst) := by
  obtain ⟨⟨d, nxt, hfront, hchain⟩, hnd, _, _⟩ := hrep
  have hlen : cells.length ≤ q.heap.length := by
    have := nodup_length_le_of_lt (cells.map Prod.fst) q.heap.length
      (List.nodup_cons.mp hnd).2 (IsChain.lt_length hchain)
    rw [List.length_map] at this
    exact this
  have hload : Heap.load q.heap q.front = .ok ⟨d, nxt⟩ := by
    unfold Heap.load; rw [hfront]
  unfold LinkedQueue.data_nodes
  rw [hload]
  exact LinkedQueue.walk_chain cells _ nxt hchain hlen

/-- Every queue that the interface produces is well formed. -/
theorem LinkedQueue.Reachable.repCells {q : LinkedQueue} (hq : q.Reachable) :
    ∃ cells, q.RepCells cells := by
  induction hq with
  | create =>
    obtain ⟨cells, _, hc⟩ := LinkedQueue_Create_rep
    exact ⟨cells, hc⟩
  | enqueue q data _ ih =>
    obtain ⟨cells, hc⟩ := ih
    by_cases hsz : q.size < INT_MAX
    · obtain ⟨q', hq', hc'⟩ := LinkedQueue_Enqueue_spec q cells data hc hsz
      rw [hq']
      exact ⟨_, hc'⟩
    · have hfull : LinkedQueue_Enqueue q data = (.error .full, q) := by
        unfold LinkedQueue_Enqueue check_full
        have : q.size ≥ INT_MAX := by omega
        simp only [this, if_true]
      rw [hfull]
      exact ⟨cells, hc⟩
  | dequeue q _ ih =>
    obtain ⟨cells, hc⟩ := ih
    cases cells with
    | nil =>
      have h0 : q.size = 0 := by rw [hc.2.2.2]; rfl
      rw [LinkedQueue_Dequeue_of_size_zero q h0]
      exact ⟨[], hc⟩
    | cons c rest =>
      obtain ⟨a, x⟩ := c
      obtain ⟨q', hq', hc'⟩ := LinkedQueue_Dequeue_spec q a x rest hc
      rw [hq']
      exact ⟨rest, hc'⟩

/-- C21. The representation invariant of `LinkedQueue`. In every queue that
`LinkedQueue_Create` followed by `LinkedQueue_Enqueue` and `LinkedQueue_Dequeue` calls
produces, the nodes linked after the header node end with `NULL`, `size` is their
number, and `rear` is the last of them, or the header when there is none;
`LinkedQueue_Size` returns that number and `LinkedQueue_IsEmpty` is true exactly when it
is 0. In particular `LinkedQueue_Dequeue` on such a queue with one data node returns
its item and resets `rear` to the header; and on every such queue that is empty,
`rear` is the header and `LinkedQueue_Enqueue` of `x` succeeds and gives a queue of
size 1 whose front is `x`. -/
theorem LinkedQueue_representation_invariant :
    (∀ q : LinkedQueue, q.Reachable →
      ∃ nodes, q.data_nodes = .ok nodes ∧ q.size = nodes.length ∧
        q.rear = nodes.getLastD q.front ∧
        (nodes = [] → q.rear = q.front) ∧
        LinkedQueue_Size q = nodes.length ∧
        (LinkedQueue_IsEmpty q = true ↔ nodes = []) ∧
        (LinkedQueue_IsEmpty q = true ↔ LinkedQueue_Size q = 0)) ∧
    (∀ (q : LinkedQueue) (a : Nat), q.Reachable → q.data_nodes = .ok [a] →
      ∃ x q1, LinkedQueue_Dequeue q = (.ok x, q1) ∧ q1.rear = q1.front ∧
        q1.data_nodes = .ok [] ∧ q1.size = 0) ∧
    (∀ (q : LinkedQueue) (x : LinkedQueueItem), q.Reachable → LinkedQueue_IsEmpty q = true →
      q.rear = q.front ∧
      ∃ q2, LinkedQueue_Enqueue q x = (.ok (), q2) ∧ LinkedQueue_Size q2 = 1 ∧
        LinkedQueue_Front q2 = (.ok x, q2)) := by
  refine ⟨?_, ?_, ?_⟩
  · intro q hq
    obtain ⟨cells, hc⟩ := hq.repCells
    have hsize : q.size = ((cells.map Prod.fst).length : Nat) := by
      rw [List.length_map]; exact hc.2.2.2
    refine ⟨cells.map Prod.fst, hc.data_nodes_eq, hsize, hc.2.2.1, ?_, hsize, ?_, ?_⟩
    · intro hnil
      rw [hc.2.2.1, hnil]
      rfl
    · unfold LinkedQueue_IsEmpty
      rw [beq_iff_eq, hsize]
      constructor
      · intro h
        exact List.length_eq_zero.mp (by omega)
      · intro h
        rw [h]
        rfl
    · unfold LinkedQueue_IsEmpty LinkedQueue_Size
      rw [beq_iff_eq]
  · intro q a hq hnodes
    obtain ⟨cells, hc⟩ := hq.repCells
    have hmap : cells.map Prod.fst = [a] := by
      have := hc.data_nodes_eq
      rw [hnodes] at this
      exact (Except.ok.inj this).symm
    obtain ⟨⟨a', x⟩, hcells⟩ : ∃ c, cells = [c] := by
      cases cells with
      | nil => simp at hmap
      | cons c rest =>
        cases rest with
        | nil => exact ⟨c, rfl⟩
        | cons c2 rest2 => simp at hmap
    subst hcells
    obtain ⟨q1, hq1, hc1⟩ := LinkedQueue_Dequeue_spec q a' x [] hc
    exact ⟨x, q1, hq1, hc1.2.2.1, hc1.data_nodes_eq, hc1.2.2.2⟩
  · intro q x hq hempty
    obtain ⟨cells, hc⟩ := hq.repCells
    have h0 : q.size = 0 := by
      unfold LinkedQueue_IsEmpty at hempty
      exact beq_iff_eq.mp hempty
    have hcells : cells = [] := by
      apply List.length_eq_zero.mp
      have := hc.2.2.2
      omega
    subst hcells
    obtain ⟨q2, hq2, hc2⟩ := LinkedQueue_Enqueue_spec q [] x hc
      (by rw [h0]; decide)
    refine ⟨hc.2.2.1, q2, hq2, ?_, ?_⟩
    · unfold LinkedQueue_Size
      rw [hc2.2.2.2]
      rfl
    · exact LinkedQueue_Front_rep q2 [] x ⟨[] ++ [(q.heap.length, x)], by simp, hc2⟩

/-- Witness for C21: on the fresh queue, enqueue 1 and dequeue: the queue is empty
again and `rear` is the header; enqueue 7 then gives size 1 and front 7. -/
theorem LinkedQueue_representation_invariant_witness :
    (LinkedQueue_Dequeue (LinkedQueue_Enqueue LinkedQueue_Create 1).2).2.rear =
      (LinkedQueue_Dequeue (LinkedQueue_Enqueue LinkedQueue_Create 1).2).2.front ∧
    ∃ q2, LinkedQueue_Enqueue
        (LinkedQueue_Dequeue (LinkedQueue_Enqueue LinkedQueue_Create 1).2).2 7 = (.ok (), q2) ∧
      LinkedQueue_Size q2 = 1 ∧ LinkedQueue_Front q2 = (.ok 7, q2) :=
  LinkedQueue_representation_invariant.2.2
    (LinkedQueue_Dequeue (LinkedQueue_Enqueue LinkedQueue_Create 1).2).2 7
    (.dequeue _ (.enqueue _ 1 .create)) (by decide)

/-! ### The lists: the order of the checks in `insert` and `remove` -/

theorem arr_get_fault {T : Type} (data : List T) (i : Int) (e : Error)
    (h : arr_get data i = .error e) : e = .fault := by
  unfold arr_get at h
  split at h
  · split at h
    · exact absurd h (by simp)
    · exact (Except.error.inj h).symm
  · exact (Except.error.inj h).symm

theorem arr_set_fault {T : Type} (data : List T) (i : Int) (x : T) (e : Error)
    (h : arr_set data i x = .error e) : e = .fault := by
  unfold arr_set at h
  split at h
  · exact absurd h (by simp)
  · exact (Except.error.inj h).symm

theorem ArrayList.insert_shift_fault {T : Type} (index : Int) : ∀ (fuel : Nat) (i : Int)
    (data : List T) (e : Error), ArrayList.insert_shift index fuel i data = .error e → e = .fault
  | 0, _, _, e, h => by simp [ArrayList.insert_shift] at h
  | fuel + 1, i, data, e, h => by
    rw [ArrayList.insert_shift] at h
    split at h
    · split at h
      · rename_i e1 hg
        rw [Except.error.inj h] at hg
        exact arr_get_fault _ _ _ hg
      · split at h
        · rename_i e1 hs
          rw [Except.error.inj h] at hs
          exact arr_set_fault _ _ _ _ hs
        · exact ArrayList.insert_shift_fault index fuel _ _ e h
    · exact absurd h (by simp)

theorem ArrayList.remove_shift_fault {T : Type} (size : Int) : ∀ (fuel : Nat) (i : Int)
    (data : List T) (e : Error), ArrayList.remove_shift size fuel i data = .error e → e = .fault
  | 0, _, _, e, h => by simp [ArrayList.remove_shift] at h
  | fuel + 1, i, data, e, h => by
    rw [ArrayList.remove_shift] at h
    split at h
    · split at h
      · rename_i e1 hg
        rw [Except.error.inj h] at hg
        exact arr_get_fault _ _ _ hg
      · split at h
        · rename_i e1 hs
          rw [Except.error.inj h] at hs
          exact arr_set_fault _ _ _ _ hs
        · exact ArrayList.remove_shift_fault size fuel _ _ e h
    · exact absurd h (by simp)

theorem new_array_fault {T : Type} [Inhabited T] (n : Int) (e : Error)
    (h : (new_array n : Except Error (List T)) = .error e) : e = .fault := by
  unfold new_array at h
  split at h
  · exact absurd h (by simp)
  · exact (Except.error.inj h).symm

theorem std_copy_fault {T : Type} (src : List T) (n : Int) (dst : List T) (e : Error)
    (h : std_copy src n dst = .error e) : e = .fault := by
  unfold std_copy at h
  split at h
  · exact absurd h (by simp)
  · exact (Except.error.inj h).symm

theorem ArrayList.expand_capacity_fault {T : Type} [Inhabited T] (MAX_CAPACITY : Int)
    (alloc : Bool) (self : ArrayList T) (e : Error)
    (h : (self.expand_capacity MAX_CAPACITY alloc).1 = .error e) :
    e = .fault ∨ e = .alloc := by
  unfold ArrayList.expand_capacity at h
  simp only [] at h
  split at h
  · rename_i e1 hn
    simp only [] at h
    rw [Except.error.inj h] at hn
    split at hn
    · exact Or.inl (new_array_fault _ _ hn)
    · exact Or.inr (Except.error.inj hn).symm
  · split at h
    · rename_i e1 hc
      simp only [] at h
      rw [Except.error.inj h] at hc
      exact Or.inl (std_copy_fault _ _ _ _ hc)
    · exact absurd h (by simp)

theorem ArrayList.ConstRef.read_fault {T : Type} (element : ArrayList.ConstRef T)
    (data : List T) (deleted : Bool) (e : Error)
    (h : element.read data deleted = .error e) : e = .fault := by
  unfold ArrayList.ConstRef.read at h
  split at h
  · exact absurd h (by simp)
  · split at h
    · exact (Except.error.inj h).symm
    · exact arr_get_fault _ _ _ h

theorem NodeHeap.load_fault {T : Type} (h : NodeHeap T) (a : Nat) (e : Error)
    (hl : h.load a = .error e) : e = .fault := by
  unfold NodeHeap.load at hl
  split at hl
  · exact absurd hl (by simp)
  · exact (Except.error.inj hl).symm

theorem SinglyLinkedList.advance_fault {T : Type} (h : NodeHeap T) : ∀ (n : Nat)
    (current : Option Nat) (e : Error),
    SinglyLinkedList.advance h n current = .error e → e = .fault
  | 0, _, e, hadv => by simp [SinglyLinkedList.advance] at hadv
  | n + 1, none, e, hadv => by
    simp only [SinglyLinkedList.advance, Except.error.injEq] at hadv
    exact hadv.symm
  | n + 1, some a, e, hadv => by
    simp only [SinglyLinkedList.advance] at hadv
    split at hadv
    · rename_i e1 hl
      rw [Except.error.inj hadv] at hl
      exact NodeHeap.load_fault _ _ _ hl
    · exact SinglyLinkedList.advance_fault h n _ e hadv

/-- Once both checks of `ArrayList::remove` have passed, the only way the model stops is
a fault. -/
theorem ArrayList.remove_after_checks {T : Type} (a : ArrayList T) (index : Int)
    (h1 : a.size_ ≠ 0) (h2 : ¬ (index < 0 ∨ index ≥ a.size_)) (e : Error)
    (h : (a.remove index).1 = .error e) : e = .fault := by
  unfold ArrayList.remove check_empty check_bounds at h
  simp only [h1, h2, if_false] at h
  split at h
  · rename_i e1 hg
    simp only [] at h
    rw [Except.error.inj h] at hg
    exact arr_get_fault _ _ _ hg
  · split at h
    · rename_i e1 hs
      simp only [] at h
      rw [Except.error.inj h] at hs
      exact ArrayList.remove_shift_fault _ _ _ _ _ hs
    · exact absurd h (by simp)

/-- Once both checks of `ArrayList::insert` have passed, the model stops only with a
fault or with `std::bad_alloc`. -/
theorem ArrayList.insert_after_checks {T : Type} [Inhabited T] (MAX_CAPACITY : Int)
    (alloc : Bool) (a : ArrayList T) (index : Int) (x : ArrayList.ConstRef T)
    (h1 : a.size_ < MAX_CAPACITY) (h2 : ¬ (index < 0 ∨ index > a.size_)) (e : Error)
    (h : (a.insert MAX_CAPACITY alloc index x).1 = .error e) : e = .fault ∨ e = .alloc := by
  unfold ArrayList.insert check_full check_bounds at h
  have c1 : ¬ (a.size_ ≥ MAX_CAPACITY) := by omega
  have c2 : ¬ (index < 0 ∨ index ≥ a.size_ + 1) := by omega
  simp only [c1, c2, if_false] at h
  split at h
  · rename_i e1 self1 hx
    simp only [] at h
    split at hx
    · have := congrArg Prod.fst hx
      simp only [] at this
      rw [Except.error.inj h] at this
      exact ArrayList.expand_capacity_fault _ _ _ _ this
    · exact absurd (congrArg Prod.fst hx) (by simp)
  · split at h
    · rename_i e1 hs
      simp only [] at h
      rw [Except.error.inj h] at hs
      exact Or.inl (ArrayList.insert_shift_fault _ _ _ _ _ hs)
    · split at h
      · rename_i e1 hs
        simp only [] at h
        rw [Except.error.inj h] at hs
        exact Or.inl (ArrayList.ConstRef.read_fault _ _ _ _ hs)
      · split at h
        · rename_i e1 hs
          simp only [] at h
          rw [Except.error.inj h] at hs
          exact Or.inl (arr_set_fault _ _ _ _ hs)
        · exact absurd h (by simp)

/-- Once both checks of `SinglyLinkedList::remove` have passed, the only way the model
stops is a fault. -/
theorem SinglyLinkedList.linked_remove_after_checks {T : Type} (l : SinglyLinkedList T) (index : Int)
    (h1 : l.size_ ≠ 0) (h2 : ¬ (index < 0 ∨ index ≥ l.size_)) (e : Error)
    (h : (l.remove index).1 = .error e) : e = .fault := by
  unfold SinglyLinkedList.remove check_empty check_bounds at h
  simp only [h1, h2, if_false] at h
  split at h
  · rename_i e1 ha
    simp only [] at h
    rw [Except.error.inj h] at ha
    exact SinglyLinkedList.advance_fault _ _ _ _ ha
  · exact (Except.error.inj h).symm
  · split at h
    · rename_i e1 hl
      simp only [] at h
      rw [Except.error.inj h] at hl
      exact NodeHeap.load_fault _ _ _ hl
    · split at h
      · exact (Except.error.inj h).symm
      · split at h
        · rename_i e1 hl
          simp only [] at h
          rw [Except.error.inj h] at hl
          exact NodeHeap.load_fault _ _ _ hl
        · exact absurd h (by simp)

/-- Once both checks of `SinglyLinkedList::insert` have passed, the only way the model
stops is a fault. -/
theorem SinglyLinkedList.linked_insert_after_checks {T : Type} (MAX_CAPACITY : Int)
    (l : SinglyLinkedList T) (index : Int) (x : T)
    (h1 : l.size_ < MAX_CAPACITY) (h2 : ¬ (index < 0 ∨ index > l.size_)) (e : Error)
    (h : (l.insert MAX_CAPACITY index x).1 = .error e) : e = .fault := by
  unfold SinglyLinkedList.insert check_full check_bounds at h
  have c1 : ¬ (l.size_ ≥ MAX_CAPACITY) := by omega
  have c2 : ¬ (index < 0 ∨ index ≥ l.size_ + 1) := by omega
  simp only [c1, c2, if_false] at h
  split at h
  · rename_i e1 ha
    simp only [] at h
    rw [Except.error.inj h] at ha
    exact SinglyLinkedList.advance_fault _ _ _ _ ha
  · exact (Except.error.inj h).symm
  · split at h
    · rename_i e1 hl
      simp only [] at h
      rw [Except.error.inj h] at hl
      exact NodeHeap.load_fault _ _ _ hl
    · exact absurd h (by simp [NodeHeap.new_node])

/-- C22. Error precedence in the list mutators, for `ArrayList` and for
`SinglyLinkedList` (any list, any index, any element, be it a cell of the list itself
or not, and whether or not an allocation can be served). `remove(index)` on a list with
`size_ = 0` stops with the empty-container error and leaves the list as it is, whatever
the index; it stops with the empty-container error exactly when `size_ = 0`, and
with the bounds error exactly when `size_ ≠ 0` and `index < 0` or `index ≥ size_`.
`insert(index, e)` on a list with `size_ ≥ MAX_CAPACITY` stops with the full-container
error and leaves the list as it is, whatever the index; it stops with the
full-container error exactly when `size_ ≥ MAX_CAPACITY`, and with the bounds error
exactly when `size_ < MAX_CAPACITY` and `index < 0` or `index > size_`. -/
theorem list_mutators_error_precedence {T : Type} [Inhabited T] (MAX_CAPACITY : Int) :
    (∀ (a : ArrayList T) (index : Int),
      (a.size_ = 0 → a.remove index = (.error .empty, a)) ∧
      ((a.remove index).1 = .error .empty ↔ a.size_ = 0) ∧
      ((a.remove index).1 = .error .bounds ↔
        a.size_ ≠ 0 ∧ (index < 0 ∨ index ≥ a.size_))) ∧
    (∀ (l : SinglyLinkedList T) (index : Int),
      (l.size_ = 0 → l.remove index = (.error .empty, l)) ∧
      ((l.remove index).1 = .error .empty ↔ l.size_ = 0) ∧
      ((l.remove index).1 = .error .bounds ↔
        l.size_ ≠ 0 ∧ (index < 0 ∨ index ≥ l.size_))) ∧
    (∀ (a : ArrayList T) (index : Int) (e : ArrayList.ConstRef T) (alloc : Bool),
      (a.size_ ≥ MAX_CAPACITY → a.insert MAX_CAPACITY alloc index e = (.error .full, a)) ∧
      ((a.insert MAX_CAPACITY alloc index e).1 = .error .full ↔ a.size_ ≥ MAX_CAPACITY) ∧
      ((a.insert MAX_CAPACITY alloc index e).1 = .error .bounds ↔
        a.size_ < MAX_CAPACITY ∧ (index < 0 ∨ index > a.size_))) ∧
    (∀ (l : SinglyLinkedList T) (index : Int) (e : T),
      (l.size_ ≥ MAX_CAPACITY → l.insert MAX_CAPACITY index e = (.error .full, l)) ∧
      ((l.insert MAX_CAPACITY index e).1 = .error .full ↔ l.size_ ≥ MAX_CAPACITY) ∧
      ((l.insert MAX_CAPACITY index e).1 = .error .bounds ↔
        l.size_ < MAX_CAPACITY ∧ (index < 0 ∨ index > l.size_))) := by
  refine ⟨?_, ?_, ?_, ?_⟩
  · intro a index
    have hempty : a.size_ = 0 → a.remove index = (.error .empty, a) := by
      intro h
      unfold ArrayList.remove check_empty
      simp only [h, if_true]
    have hbounds : a.size_ ≠ 0 → (index < 0 ∨ index ≥ a.size_) →
        a.remove index = (.error .bounds, a) := by
      intro h1 h2
      unfold ArrayList.remove check_empty check_bounds
      simp only [h1, h2, if_false, if_true]
    refine ⟨hempty, ⟨?_, fun h => by rw [hempty h]⟩, ⟨?_, fun h => by rw [hbounds h.1 h.2]⟩⟩
    · intro h
      by_contra h1
      by_cases h2 : index < 0 ∨ index ≥ a.size_
      · rw [hbounds h1 h2] at h
        exact absurd h (by simp)
      · exact absurd (ArrayList.remove_after_checks a index h1 h2 _ h) (by simp)
    · intro h
      by_cases h1 : a.size_ = 0
      · rw [hempty h1] at h
        exact absurd h (by simp)
      · refine ⟨h1, ?_⟩
        by_contra h2
        exact absurd (ArrayList.remove_after_checks a index h1 h2 _ h) (by simp)
  · intro l index
    have hempty : l.size_ = 0 → l.remove index = (.error .empty, l) := by
      intro h
      unfold SinglyLinkedList.remove check_empty
      simp only [h, if_true]
    have hbounds : l.size_ ≠ 0 → (index < 0 ∨ index ≥ l.size_) →
        l.remove index = (.error .bounds, l) := by
      intro h1 h2
      unfold SinglyLinkedList.remove check_empty check_bounds
      simp only [h1, h2, if_false, if_true]
    refine ⟨hempty, ⟨?_, fun h => by rw [hempty h]⟩, ⟨?_, fun h => by rw [hbounds h.1 h.2]⟩⟩
    · intro h
      by_contra h1
      by_cases h2 : index < 0 ∨ index ≥ l.size_
      · rw [hbounds h1 h2] at h
        exact absurd h (by simp)
      · exact absurd (SinglyLinkedList.linked_remove_after_checks l index h1 h2 _ h) (by simp)
    · intro h
      by_cases h1 : l.size_ = 0
      · rw [hempty h1] at h
        exact absurd h (by simp)
      · refine ⟨h1, ?_⟩
        by_contra h2
        exact absurd (SinglyLinkedList.linked_remove_after_checks l index h1 h2 _ h) (by simp)
  · intro a index e alloc
    have hfull : a.size_ ≥ MAX_CAPACITY →
        a.insert MAX_CAPACITY alloc index e = (.error .full, a) := by
      intro h
      unfold ArrayList.insert check_full
      simp only [h, if_true]
    have hbounds : a.size_ < MAX_CAPACITY → (index < 0 ∨ index > a.size_) →
        a.insert MAX_CAPACITY alloc index e = (.error .bounds, a) := by
      intro h1 h2
      unfold ArrayList.insert check_full check_bounds
      have c1 : ¬ (a.size_ ≥ MAX_CAPACITY) := by omega
      have c2 : index < 0 ∨ index ≥ a.size_ + 1 := by omega
      simp only [c1, c2, if_false, if_true]
    refine ⟨hfull, ⟨?_, fun h => by rw [hfull h]⟩, ⟨?_, fun h => by rw [hbounds h.1 h.2]⟩⟩
    · intro h
      by_contra h1
      by_cases h2 : index < 0 ∨ index > a.size_
      · rw [hbounds (by omega) h2] at h
        exact absurd h (by simp)
      · rcases ArrayList.insert_after_checks MAX_CAPACITY alloc a index e (by omega) h2 _ h
          with h3 | h3 <;> exact absurd h3 (by simp)
    · intro h
      by_cases h1 : a.size_ ≥ MAX_CAPACITY
      · rw [hfull h1] at h
        exact absurd h (by simp)
      · refine ⟨by omega, ?_⟩
        by_contra h2
        rcases ArrayList.insert_after_checks MAX_CAPACITY alloc a index e (by omega) h2 _ h
          with h3 | h3 <;> exact absurd h3 (by simp)
  · intro l index e
    have hfull : l.size_ ≥ MAX_CAPACITY → l.insert MAX_CAPACITY index e = (.error .full, l) := by
      intro h
      unfold SinglyLinkedList.insert check_full
      simp only [h, if_true]
    have hbounds : l.size_ < MAX_CAPACITY → (index < 0 ∨ index > l.size_) →
        l.insert MAX_CAPACITY index e = (.error .bounds, l) := by
      intro h1 h2
      unfold SinglyLinkedList.insert check_full check_bounds
      have c1 : ¬ (l.size_ ≥ MAX_CAPACITY) := by omega
      have c2 : index < 0 ∨ index ≥ l.size_ + 1 := by omega
      simp only [c1, c2, if_false, if_true]
    refine ⟨hfull, ⟨?_, fun h => by rw [hfull h]⟩, ⟨?_, fun h => by rw [hbounds h.1 h.2]⟩⟩
    · intro h
      by_contra h1
      by_cases h2 : index < 0 ∨ index > l.size_
      · rw [hbounds (by omega) h2] at h
        exact absurd h (by simp)
      · exact absurd
          (SinglyLinkedList.linked_insert_after_checks MAX_CAPACITY l index e (by omega) h2 _ h)
          (by simp)
    · intro h
      by_cases h1 : l.size_ ≥ MAX_CAPACITY
      · rw [hfull h1] at h
        exact absurd h (by simp)
      · refine ⟨by omega, ?_⟩
        by_contra h2
        exact absurd
          (SinglyLinkedList.linked_insert_after_checks MAX_CAPACITY l index e (by omega) h2 _ h)
          (by simp)

/-- Witness for C22, with `MAX_CAPACITY = 3`: on the empty array list and the empty
linked list `remove` at the indices -1, 0 and 5 stops with the empty-container error;
on the lists with contents 1, 2, 3 `insert` at the indices -1 and 9 stops with the
full-container error, and `remove(5)` stops with the bounds error. -/
theorem list_mutators_error_precedence_witness :
    ((ArrayList.remove (⟨0, 4, [0, 0, 0, 0]⟩ : ArrayList Int) (-1)).1 = .error .empty ∧
      (ArrayList.remove (⟨0, 4, [0, 0, 0, 0]⟩ : ArrayList Int) 0).1 = .error .empty ∧
      (ArrayList.remove (⟨0, 4, [0, 0, 0, 0]⟩ : ArrayList Int) 5).1 = .error .empty) ∧
    (((SinglyLinkedList.ctor : SinglyLinkedList Int).remove (-1)).1 = .error .empty ∧
      ((SinglyLinkedList.ctor : SinglyLinkedList Int).remove 0).1 = .error .empty ∧
      ((SinglyLinkedList.ctor : SinglyLinkedList Int).remove 5).1 = .error .empty) ∧
    ((ArrayList.insert 3 true (⟨3, 4, [1, 2, 3, 0]⟩ : ArrayList Int) (-1) (.object 9)).1
        = .error .full ∧
      (ArrayList.insert 3 true (⟨3, 4, [1, 2, 3, 0]⟩ : ArrayList Int) 9 (.object 9)).1
        = .error .full ∧
      (ArrayList.remove (⟨3, 4, [1, 2, 3, 0]⟩ : ArrayList Int) 5).1 = .error .bounds) ∧
    (((SinglyLinkedList.ctor_il 3 SinglyLinkedList.ctor [(1 : Int), 2, 3]).2.insert 3 (-1) 9).1
        = .error .full ∧
      ((SinglyLinkedList.ctor_il 3 SinglyLinkedList.ctor [(1 : Int), 2, 3]).2.insert 3 9 9).1
        = .error .full ∧
      ((SinglyLinkedList.ctor_il 3 SinglyLinkedList.ctor [(1 : Int), 2, 3]).2.remove 5).1
        = .error .bounds) :=
  have h := list_mutators_error_precedence (T := Int) 3
  ⟨⟨(h.1 _ (-1)).2.1.mpr rfl, (h.1 _ 0).2.1.mpr rfl, (h.1 _ 5).2.1.mpr rfl⟩,
   ⟨(h.2.1 _ (-1)).2.1.mpr rfl, (h.2.1 _ 0).2.1.mpr rfl, (h.2.1 _ 5).2.1.mpr rfl⟩,
   ⟨(h.2.2.1 _ (-1) (.object 9) true).2.1.mpr (by decide),
     (h.2.2.1 _ 9 (.object 9) true).2.1.mpr (by decide),
     (h.1 _ 5).2.2.mpr (by decide)⟩,
   ⟨(h.2.2.2 _ (-1) 9).2.1.mpr (by decide), (h.2.2.2 _ 9 9).2.1.mpr (by decide),
     (h.2.1 _ 5).2.2.mpr (by decide)⟩⟩

/-! ### ArrayList.hpp: what `insert` raises -/

/-- C12, the claim as stated fails. The list with contents 1, 2, 3, 4 in a full array of
four cells, `MAX_CAPACITY = 100`, index 0, the element 9 (an object of its own), and
an allocation that cannot be served: none of `size_ ≥ MAX_CAPACITY`, `index < 0`,
`index > size_` holds, yet the call raises (`std::bad_alloc`, out of
`expand_capacity`), and the list it leaves has capacity 8 instead of 4, since
`capacity_` is rewritten before the allocation is attempted. -/
theorem ArrayList_insert_raises_bad_alloc :
    ¬ ((4 : Int) ≥ 100 ∨ (0 : Int) < 0 ∨ (0 : Int) > 4) ∧
    (ArrayList.insert 100 false (⟨4, 4, [1, 2, 3, 4]⟩ : ArrayList Int) 0 (.object 9)).1
      = .error .alloc ∧
    (ArrayList.insert 100 false (⟨4, 4, [1, 2, 3, 4]⟩ : ArrayList Int) 0 (.object 9)).2.capacity_
      = 8 ∧
    (ArrayList.insert 100 false (⟨4, 4, [1, 2, 3, 4]⟩ : ArrayList Int) 0 (.object 9)).2.capacity_
      ≠ (⟨4, 4, [1, 2, 3, 4]⟩ : ArrayList Int).capacity_ := by
  refine ⟨by decide, by decide, by decide, by decide⟩

/-- C12, amended. For every list, index and element, and whether or not an allocation
can be served: `ArrayList::insert(index, e)` raises the full-container error if and
only if `size_ ≥ MAX_CAPACITY`, and the bounds error if and only if
`size_ < MAX_CAPACITY` and `index < 0` or `index > size_`; so it raises one of the two
if and only if `size_ ≥ MAX_CAPACITY` or `index < 0` or `index > size_`; and whenever it
raises one of the two, the list afterwards is the list before the call: contents, size
and capacity are unchanged (both checks run before any mutation or reallocation). On a
well-formed list, with an element that is not a cell of the list itself, the only other
way the call raises is `std::bad_alloc`, exactly when none of the three conditions
holds, the array is full and the allocation cannot be served. -/
theorem ArrayList_insert_raises {T : Type} [Inhabited T] (MAX_CAPACITY : Int) :
    (∀ (self : ArrayList T) (index : Int) (e : ArrayList.ConstRef T) (alloc : Bool),
      ((self.insert MAX_CAPACITY alloc index e).1 = .error .full ↔
        self.size_ ≥ MAX_CAPACITY) ∧
      ((self.insert MAX_CAPACITY alloc index e).1 = .error .bounds ↔
        self.size_ < MAX_CAPACITY ∧ (index < 0 ∨ index > self.size_)) ∧
      (((self.insert MAX_CAPACITY alloc index e).1 = .error .full ∨
          (self.insert MAX_CAPACITY alloc index e).1 = .error .bounds) ↔
        (self.size_ ≥ MAX_CAPACITY ∨ index < 0 ∨ index > self.size_)) ∧
      (((self.insert MAX_CAPACITY alloc index e).1 = .error .full ∨
          (self.insert MAX_CAPACITY alloc index e).1 = .error .bounds) →
        (self.insert MAX_CAPACITY alloc index e).2 = self ∧
        (self.insert MAX_CAPACITY alloc index e).2.contents = self.contents ∧
        (self.insert MAX_CAPACITY alloc index e).2.size_ = self.size_ ∧
        (self.insert MAX_CAPACITY alloc index e).2.capacity_ = self.capacity_)) ∧
    (∀ (self : ArrayList T) (index : Int) (x : T) (alloc : Bool), self.WF →
      ((∃ err, (self.insert MAX_CAPACITY alloc index (.object x)).1 = .error err) ↔
        ((self.size_ ≥ MAX_CAPACITY ∨ index < 0 ∨ index > self.size_) ∨
          (self.size_ = self.capacity_ ∧ alloc = false))) ∧
      ((self.insert MAX_CAPACITY alloc index (.object x)).1 = .error .alloc ↔
        (¬ (self.size_ ≥ MAX_CAPACITY ∨ index < 0 ∨ index > self.size_) ∧
          self.size_ = self.capacity_ ∧ alloc = false))) := by
  have hfull : ∀ (self : ArrayList T) (index : Int) (e : ArrayList.ConstRef T) (alloc : Bool),
      self.size_ ≥ MAX_CAPACITY →
      self.insert MAX_CAPACITY alloc index e = (.error .full, self) := by
    intro self index e alloc h
    unfold ArrayList.insert check_full
    simp only [h, if_true]
  have hbounds : ∀ (self : ArrayList T) (index : Int) (e : ArrayList.ConstRef T)
      (alloc : Bool), self.size_ < MAX_CAPACITY → (index < 0 ∨ index > self.size_) →
      self.insert MAX_CAPACITY alloc index e = (.error .bounds, self) := by
    intro self index e alloc h1 h2
    unfold ArrayList.insert check_full check_bounds
    have c1 : ¬ (self.size_ ≥ MAX_CAPACITY) := by omega
    have c2 : index < 0 ∨ index ≥ self.size_ + 1 := by omega
    simp only [c1, c2, if_false, if_true]
  have hpast : ∀ (self : ArrayList T) (index : Int) (e : ArrayList.ConstRef T) (alloc : Bool),
      self.size_ < MAX_CAPACITY → ¬ (index < 0 ∨ index > self.size_) →
      (self.insert MAX_CAPACITY alloc index e).1 ≠ .error .full ∧
      (self.insert MAX_CAPACITY alloc index e).1 ≠ .error .bounds := by
    intro self index e alloc h1 h2
    constructor <;>
    · intro h
      rcases ArrayList.insert_after_checks MAX_CAPACITY alloc self index e h1 h2 _ h
        with h3 | h3 <;> exact absurd h3 (by simp)
  have hcases : ∀ (self : ArrayList T) (index : Int) (e : ArrayList.ConstRef T)
      (alloc : Bool),
      ((self.insert MAX_CAPACITY alloc index e).1 = .error .full ↔
        self.size_ ≥ MAX_CAPACITY) ∧
      ((self.insert MAX_CAPACITY alloc index e).1 = .error .bounds ↔
        self.size_ < MAX_CAPACITY ∧ (index < 0 ∨ index > self.size_)) := by
    intro self index e alloc
    by_cases h1 : self.size_ ≥ MAX_CAPACITY
    · rw [hfull self index e alloc h1]
      exact ⟨by simp [h1], by simp; intro h; omega⟩
    · by_cases h2 : index < 0 ∨ index > self.size_
      · rw [hbounds self index e alloc (by omega) h2]
        exact ⟨by simp [h1], by simp; exact ⟨by omega, h2⟩⟩
      · obtain ⟨n1, n2⟩ := hpast self index e alloc (by omega) h2
        exact ⟨⟨fun h => absurd h n1, fun h => absurd h h1⟩,
          ⟨fun h => absurd h n2, fun h => absurd h.2 h2⟩⟩
  constructor
  · intro self index e alloc
    obtain ⟨hf, hb⟩ := hcases self index e alloc
    refine ⟨hf, hb, ?_, ?_⟩
    · rw [hf, hb]
      constructor
      · rintro (h | h)
        · exact Or.inl h
        · exact Or.inr h.2
      · intro h
        by_cases h1 : self.size_ ≥ MAX_CAPACITY
        · exact Or.inl h1
        · exact Or.inr ⟨by omega, by omega⟩
    · intro h
      have hsame : (self.insert MAX_CAPACITY alloc index e).2 = self := by
        rcases h with h | h
        · rw [hfull self index e alloc (hf.mp h)]
        · rw [hbounds self index e alloc (hb.mp h).1 (hb.mp h).2]
      exact ⟨hsame, by rw [hsame], by rw [hsame], by rw [hsame]⟩
  · intro self index x alloc hwf
    have hbad : ¬ (self.size_ ≥ MAX_CAPACITY ∨ index < 0 ∨ index > self.size_) →
        self.size_ = self.capacity_ → alloc = false →
        (self.insert MAX_CAPACITY alloc index (.object x)).1 = .error .alloc := by
      intro hc heq hal
      unfold ArrayList.insert check_full check_bounds
      have c1 : ¬ (self.size_ ≥ MAX_CAPACITY) := by omega
      have c2 : ¬ (index < 0 ∨ index ≥ self.size_ + 1) := by omega
      simp only [c1, c2, if_false]
      unfold ArrayList.expand_capacity
      simp [heq, hal]
    have hgood : ¬ (self.size_ ≥ MAX_CAPACITY ∨ index < 0 ∨ index > self.size_) →
        (self.size_ = self.capacity_ → alloc = true) →
        (self.insert MAX_CAPACITY alloc index (.object x)).1 = .ok () := by
      intro hc hal
      obtain ⟨self', h, _⟩ := ArrayList.insert_spec MAX_CAPACITY alloc self index x hwf
        (by omega) (by omega) (by omega) hal
      rw [h]
    obtain ⟨hf, hb⟩ := hcases self index (.object x) alloc
    by_cases hc : self.size_ ≥ MAX_CAPACITY ∨ index < 0 ∨ index > self.size_
    · have herr : (self.insert MAX_CAPACITY alloc index (.object x)).1 = .error .full ∨
          (self.insert MAX_CAPACITY alloc index (.object x)).1 = .error .bounds := by
        by_cases h1 : self.size_ ≥ MAX_CAPACITY
        · exact Or.inl (hf.mpr h1)
        · exact Or.inr (hb.mpr ⟨by omega, by omega⟩)
      constructor
      · exact ⟨fun _ => Or.inl hc, fun _ => by
          rcases herr with h | h
          · exact ⟨_, h⟩
          · exact ⟨_, h⟩⟩
      · constructor
        · intro h
          rcases herr with h' | h' <;> rw [h'] at h <;> exact absurd h (by simp)
        · intro h
          exact absurd hc h.1
    · by_cases hal : self.size_ = self.capacity_ ∧ alloc = false
      · have := hbad hc hal.1 hal.2
        exact ⟨⟨fun _ => Or.inr hal, fun _ => ⟨_, this⟩⟩, ⟨fun _ => ⟨hc, hal⟩, fun _ => this⟩⟩
      · have hal' : self.size_ = self.capacity_ → alloc = true := by
          intro heq
          cases alloc with
          | true => rfl
          | false => exact absurd ⟨heq, rfl⟩ hal
        have := hgood hc hal'
        rw [this]
        constructor
        · constructor
          · rintro ⟨err, h⟩
            exact absurd h (by simp)
          · rintro (h | h)
            · exact absurd h hc
            · exact absurd h hal
        · constructor
          · intro h
            exact absurd h (by simp)
          · intro h
            exact absurd h.2 hal

/-- Witness for the amended C12: with `MAX_CAPACITY = 3` an insert into a list of size 3
raises the full-container error, also for an index that is out of range; with room
left, the indices `-1` and `size_ + 1` raise the bounds error and the list stays as it
was; and with the array full and no memory left the call raises `std::bad_alloc`. -/
theorem ArrayList_insert_raises_witness :
    (ArrayList.insert 3 true (⟨3, 4, [1, 2, 3, 0]⟩ : ArrayList Int) 7 (.cell 1)).1
      = .error .full ∧
    (ArrayList.insert 8 true (⟨3, 4, [1, 2, 3, 0]⟩ : ArrayList Int) (-1) (.object 9)).1
      = .error .bounds ∧
    (ArrayList.insert 8 true (⟨3, 4, [1, 2, 3, 0]⟩ : ArrayList Int) 4 (.object 9)).1
      = .error .bounds ∧
    (ArrayList.insert 8 true (⟨3, 4, [1, 2, 3, 0]⟩ : ArrayList Int) 4 (.object 9)).2
      = ⟨3, 4, [1, 2, 3, 0]⟩ ∧
    (ArrayList.insert 8 false (⟨4, 4, [1, 2, 3, 4]⟩ : ArrayList Int) 0 (.object 9)).1
      = .error .alloc :=
  have h := ArrayList_insert_raises (T := Int)
  have h3 := (h 8).1 ⟨3, 4, [1, 2, 3, 0]⟩ 4 (.object 9) true
  ⟨((h 3).1 ⟨3, 4, [1, 2, 3, 0]⟩ 7 (.cell 1) true).1.mpr (by decide),
   ((h 8).1 ⟨3, 4, [1, 2, 3, 0]⟩ (-1) (.object 9) true).2.1.mpr (by decide),
   h3.2.1.mpr (by decide),
   (h3.2.2.2 (Or.inr (h3.2.1.mpr (by decide)))).1,
   ((h 8).2 ⟨4, 4, [1, 2, 3, 4]⟩ 0 9 false (by decide)).2.mpr (by decide)⟩

end HelloDS
